import Mathlib

/-!
# Verification of the uWebSockets HTTP/1.x request parser (`src/HttpParser.h`)

This file is a shallow embedding, in Lean 4, of the request parser in
`src/HttpParser.h` of the uWebSockets repository, together with theorems
settling a list of claims about it.

Modelling conventions:

* Bytes are `Nat` values; a byte buffer is a `List Nat`.  All functions are
  translated from the C++ source.  The source writes a sentinel `'\r'` one
  byte past the end of the buffer (`data[length] = '\r'`, the "fence"); we
  model a read at the fence position by `List.headD _ 13`, so reading past
  the final list element yields the fence byte `13`.  The tokenizer never
  reads beyond the fence position (every scanning loop stops at a byte that
  is `≤ 32` or at `end`), except the non-short-circuit conjunct
  `postPaddedBuffer[1] == '\n'` on line 253, whose value is irrelevant there
  because it is bitwise-ANDed with `postPaddedBuffer != end` being false.

* The source lowercases header-name bytes in place (`*p |= 32`).  The model
  returns the lowercased keys but does not mutate the buffer: re-parsing a
  partially lowercased buffer gives exactly the same result (the scan
  predicate `b > 32 && b != ':'` is stable under `|= 32`, which is
  idempotent), and value/body slices are never mutated, so the pure model
  is observationally equivalent.

* Handlers are modelled as pure event recorders that always return the
  `user` token (the "continue" disposition); `errorHandler` is recorded as
  an `Ev.errh` event and its return value is the distinct outcome
  `Outcome.errh`.  The error sentinel `FULLPTR` is `Outcome.fullptr`.

* Loops are translated with an explicit structural fuel argument so that
  every definition computes by kernel reduction; each fuel is chosen
  (list length, or the constant 50 loop bound of `getHeaders`) so that it
  can never run out before the loop's own exit condition fires.
-/

namespace UWS

/-- One header-table slot: a (key, value) pair of byte strings
(`struct HttpRequest::Header`). -/
structure Header where
  key : List Nat
  value : List Nat
deriving DecidableEq, Repr

/-- Read of `*postPaddedBuffer`: the head byte, or the post-padding fence
byte `'\r' = 13` when the cursor is at `end`. -/
def byte0 (l : List Nat) : Nat := l.headD 13

/-- Read of `postPaddedBuffer[1]` relative to the cursor. -/
def byte1 (l : List Nat) : Nat := (l.drop 1).headD 13

/-- The key-scanning loop of `getHeaders` (line 251):
`for (preliminaryKey = p; (*p != ':') & (*p > 32); *(p++) |= 32);`.
Returns the scanned key, lowercased byte by byte, and the rest of the
buffer starting at the terminating byte. -/
def scanKey : List Nat → List Nat × List Nat
  | [] => ([], [])
  | c :: rest =>
    if c ≠ 58 ∧ 32 < c then
      let p := scanKey rest
      ((c ||| 32) :: p.1, p.2)
    else ([], c :: rest)

/-- The value-start skipping loop of `getHeaders` (line 261):
`for (p++; (*p == ':' || *p < 33) && *p != '\r'; p++);` — the caller has
already dropped the byte that terminated the key scan. -/
def skipToValue : List Nat → List Nat
  | [] => []
  | c :: rest => if (c = 58 ∨ c < 33) ∧ c ≠ 13 then skipToValue rest else c :: rest

/-- Little-endian load of a byte list as one machine word
(the model of `*(uint64_t *)p`; the list passed in has exactly 8
elements). -/
def loadWord : List Nat → Nat
  | [] => 0
  | b :: rest => b + 256 * loadWord rest

/-- The word-parallel break test of `memchr_r` (line 206): with
`val = *(uint64_t *)p ^ 0x0d0d…0d`, test
`(val + 0xfefefefefefefeff) & (~val & 0x8080808080808080)`.
All 64-bit operations are modelled on `Nat` with an explicit `% 2^64`. -/
def swarHasCR (w : Nat) : Bool :=
  let v := w ^^^ 0x0d0d0d0d0d0d0d0d
  decide ((((v + 0xfefefefefefefeff) % 2 ^ 64) &&&
    ((2 ^ 64 - 1 - v) &&& 0x8080808080808080)) ≠ 0)

/-- The byte-wise tail loop of `memchr_r` (line 212), returning the index
(offset by `i`) of the first `'\r'`. -/
def memchrTail : List Nat → Nat → Option Nat
  | [], _ => none
  | c :: rest, i => if c = 13 then some i else memchrTail rest (i + 1)

/-- The 8-bytes-per-step loop of `memchr_r` (lines 203–210), followed by the
byte-wise tail.  The fuel starts at the list length and cannot run out
because each step drops 8 bytes. -/
def memchrSwar : Nat → List Nat → Nat → Option Nat
  | 0, l, i => memchrTail l i
  | fuel + 1, l, i =>
    if 8 ≤ l.length then
      if swarHasCR (loadWord (l.take 8)) then memchrTail l i
      else memchrSwar fuel (l.drop 8) (i + 8)
    else memchrTail l i

/-- `memchr_r(p, end)`: position of the first `'\r'` in the byte range, or
none.  The range passed in is `[p, end)`, which excludes the fence byte. -/
def memchr_r (l : List Nat) : Option Nat := memchrSwar l.length l 0

/-- A naive byte-wise first-occurrence scan for `'\r'`, the reference
specification for `memchr_r`. -/
def naiveScanCR : List Nat → Option Nat
  | [] => none
  | c :: rest => if c = 13 then some 0 else (naiveScanCR rest).map (· + 1)

/-- `HttpRequest::MAX_HEADERS`. -/
def MAX_HEADERS : Nat := 50

/-- The header loop of `getHeaders` (lines 250–272).  `fuel` counts the
remaining loop iterations (starting at `MAX_HEADERS = 50`) and `i` is the
loop counter (`fuel + i = 50` throughout).  Returns the parsed header list
and the unconsumed rest of the buffer, or `none` for the source's
`return 0`. -/
def ghLoop : Nat → Nat → List Nat → Option (List Header × List Nat)
  | 0, _, _ => none
  | fuel + 1, i, l =>
    let p := scanKey l
    let r1 := p.2
    if byte0 r1 = 13 then
      if r1 ≠ [] ∧ byte1 r1 = 10 ∧ 0 < i then some ([], r1.drop 2) else none
    else
      let r2 := skipToValue (r1.drop 1)
      match memchr_r r2 with
      | none => none
      | some j =>
        if (r2.drop (j + 1)).headD 13 = 10 then
          match ghLoop fuel (i + 1) (r2.drop (j + 2)) with
          | none => none
          | some (hs, rest) => some (⟨p.1, r2.take j⟩ :: hs, rest)
        else none

/-- `getHeaders(postPaddedBuffer, end, headers, reserved)` (without the
disabled PROXY-protocol block): parses one complete request head.
`some (hs, rest)` corresponds to a nonzero consumed count
`l.length - rest.length`; `none` is the source's `return 0`. -/
def getHeadersR (l : List Nat) : Option (List Header × List Nat) :=
  ghLoop MAX_HEADERS 0 l

/-- The header lookup loop of `HttpRequest::getHeader` (line 100): scan the
header table from slot 1, stopping at the first empty key. -/
def findHeader : List Header → List Nat → Option (List Nat)
  | [], _ => none
  | h :: rest, name =>
    if h.key = [] then none
    else if h.key = name then some h.value else findHeader rest name

/-- Modelled from the spec: `BloomFilter` (`BloomFilter.h` is not under
`src/`).  Per spec §4.2 the filter is reset per request, every header key
of slots `1..` is added (the loop on line 299 stops at the first empty
key), `mightHave` has no false negatives and may have false positives.
We model the exact-set instance (no false positives); any sound filter
yields the same `getHeader` results, since a false positive only causes a
linear scan that fails anyway. -/
def bloomKeys (hs : List Header) : List (List Nat) :=
  ((hs.drop 1).takeWhile (fun h => h.key ≠ [])).map (fun h => h.key)

/-- `HttpRequest::getHeader(lowerCasedHeader)`: bloom-filter guard, then
linear scan from slot 1.  `none` models the null view
`string_view(nullptr, 0)`; `some v` is a non-null view (possibly of
length zero). -/
def getHeaderOpt (hs : List Header) (name : List Nat) : Option (List Nat) :=
  if name ∈ bloomKeys hs then findHeader (hs.drop 1) name else none

/-- The value a `getHeader` result presents to `.length()`:
the view's bytes, with the null view giving length 0. -/
def headerValOf (hs : List Header) (name : List Nat) : List Nat :=
  (getHeaderOpt hs name).getD []

/-- `UINT_MAX` of the 32-bit platform. -/
def UINT_MAX : Nat := 4294967295

/-- `HttpParser::toUnsignedInteger` digit loop. -/
def tuiLoop : Nat → List Nat → Nat
  | acc, [] => acc
  | acc, c :: rest =>
    if c < 48 ∨ 57 < c then UINT_MAX else tuiLoop (acc * 10 + (c - 48)) rest

/-- `HttpParser::toUnsignedInteger(str)`: bounded decimal parser, returning
`UINT_MAX` on any input longer than 9 bytes or containing a non-digit. -/
def toUnsignedInteger (str : List Nat) : Nat :=
  if 9 < str.length then UINT_MAX else tuiLoop 0 str

/-- The decimal value of a digit string (reference meaning for
`toUnsignedInteger`). -/
def decimalValue (str : List Nat) : Nat :=
  str.foldl (fun a c => a * 10 + (c - 48)) 0

/-- An ASCII digit byte. -/
def isDigitByte (c : Nat) : Bool := 48 ≤ c ∧ c ≤ 57

end UWS

namespace UWS

/-! Sanity checks of the tokenizer on concrete byte strings. -/

/-- Byte string of an ASCII literal. -/
def strBytes (s : String) : List Nat := s.data.map Char.toNat

example : toUnsignedInteger (strBytes "999999999") = 999999999 := by decide
example : toUnsignedInteger (strBytes "1234567890") = UINT_MAX := by decide
example : toUnsignedInteger (strBytes "12a") = UINT_MAX := by decide
example : toUnsignedInteger [] = 0 := by decide

example : memchr_r (strBytes "abcdefghij\rxy") = some 10 := by decide
example : memchr_r (strBytes "abc") = none := by decide
example : naiveScanCR (strBytes "abcdefghij\rxy") = some 10 := by decide

example :
    getHeadersR (strBytes "get /a b\r\nhost: h\r\n\r\nrest") =
      some ([⟨strBytes "get", strBytes "/a b"⟩, ⟨strBytes "host", strBytes "h"⟩],
        strBytes "rest") := by decide

example : getHeadersR (strBytes "get /a b\r\nhost: h\r\n") = none := by decide

/-!
## Chunked transfer-coding model

`ChunkedEncoding.h` is not under `src/`; the state machine below is
modelled from the spec (§3 "Parser State", §4.4 "Chunked").
-/

/-- Modelled from the spec: the value `HttpParser.h` assigns on line 358.
The spec packs chunked substate into the top bits of the 32-bit
*remaining body bytes*; the model encodes substate `tag` and 30-bit
payload as `tag * 2^31 + payload`, with `2^31` (tag 1: reading a size
line, empty accumulator) the initial chunked state.  Every chunked state
is `≥ 2^31`, hence nonzero, and never collides with a fixed length
(at most 999 999 999 `< 2^30`). -/
def STATE_IS_CHUNKED : Nat := 2 ^ 31

/-- Modelled from the spec: the distinguished invalid chunked-decoder
state reported by `isParsingInvalidChunkedEncoding`. -/
def INVALID_CHUNK : Nat := 15 * 2 ^ 31

/-- Modelled from the spec: `isParsingChunkedEncoding(remainingStreamingBytes)`
— the chunked-substate bits are set. -/
def isChunkedState (n : Nat) : Bool := 2 ^ 31 ≤ n

/-- Modelled from the spec: `isParsingInvalidChunkedEncoding`. -/
def isInvalidChunk (n : Nat) : Bool := n = INVALID_CHUNK

/-- Chunked-state encoding helper: substate tag and 30-bit payload. -/
def encC (tag payload : Nat) : Nat := tag * 2 ^ 31 + payload

/-- Hexadecimal digit value of a byte, if any. -/
def hexDigit (c : Nat) : Option Nat :=
  if 48 ≤ c ∧ c ≤ 57 then some (c - 48)
  else if 97 ≤ c ∧ c ≤ 102 then some (c - 87)
  else if 65 ≤ c ∧ c ≤ 70 then some (c - 55)
  else none

/-- Modelled from the spec: the chunked decoder drain
(`uWS::ChunkIterator` over `dataToConsume` and `remainingStreamingBytes`).
Substates (spec §4.4): reading size line (tag 1, payload = accumulated
size), size-line LF (tag 2, payload = size), reading chunk data (tag 3,
payload = bytes left), chunk CRLF (tags 4, 5), reading trailers
(tags 6–8), final LF (tag 9).  A size overflowing 30 bits, bad hex, or a
missing CRLF puts the decoder in `INVALID_CHUNK`.  On the final LF the
state resets to idle (0), a terminal empty chunk is emitted, and the
remaining input is left unconsumed.  Returns (emitted chunks, final
state, leftover input).  Fuel is the input length; every step consumes at
least one byte. -/
def chunkDrainF : Nat → Nat → List Nat → List (List Nat) × Nat × List Nat
  | 0, st, l => ([], st, l)
  | fuel + 1, st, l =>
    match l with
    | [] => ([], st, [])
    | c :: rest =>
      let tag := st / 2 ^ 31
      let pl := st % 2 ^ 31
      if tag = 1 then
        match hexDigit c with
        | some d =>
          let acc := 16 * pl + d
          if 2 ^ 30 ≤ acc then ([], INVALID_CHUNK, rest)
          else chunkDrainF fuel (encC 1 acc) rest
        | none =>
          if c = 13 then chunkDrainF fuel (encC 2 pl) rest
          else ([], INVALID_CHUNK, rest)
      else if tag = 2 then
        if c = 10 then
          if pl = 0 then chunkDrainF fuel (encC 6 0) rest
          else chunkDrainF fuel (encC 3 pl) rest
        else ([], INVALID_CHUNK, rest)
      else if tag = 3 then
        if pl = 0 then ([], INVALID_CHUNK, l)
        else
          let k := min pl l.length
          let piece := l.take k
          if pl ≤ l.length then
            let r := chunkDrainF fuel (encC 4 0) (l.drop k)
            (piece :: r.1, r.2)
          else ([piece], encC 3 (pl - l.length), [])
      else if tag = 4 then
        if c = 13 then chunkDrainF fuel (encC 5 0) rest
        else ([], INVALID_CHUNK, rest)
      else if tag = 5 then
        if c = 10 then chunkDrainF fuel (encC 1 0) rest
        else ([], INVALID_CHUNK, rest)
      else if tag = 6 then
        if c = 13 then chunkDrainF fuel (encC 9 0) rest
        else chunkDrainF fuel (encC 7 0) rest
      else if tag = 7 then
        if c = 13 then chunkDrainF fuel (encC 8 0) rest
        else chunkDrainF fuel (encC 7 0) rest
      else if tag = 8 then
        if c = 10 then chunkDrainF fuel (encC 6 0) rest
        else ([], INVALID_CHUNK, rest)
      else if tag = 9 then
        if c = 10 then ([[]], 0, rest)
        else ([], INVALID_CHUNK, rest)
      else ([], INVALID_CHUNK, l)

/-- Modelled from the spec: run the chunked decoder over the available
input. -/
def chunkDrain (st : Nat) (l : List Nat) : List (List Nat) × Nat × List Nat :=
  chunkDrainF l.length st l

example :
    chunkDrain STATE_IS_CHUNKED (strBytes "5\r\nhello\r\n0\r\n\r\ntail") =
      ([strBytes "hello", []], 0, strBytes "tail") := by decide

example :
    chunkDrain STATE_IS_CHUNKED (strBytes "5\r\nhel") =
      ([strBytes "hel"], encC 3 2, []) := by decide

example :
    (chunkDrain STATE_IS_CHUNKED (strBytes "zz\r\n")).2.1 = INVALID_CHUNK := by
  decide

/-!
## The driver: `fenceAndConsumePostPadded` and `consumePostPadded`
-/

/-- An observable handler invocation: `req` models a `requestHandler`
call (with the populated header table), `data` a `dataHandler` call
(chunk bytes and end-of-body flag), `errh` an `errorHandler` call. -/
inductive Ev where
  | req (hs : List Header)
  | data (chunk : List Nat) (isEnd : Bool)
  | errh
deriving DecidableEq, Repr

/-- The value `consumePostPadded` returns: the `user` token ("keep
going"), the parser-error sentinel `FULLPTR`, or the value returned by
`errorHandler`. -/
inductive Outcome where
  | ok
  | fullptr
  | errh
deriving DecidableEq, Repr

/-- Result of one `fenceAndConsumePostPadded` call: the unconsumed rest
of the buffer (the source's `consumed` count is
`input.length - rest.length`), whether `FULLPTR` was returned, the events
emitted, and the final `remainingStreamingBytes`. -/
structure FenceRes where
  rest : List Nat
  fullptr : Bool
  events : List Ev
  rem : Nat
deriving DecidableEq, Repr

def hostBytes : List Nat := strBytes "host"
def teBytes : List Nat := strBytes "transfer-encoding"
def clBytes : List Nat := strBytes "content-length"

/-- `fenceAndConsumePostPadded<CONSUME_MINIMALLY>` (lines 280–401).
`minimal` is the template parameter, `rem0` the entry value of the member
`remainingStreamingBytes` (the loop body overwrites it per request), `l`
the buffer.  On the error returns `{0, FULLPTR}` the `rest` field is the
whole remaining buffer (consumed count 0).  Fuel is `l.length + 1`; each
loop iteration consumes at least one byte of `l`. -/
def fenceF : Nat → Bool → Nat → List Nat → FenceRes
  | 0, _, rem0, l => ⟨l, false, [], rem0⟩
  | fuel + 1, minimal, rem0, l =>
    if l = [] then ⟨l, false, [], rem0⟩ else
    match getHeadersR l with
    | none => ⟨l, false, [], rem0⟩
    | some (hs, rest) =>
      if getHeaderOpt hs hostBytes = none then ⟨l, true, [], rem0⟩ else
      let te := headerValOf hs teBytes
      let cl := headerValOf hs clBytes
      if te ≠ [] ∧ cl ≠ [] then ⟨l, true, [], rem0⟩ else
      if te ≠ [] then
        if minimal then ⟨rest, false, [Ev.req hs], STATE_IS_CHUNKED⟩
        else
          let d := chunkDrain STATE_IS_CHUNKED rest
          let evs := Ev.req hs :: d.1.map (fun ch => Ev.data ch ch.isEmpty)
          if isInvalidChunk d.2.1 then ⟨l, true, evs, d.2.1⟩
          else
            let r := fenceF fuel false d.2.1 d.2.2
            ⟨r.rest, r.fullptr, evs ++ r.events, r.rem⟩
      else if cl ≠ [] then
        let n := toUnsignedInteger cl
        if n = UINT_MAX then ⟨l, true, [Ev.req hs], n⟩
        else if minimal then ⟨rest, false, [Ev.req hs], n⟩
        else
          let emit := min n rest.length
          let r := fenceF fuel false (n - emit) (rest.drop emit)
          ⟨r.rest, r.fullptr,
            Ev.req hs :: Ev.data (rest.take emit) (decide (emit = n)) :: r.events,
            r.rem⟩
      else
        if minimal then ⟨rest, false, [Ev.req hs, Ev.data [] true], rem0⟩
        else
          let r := fenceF fuel false rem0 rest
          ⟨r.rest, r.fullptr, Ev.req hs :: Ev.data [] true :: r.events, r.rem⟩

/-- `fenceAndConsumePostPadded` with its fuel instantiated. -/
def fence (minimal : Bool) (rem0 : Nat) (l : List Nat) : FenceRes :=
  fenceF (l.length + 1) minimal rem0 l

/-- `MAX_FALLBACK_SIZE`. -/
def MAX_FALLBACK_SIZE : Nat := 4096

/-- The persistent `HttpParser` state: the fallback buffer and
`remainingStreamingBytes`. -/
structure PState where
  fallback : List Nat
  remaining : Nat
deriving DecidableEq, Repr

/-- A fresh parser (`fallback` empty, `remainingStreamingBytes = 0`). -/
def initState : PState := ⟨[], 0⟩

/-- Result of one `consumePostPadded` call. -/
structure CRes where
  outcome : Outcome
  events : List Ev
  state : PState
deriving DecidableEq, Repr

/-- Lines 511–528 of `consumePostPadded`: the main
`fenceAndConsumePostPadded<false>` run on the post-fallback tail, then
stashing of any remainder shorter than `MAX_FALLBACK_SIZE` (appended to
the current fallback buffer), or `errorHandler` otherwise.  `fb` is the
fallback buffer's value at this point, `rem0` the current
`remainingStreamingBytes`, `evs` the events already emitted. -/
def mainPhase (fb : List Nat) (rem0 : Nat) (d : List Nat) (evs : List Ev) : CRes :=
  let r := fence false rem0 d
  if r.fullptr then ⟨.fullptr, evs ++ r.events, ⟨fb, r.rem⟩⟩
  else if r.rest = [] then ⟨.ok, evs ++ r.events, ⟨fb, r.rem⟩⟩
  else if r.rest.length < MAX_FALLBACK_SIZE then
    ⟨.ok, evs ++ r.events, ⟨fb ++ r.rest, r.rem⟩⟩
  else ⟨.errh, evs ++ r.events ++ [Ev.errh], ⟨fb, r.rem⟩⟩

/-- `HttpParser::consumePostPadded(data, length, user, …)`
(lines 404–529), with handlers modelled as recorders that always return
`user`. -/
def consumePostPadded (st : PState) (data : List Nat) : CRes :=
  if st.remaining ≠ 0 then
    if isChunkedState st.remaining then
      let d := chunkDrain st.remaining data
      let evs := d.1.map fun ch => Ev.data ch ch.isEmpty
      if isInvalidChunk d.2.1 then ⟨.fullptr, evs, ⟨st.fallback, d.2.1⟩⟩
      else mainPhase st.fallback d.2.1 d.2.2 evs
    else
      if data.length ≤ st.remaining then
        ⟨.ok, [Ev.data data (decide (st.remaining = data.length))],
          ⟨st.fallback, st.remaining - data.length⟩⟩
      else
        mainPhase st.fallback 0 (data.drop st.remaining)
          [Ev.data (data.take st.remaining) true]
  else if st.fallback ≠ [] then
    let had := st.fallback.length
    let mcd := min (MAX_FALLBACK_SIZE - had) data.length
    let fb1 := st.fallback ++ data.take mcd
    let fr := fence true 0 fb1
    if fr.fullptr then ⟨.fullptr, fr.events, ⟨fb1, fr.rem⟩⟩
    else
      let consumed := fb1.length - fr.rest.length
      if consumed ≠ 0 then
        let d1 := data.drop (consumed - had)
        if fr.rem ≠ 0 then
          if isChunkedState fr.rem then
            let d := chunkDrain fr.rem d1
            let evs := fr.events ++ d.1.map fun ch => Ev.data ch ch.isEmpty
            if isInvalidChunk d.2.1 then ⟨.fullptr, evs, ⟨[], d.2.1⟩⟩
            else mainPhase [] d.2.1 d.2.2 evs
          else
            if d1.length ≤ fr.rem then
              ⟨.ok, fr.events ++ [Ev.data d1 (decide (fr.rem = d1.length))],
                ⟨[], fr.rem - d1.length⟩⟩
            else
              mainPhase [] 0 (d1.drop fr.rem)
                (fr.events ++ [Ev.data (d1.take fr.rem) true])
        else mainPhase [] fr.rem d1 fr.events
      else
        if fb1.length = MAX_FALLBACK_SIZE then
          ⟨.errh, fr.events ++ [Ev.errh], ⟨fb1, fr.rem⟩⟩
        else ⟨.ok, fr.events, ⟨fb1, fr.rem⟩⟩
  else mainPhase st.fallback 0 data []

/-- Feed a sequence of input chunks to one parser instance, stopping (as
the hosting server does, by closing the connection) at the first call
whose result is not the `user` token. -/
def runCalls : PState → List (List Nat) → List Ev × PState × Outcome
  | st, [] => ([], st, .ok)
  | st, c :: cs =>
    let r := consumePostPadded st c
    match r.outcome with
    | .ok =>
      let t := runCalls r.state cs
      (r.events ++ t.1, t.2)
    | o => (r.events, r.state, o)

/-! Driver sanity checks (spec §8 scenarios S1, S2, S4, S6). -/

example :
    consumePostPadded initState (strBytes "GET /a?x=1 HTTP/1.1\r\nHost: h\r\n\r\n") =
      ⟨.ok,
        [Ev.req [⟨strBytes "get", strBytes "/a?x=1 HTTP/1.1"⟩,
          ⟨strBytes "host", strBytes "h"⟩], Ev.data [] true],
        ⟨[], 0⟩⟩ := by decide

example :
    (consumePostPadded initState
      (strBytes "POST /u HTTP/1.1\r\nHost: h\r\nContent-Length: 5\r\n\r\nhello")).events =
      [Ev.req [⟨strBytes "post", strBytes "/u HTTP/1.1"⟩,
        ⟨strBytes "host", strBytes "h"⟩,
        ⟨strBytes "content-length", strBytes "5"⟩],
       Ev.data (strBytes "hello") true] := by decide

example :
    (consumePostPadded initState
      (strBytes "GET / HTTP/1.1\r\nHost: h\r\nContent-Length: 3\r\nTransfer-Encoding: chunked\r\n\r\nabc")) =
      ⟨.fullptr, [], ⟨[], 0⟩⟩ := by decide

example :
    (consumePostPadded initState
      (strBytes "POST /u HTTP/1.1\r\nHost: h\r\nTransfer-Encoding: chunked\r\n\r\n5\r\nhello\r\n0\r\n\r\n")).events =
      [Ev.req [⟨strBytes "post", strBytes "/u HTTP/1.1"⟩,
        ⟨strBytes "host", strBytes "h"⟩,
        ⟨strBytes "transfer-encoding", strBytes "chunked"⟩],
       Ev.data (strBytes "hello") false, Ev.data [] true] := by decide

example :
    (consumePostPadded initState
      (strBytes "GET /1 HTTP/1.1\r\nHost: h\r\n\r\nGET /2 HTTP/1.1\r\nHost: h\r\n\r\n")).events =
      [Ev.req [⟨strBytes "get", strBytes "/1 HTTP/1.1"⟩, ⟨strBytes "host", strBytes "h"⟩],
       Ev.data [] true,
       Ev.req [⟨strBytes "get", strBytes "/2 HTTP/1.1"⟩, ⟨strBytes "host", strBytes "h"⟩],
       Ev.data [] true] := by decide

/- Byte-at-a-time delivery of S1 gives the same events (spec §8 S5). -/
example :
    (runCalls initState
      ((strBytes "GET /a?x=1 HTTP/1.1\r\nHost: h\r\n\r\n").map (fun b => [b]))).1 =
      (consumePostPadded initState (strBytes "GET /a?x=1 HTTP/1.1\r\nHost: h\r\n\r\n")).events := by
  decide

/-!
## The bounded decimal parser (claim C6)
-/

lemma tuiLoop_digits (l : List Nat) :
    ∀ acc : Nat, (l.all isDigitByte →
        tuiLoop acc l = l.foldl (fun a c => a * 10 + (c - 48)) acc) ∧
      (¬ l.all isDigitByte → tuiLoop acc l = UINT_MAX) := by
  induction l with
  | nil => intro acc; simp [tuiLoop]
  | cons c rest ih =>
    intro acc
    constructor
    · intro hall
      simp only [List.all_cons, Bool.and_eq_true] at hall
      have hc : ¬ (c < 48 ∨ 57 < c) := by
        have := hall.1
        simp only [isDigitByte, decide_eq_true_eq] at this
        omega
      simp only [tuiLoop, if_neg hc, List.foldl_cons]
      exact (ih (acc * 10 + (c - 48))).1 hall.2
    · intro hnall
      simp only [List.all_cons, Bool.and_eq_true] at hnall
      by_cases hc : c < 48 ∨ 57 < c
      · simp [tuiLoop, if_pos hc]
      · have hcd : isDigitByte c = true := by
          simp only [isDigitByte, decide_eq_true_eq]; omega
        simp only [tuiLoop, if_neg hc]
        exact (ih (acc * 10 + (c - 48))).2 (fun h2 => hnall ⟨hcd, h2⟩)

/-- C6: `toUnsignedInteger` returns the decimal value of any all-digit
string of length at most 9, and the sentinel `UINT_MAX` on every other
input. -/
theorem toUnsignedInteger_spec (s : List Nat) :
    toUnsignedInteger s =
      if s.length ≤ 9 ∧ s.all isDigitByte then decimalValue s else UINT_MAX := by
  by_cases hlen : 9 < s.length
  · simp only [toUnsignedInteger, if_pos hlen]
    rw [if_neg (fun h => absurd h.1 (by omega))]
  · by_cases hall : s.all isDigitByte
    · have h9 : s.length ≤ 9 := by omega
      simp only [toUnsignedInteger, if_neg hlen, decimalValue]
      rw [(tuiLoop_digits s 0).1 hall]
      simp [h9, hall]
    · simp only [toUnsignedInteger, if_neg hlen]
      rw [(tuiLoop_digits s 0).2 hall]
      simp [hall]

/-!
## The word-parallel CR scanner (claim C9)

The SWAR zero-byte test `(v - 0x0101…01) & ~v & 0x8080…80` is analysed
byte by byte: little-endian words are byte lists under `loadWord`, the
bitwise operations distribute over the byte decomposition, and the
wrapping subtraction of `0x0101…01` is computed by an explicit
borrow-chain `subOnes`.
-/

lemma testBit_add_mul_two_pow :
    ∀ (k a x i : Nat), a < 2 ^ k →
      (a + 2 ^ k * x).testBit i = if i < k then a.testBit i else x.testBit (i - k) := by
  intro k
  induction k with
  | zero =>
    intro a x i ha
    interval_cases a
    simp
  | succ k ih =>
    intro a x i ha
    cases i with
    | zero =>
      have h2 : (a + 2 ^ (k + 1) * x) % 2 = a % 2 := by
        have : 2 ^ (k + 1) * x = 2 * (2 ^ k * x) := by ring
        rw [this, Nat.add_mul_mod_self_left]
      simp [Nat.testBit_zero, h2]
    | succ i =>
      have hdiv : (a + 2 ^ (k + 1) * x) / 2 = a / 2 + 2 ^ k * x := by
        have : a + 2 ^ (k + 1) * x = a + 2 * (2 ^ k * x) := by ring
        rw [this, Nat.add_mul_div_left _ _ (by norm_num)]
      have ha2 : a / 2 < 2 ^ k := by
        rw [Nat.div_lt_iff_lt_mul (by norm_num)]
        calc a < 2 ^ (k + 1) := ha
          _ = 2 ^ k * 2 := by ring
      rw [Nat.testBit_add_one, hdiv, ih (a / 2) x i ha2, Nat.testBit_add_one]
      by_cases h : i < k
      · simp [h, Nat.succ_lt_succ h]
      · have hns : ¬ i + 1 < k + 1 := by omega
        simp [h, hns, Nat.succ_sub_succ]

lemma land_add_mul_two_pow (k a b x y : Nat) (ha : a < 2 ^ k) (hb : b < 2 ^ k) :
    (a + 2 ^ k * x) &&& (b + 2 ^ k * y) = (a &&& b) + 2 ^ k * (x &&& y) := by
  apply Nat.eq_of_testBit_eq
  intro i
  have hab : a &&& b < 2 ^ k := lt_of_le_of_lt Nat.and_le_left ha
  rw [Nat.testBit_land, testBit_add_mul_two_pow k a x i ha,
    testBit_add_mul_two_pow k b y i hb,
    testBit_add_mul_two_pow k (a &&& b) (x &&& y) i hab]
  by_cases h : i < k <;> simp [h, Nat.testBit_land]

lemma xor_add_mul_two_pow (k a b x y : Nat) (ha : a < 2 ^ k) (hb : b < 2 ^ k) :
    (a + 2 ^ k * x) ^^^ (b + 2 ^ k * y) = (a ^^^ b) + 2 ^ k * (x ^^^ y) := by
  apply Nat.eq_of_testBit_eq
  intro i
  have hab : a ^^^ b < 2 ^ k := Nat.xor_lt_two_pow ha hb
  rw [Nat.testBit_xor, testBit_add_mul_two_pow k a x i ha,
    testBit_add_mul_two_pow k b y i hb,
    testBit_add_mul_two_pow k (a ^^^ b) (x ^^^ y) i hab]
  by_cases h : i < k <;> simp [h, Nat.testBit_xor]

lemma loadWord_lt (v : List Nat) (hv : ∀ b ∈ v, b < 256) :
    loadWord v < 2 ^ (8 * v.length) := by
  induction v with
  | nil => simp [loadWord]
  | cons b r ih =>
    have hb : b < 256 := hv b (by simp)
    have hr : loadWord r < 2 ^ (8 * r.length) := ih (fun x hx => hv x (by simp [hx]))
    have hpow : 2 ^ (8 * (b :: r).length) = 256 * 2 ^ (8 * r.length) := by
      simp only [List.length_cons]
      rw [show 8 * (r.length + 1) = 8 * r.length + 8 by ring, pow_add]
      ring
    rw [hpow, loadWord]
    nlinarith

lemma loadWord_replicate_255 (n : Nat) :
    loadWord (List.replicate n 255) = 2 ^ (8 * n) - 1 := by
  induction n with
  | zero => simp [loadWord]
  | succ n ih =>
    have hpos : (0:Nat) < 2 ^ (8 * n) := Nat.pos_pow_of_pos _ (by norm_num)
    simp only [List.replicate_succ, loadWord, ih]
    rw [show 8 * (n + 1) = 8 * n + 8 by ring, pow_add]
    omega

lemma loadWord_land (xs : List Nat) :
    ∀ ys : List Nat, xs.length = ys.length → (∀ b ∈ xs, b < 256) →
      (∀ b ∈ ys, b < 256) →
      loadWord xs &&& loadWord ys = loadWord (List.zipWith (· &&& ·) xs ys) := by
  induction xs with
  | nil => intro ys h _ _; simp [List.length_eq_zero.mp h.symm, loadWord]
  | cons x xs ih =>
    intro ys h hx hy
    match ys with
    | [] => simp at h
    | y :: ys =>
      have hx0 : x < 256 := hx x (by simp)
      have hy0 : y < 256 := hy y (by simp)
      have h256 : (256 : Nat) = 2 ^ 8 := by norm_num
      simp only [loadWord, List.zipWith_cons_cons]
      rw [h256, land_add_mul_two_pow 8 x y _ _ (h256 ▸ hx0) (h256 ▸ hy0),
        ih ys (by simpa using h) (fun b hb => hx b (by simp [hb]))
          (fun b hb => hy b (by simp [hb]))]

lemma loadWord_xor (xs : List Nat) :
    ∀ ys : List Nat, xs.length = ys.length → (∀ b ∈ xs, b < 256) →
      (∀ b ∈ ys, b < 256) →
      loadWord xs ^^^ loadWord ys = loadWord (List.zipWith (· ^^^ ·) xs ys) := by
  induction xs with
  | nil => intro ys h _ _; simp [List.length_eq_zero.mp h.symm, loadWord]
  | cons x xs ih =>
    intro ys h hx hy
    match ys with
    | [] => simp at h
    | y :: ys =>
      have hx0 : x < 256 := hx x (by simp)
      have hy0 : y < 256 := hy y (by simp)
      have h256 : (256 : Nat) = 2 ^ 8 := by norm_num
      simp only [loadWord, List.zipWith_cons_cons]
      rw [h256, xor_add_mul_two_pow 8 x y _ _ (h256 ▸ hx0) (h256 ▸ hy0),
        ih ys (by simpa using h) (fun b hb => hx b (by simp [hb]))
          (fun b hb => hy b (by simp [hb]))]

lemma loadWord_compl (v : List Nat) (hv : ∀ b ∈ v, b < 256) :
    loadWord (List.replicate v.length 255) - loadWord v =
      loadWord (v.map (fun b => 255 - b)) := by
  induction v with
  | nil => simp [loadWord]
  | cons b r ih =>
    have hb : b < 256 := hv b (by simp)
    have hr := ih (fun x hx => hv x (by simp [hx]))
    have hle : loadWord r ≤ loadWord (List.replicate r.length 255) := by
      have h1 := loadWord_lt r (fun x hx => hv x (by simp [hx]))
      rw [loadWord_replicate_255]
      omega
    simp only [List.length_cons, List.replicate_succ, loadWord, List.map_cons]
    omega

/-- Byte-wise borrow chain computing the wrapping subtraction of the
constant `0x0101…01` (plus an incoming borrow) from a little-endian byte
list. -/
def subOnes : List Nat → Nat → List Nat
  | [], _ => []
  | b :: r, brw =>
    if b < 1 + brw then (b + 256 - (1 + brw)) :: subOnes r 1
    else (b - (1 + brw)) :: subOnes r 0

lemma subOnes_length (v : List Nat) : ∀ brw, (subOnes v brw).length = v.length := by
  induction v with
  | nil => intro brw; simp [subOnes]
  | cons b r ih =>
    intro brw
    by_cases h : b < 1 + brw <;> simp [subOnes, h, ih]

lemma subOnes_bytes_lt (v : List Nat) :
    ∀ brw, brw ≤ 1 → (∀ b ∈ v, b < 256) → ∀ c ∈ subOnes v brw, c < 256 := by
  induction v with
  | nil => intro brw _ _ c hc; simp [subOnes] at hc
  | cons b r ih =>
    intro brw hbrw hv c hc
    have hb : b < 256 := hv b (by simp)
    by_cases h : b < 1 + brw
    · simp only [subOnes, if_pos h, List.mem_cons] at hc
      rcases hc with hc | hc
      · omega
      · exact ih 1 (by omega) (fun x hx => hv x (by simp [hx])) c hc
    · simp only [subOnes, if_neg h, List.mem_cons] at hc
      rcases hc with hc | hc
      · omega
      · exact ih 0 (by omega) (fun x hx => hv x (by simp [hx])) c hc

lemma mod_mul_decomp (a c t M : Nat) (ha : a < c) (hM : 0 < M) :
    (a + c * t) % (c * M) = a + c * (t % M) := by
  have hc : 0 < c := by omega
  conv_lhs => rw [show t = M * (t / M) + t % M from (Nat.div_add_mod t M).symm]
  rw [show a + c * (M * (t / M) + t % M) = a + c * (t % M) + (c * M) * (t / M) by ring,
    Nat.add_mul_mod_self_left]
  apply Nat.mod_eq_of_lt
  have h1 : t % M < M := Nat.mod_lt _ hM
  calc a + c * (t % M) < c + c * (t % M) := by omega
    _ = c * (t % M + 1) := by ring
    _ ≤ c * M := by
      apply Nat.mul_le_mul_left
      omega

lemma onesW_lt (n : Nat) : loadWord (List.replicate n 1) < 2 ^ (8 * n) := by
  simpa using loadWord_lt (List.replicate n 1) (by intro b hb; simp at hb; omega)

lemma subOnes_spec (v : List Nat) :
    ∀ brw, brw ≤ 1 → (∀ b ∈ v, b < 256) →
      (loadWord v + (2 ^ (8 * v.length) - (loadWord (List.replicate v.length 1) + brw))) %
          2 ^ (8 * v.length) =
        loadWord (subOnes v brw) := by
  induction v with
  | nil =>
    intro brw hbrw _
    interval_cases brw <;> simp [loadWord, subOnes]
  | cons b r ih =>
    intro brw hbrw hv
    have hb : b < 256 := hv b (by simp)
    have hOlt : loadWord (List.replicate r.length 1) < 2 ^ (8 * r.length) := onesW_lt _
    have hrbytes : ∀ x ∈ r, x < 256 := fun x hx => hv x (by simp [hx])
    have hMpos : 0 < 2 ^ (8 * r.length) := Nat.pos_pow_of_pos _ (by norm_num)
    have hpow : 2 ^ (8 * (b :: r).length) = 256 * 2 ^ (8 * r.length) := by
      simp only [List.length_cons]
      rw [show 8 * (r.length + 1) = 8 * r.length + 8 by ring, pow_add]
      ring
    have hO1 : loadWord (List.replicate (b :: r).length 1) =
        1 + 256 * loadWord (List.replicate r.length 1) := by
      simp [List.replicate_succ, loadWord]
    have hLW : loadWord (b :: r) = b + 256 * loadWord r := rfl
    rw [hLW, hO1, hpow]
    have ih1 := ih 1 (by omega) hrbytes
    have ih0 := ih 0 (by omega) hrbytes
    generalize hMdef : (2:Nat) ^ (8 * r.length) = M at hOlt hMpos ih1 ih0 ⊢
    by_cases hcase : b < 1 + brw
    · have heq : b + 256 * loadWord r +
          (256 * M - (1 + 256 * loadWord (List.replicate r.length 1) + brw)) =
          (b + 256 - (1 + brw)) +
            256 * (loadWord r + (M - (loadWord (List.replicate r.length 1) + 1))) := by
        omega
      rw [heq, mod_mul_decomp _ 256 _ _ (by omega) hMpos]
      simp only [subOnes, if_pos hcase, loadWord]
      rw [ih1]
    · have heq : b + 256 * loadWord r +
          (256 * M - (1 + 256 * loadWord (List.replicate r.length 1) + brw)) =
          (b - (1 + brw)) +
            256 * (loadWord r + (M - (loadWord (List.replicate r.length 1) + 0))) := by
        omega
      rw [heq, mod_mul_decomp _ 256 _ _ (by omega) hMpos]
      simp only [subOnes, if_neg hcase, loadWord]
      rw [ih0]

lemma loadWord_eq_zero_iff (v : List Nat) (hv : ∀ b ∈ v, b < 256) :
    loadWord v = 0 ↔ ∀ b ∈ v, b = 0 := by
  induction v with
  | nil => simp [loadWord]
  | cons b r ih =>
    have hb : b < 256 := hv b (by simp)
    have := ih (fun x hx => hv x (by simp [hx]))
    simp only [loadWord, List.mem_cons]
    constructor
    · intro h
      have hb0 : b = 0 := by omega
      have hr0 : loadWord r = 0 := by omega
      intro x hx
      rcases hx with hx | hx
      · omega
      · exact this.mp hr0 x hx
    · intro h
      have hb0 : b = 0 := h b (Or.inl rfl)
      have hr0 : loadWord r = 0 := this.mpr (fun x hx => h x (Or.inr hx))
      omega

set_option maxRecDepth 4000 in
/-- The per-byte SWAR value: non-zero exactly on a zero byte (no incoming
borrow). -/
lemma swar_byte_ne (b : Nat) (hb : b < 256) (hb0 : b ≠ 0) :
    (b - 1) &&& ((255 - b) &&& 128) = 0 := by
  have key : ∀ c : Fin 256, c.val ≠ 0 → (c.val - 1) &&& ((255 - c.val) &&& 128) = 0 := by
    decide
  exact key ⟨b, hb⟩ hb0

lemma swarExpr_iff (v : List Nat) (hv : ∀ b ∈ v, b < 256) :
    loadWord (List.zipWith (· &&& ·) (subOnes v 0)
        (List.zipWith (· &&& ·) (v.map (fun b => 255 - b)) (List.replicate v.length 128))) ≠ 0 ↔
      0 ∈ v := by
  induction v with
  | nil => simp [subOnes, loadWord]
  | cons b r ih =>
    have hb : b < 256 := hv b (by simp)
    have hrbytes : ∀ x ∈ r, x < 256 := fun x hx => hv x (by simp [hx])
    by_cases hb0 : b = 0
    · subst hb0
      simp only [subOnes, if_pos (by omega : (0:Nat) < 1 + 0), List.map_cons,
        List.length_cons, List.replicate_succ, List.zipWith_cons_cons, loadWord]
      have hhead : (0 + 256 - (1 + 0)) &&& ((255 - 0) &&& 128) = 128 := by decide
      rw [hhead]
      constructor
      · intro _; exact List.mem_cons_self _ _
      · intro _; positivity
    · have hbr : ¬ b < 1 + 0 := by omega
      simp only [subOnes, if_neg hbr, List.map_cons, List.length_cons,
        List.replicate_succ, List.zipWith_cons_cons, loadWord]
      rw [swar_byte_ne b hb hb0]
      have hzero : (0:Nat) + 256 * loadWord (List.zipWith (· &&& ·) (subOnes r 0)
          (List.zipWith (· &&& ·) (r.map (fun c => 255 - c)) (List.replicate r.length 128))) ≠ 0 ↔
          loadWord (List.zipWith (· &&& ·) (subOnes r 0)
            (List.zipWith (· &&& ·) (r.map (fun c => 255 - c)) (List.replicate r.length 128))) ≠ 0 := by
        constructor
        · intro h h0; apply h; rw [h0]
        · intro h h0; apply h; omega
      rw [hzero, ih hrbytes]
      constructor
      · intro h; exact List.mem_cons_of_mem _ h
      · intro h
        rcases List.mem_cons.mp h with h | h
        · exact absurd h.symm hb0
        · exact h

lemma zipWith_replicate_right (f : Nat → Nat → Nat) (c : Nat) :
    ∀ l : List Nat, List.zipWith f l (List.replicate l.length c) = l.map (fun b => f b c) := by
  intro l
  induction l with
  | nil => simp
  | cons x r ih => simp [List.replicate_succ, ih]

lemma zipWith_land_bytes (xs : List Nat) :
    ∀ ys : List Nat, (∀ b ∈ xs, b < 256) →
      ∀ c ∈ List.zipWith (· &&& ·) xs ys, c < 256 := by
  induction xs with
  | nil => intro ys _ c hc; simp at hc
  | cons x r ih =>
    intro ys hx c hc
    match ys with
    | [] => simp at hc
    | y :: ys =>
      simp only [List.zipWith_cons_cons, List.mem_cons] at hc
      rcases hc with hc | hc
      · have : x &&& y ≤ x := Nat.and_le_left
        have := hx x (by simp)
        omega
      · exact ih ys (fun b hb => hx b (by simp [hb])) c hc

/-- The word-parallel break test fires exactly when one of the 8 bytes is
`'\r'`. -/
lemma swarHasCR_iff (bs : List Nat) (h8 : bs.length = 8) (hb : ∀ b ∈ bs, b < 256) :
    swarHasCR (loadWord bs) = true ↔ 13 ∈ bs := by
  have hmask : (0x0d0d0d0d0d0d0d0d : Nat) = loadWord (List.replicate 8 13) := by decide
  have hxb : ∀ b ∈ List.replicate 8 13, b < 256 := by
    intro b hb13; simp at hb13; omega
  have hxor : loadWord bs ^^^ 0x0d0d0d0d0d0d0d0d =
      loadWord (bs.map (fun b => b ^^^ 13)) := by
    rw [hmask, loadWord_xor bs _ (by simp [h8]) hb hxb]
    rw [show List.replicate 8 13 = List.replicate bs.length 13 by rw [h8],
      zipWith_replicate_right]
  set v := bs.map (fun b => b ^^^ 13) with hvdef
  have hvb : ∀ b ∈ v, b < 256 := by
    intro b hbv
    rw [hvdef] at hbv
    simp only [List.mem_map] at hbv
    obtain ⟨a, ha, rfl⟩ := hbv
    have h1 : a < 2 ^ 8 := by have := hb a ha; norm_num; omega
    have h2 : (13:Nat) < 2 ^ 8 := by norm_num
    have := Nat.xor_lt_two_pow h1 h2
    norm_num at this
    omega
  have hvlen : v.length = 8 := by simp [hvdef, h8]
  have hsub : (loadWord v + 0xfefefefefefefeff) % 2 ^ 64 = loadWord (subOnes v 0) := by
    have h := subOnes_spec v 0 (by omega) hvb
    rw [hvlen] at h
    have hc1 : (2:Nat) ^ (8 * 8) - (loadWord (List.replicate 8 1) + 0) =
        0xfefefefefefefeff := by decide
    rw [hc1] at h
    simpa using h
  have hcompl : 2 ^ 64 - 1 - loadWord v = loadWord (v.map (fun b => 255 - b)) := by
    have h := loadWord_compl v hvb
    rw [hvlen] at h
    have hc2 : loadWord (List.replicate 8 255) = 2 ^ 64 - 1 := by decide
    rw [hc2] at h
    omega
  have hhigh : (0x8080808080808080 : Nat) = loadWord (List.replicate v.length 128) := by
    rw [hvlen]; decide
  have hland1 : loadWord (v.map (fun b => 255 - b)) &&& loadWord (List.replicate v.length 128) =
      loadWord (List.zipWith (· &&& ·) (v.map (fun b => 255 - b)) (List.replicate v.length 128)) := by
    apply loadWord_land
    · simp
    · intro b hbm
      simp only [List.mem_map] at hbm
      obtain ⟨a, _, rfl⟩ := hbm
      omega
    · intro b hbm; simp at hbm; omega
  have hland2 : loadWord (subOnes v 0) &&&
      loadWord (List.zipWith (· &&& ·) (v.map (fun b => 255 - b)) (List.replicate v.length 128)) =
      loadWord (List.zipWith (· &&& ·) (subOnes v 0)
        (List.zipWith (· &&& ·) (v.map (fun b => 255 - b)) (List.replicate v.length 128))) := by
    apply loadWord_land
    · rw [subOnes_length]
      simp
    · exact subOnes_bytes_lt v 0 (by omega) hvb
    · apply zipWith_land_bytes
      intro b hbm
      simp only [List.mem_map] at hbm
      obtain ⟨a, _, rfl⟩ := hbm
      omega
  have hfinal : 0 ∈ v ↔ 13 ∈ bs := by
    rw [hvdef]
    simp only [List.mem_map]
    constructor
    · rintro ⟨a, ha, hc⟩
      have : a = 13 := by
        have := Nat.xor_eq_zero.mp hc
        omega
      exact this ▸ ha
    · intro h13
      exact ⟨13, h13, by simp⟩
  rw [swarHasCR]
  simp only [decide_eq_true_eq]
  rw [hxor, hsub, hcompl, hhigh, hland1, hland2]
  rw [swarExpr_iff v hvb, hfinal]

lemma memchrTail_eq (l : List Nat) : ∀ i, memchrTail l i = (naiveScanCR l).map (· + i) := by
  induction l with
  | nil => intro i; simp [memchrTail, naiveScanCR]
  | cons c r ih =>
    intro i
    by_cases hc : c = 13
    · simp [memchrTail, naiveScanCR, hc]
    · simp only [memchrTail, naiveScanCR, if_neg hc, ih (i + 1), Option.map_map]
      congr 1
      funext a
      simp only [Function.comp_apply]
      omega

lemma naiveScanCR_skip (k : Nat) :
    ∀ l : List Nat, (∀ b ∈ l.take k, b ≠ 13) →
      naiveScanCR l = (naiveScanCR (l.drop k)).map (· + k) := by
  induction k with
  | zero =>
    intro l _
    simp only [List.drop_zero]
    cases naiveScanCR l <;> simp
  | succ k ih =>
    intro l h
    match l with
    | [] => simp [naiveScanCR]
    | c :: r =>
      have hc : c ≠ 13 := h c (by simp)
      simp only [naiveScanCR, if_neg hc, List.drop_succ_cons]
      rw [ih r (fun b hb => h b (by simp [hb])), Option.map_map]
      congr 1

lemma memchrSwar_eq :
    ∀ (fuel : Nat) (l : List Nat) (i : Nat), (∀ b ∈ l, b < 256) →
      memchrSwar fuel l i = (naiveScanCR l).map (· + i) := by
  intro fuel
  induction fuel with
  | zero => intro l i _; exact memchrTail_eq l i
  | succ fuel ih =>
    intro l i h
    simp only [memchrSwar]
    by_cases h8 : 8 ≤ l.length
    · rw [if_pos h8]
      have htake : (l.take 8).length = 8 := by simp [h8]
      have htb : ∀ b ∈ l.take 8, b < 256 := fun b hb => h b (List.mem_of_mem_take hb)
      by_cases hcr : swarHasCR (loadWord (l.take 8)) = true
      · rw [if_pos hcr]
        exact memchrTail_eq l i
      · rw [if_neg hcr]
        have hno : ∀ b ∈ l.take 8, b ≠ 13 := by
          intro b hbm hb13
          exact hcr ((swarHasCR_iff _ htake htb).mpr (hb13 ▸ hbm))
        rw [ih (l.drop 8) (i + 8) (fun b hb => h b (List.mem_of_mem_drop hb)),
          naiveScanCR_skip 8 l hno, Option.map_map]
        congr 1
        funext a
        simp only [Function.comp_apply]
        omega
    · rw [if_neg h8]
      exact memchrTail_eq l i

/-- `memchr_r` agrees with the naive scan on byte inputs (used throughout
to reason about `getHeaders`). -/
lemma memchr_r_naive (l : List Nat) (h : ∀ b ∈ l, b < 256) :
    memchr_r l = naiveScanCR l := by
  rw [memchr_r, memchrSwar_eq l.length l 0 h]
  cases naiveScanCR l <;> simp

/-!
## Structural lemmas about the tokenizer and driver
-/

lemma findHeader_mem_bloom (l : List Header) (name v : List Nat) :
    ∀ h : findHeader l name = some v,
      name ∈ (l.takeWhile (fun hd => hd.key ≠ [])).map (fun hd => hd.key) := by
  induction l with
  | nil => intro h; simp [findHeader] at h
  | cons hd r ih =>
    intro h
    by_cases hk : hd.key = []
    · simp [findHeader, hk] at h
    · by_cases hn : hd.key = name
      · subst hn
        simp [List.takeWhile_cons, hk]
      · simp only [findHeader, if_neg hk, if_neg hn] at h
        have hmem := ih h
        simp only [List.takeWhile_cons]
        rw [if_pos (by simp [hk])]
        simp only [List.map_cons, List.mem_cons]
        exact Or.inr hmem

lemma findHeader_none (l : List Header) (name : List Nat)
    (h : ∀ hd ∈ l, hd.key ≠ name) : findHeader l name = none := by
  induction l with
  | nil => simp [findHeader]
  | cons hd r ih =>
    by_cases hk : hd.key = []
    · simp [findHeader, hk]
    · simp only [findHeader, if_neg hk, if_neg (h hd (by simp))]
      exact ih (fun x hx => h x (by simp [hx]))

/-- The bloom-filter guard is transparent: `getHeader` behaves as the
plain linear scan. -/
lemma getHeaderOpt_eq (hs : List Header) (name : List Nat) :
    getHeaderOpt hs name = findHeader (hs.drop 1) name := by
  unfold getHeaderOpt
  by_cases hm : name ∈ bloomKeys hs
  · rw [if_pos hm]
  · rw [if_neg hm]
    cases hfind : findHeader (hs.drop 1) name with
    | none => rfl
    | some v => exact absurd (findHeader_mem_bloom _ _ _ hfind) hm

lemma scanKey_rest_le (l : List Nat) : (scanKey l).2.length ≤ l.length := by
  induction l with
  | nil => simp [scanKey]
  | cons c rest ih =>
    by_cases h : c ≠ 58 ∧ 32 < c
    · simp only [scanKey, if_pos h]
      simp only [List.length_cons]
      omega
    · simp [scanKey, if_neg h]

lemma skipToValue_le (l : List Nat) : (skipToValue l).length ≤ l.length := by
  induction l with
  | nil => simp [skipToValue]
  | cons c rest ih =>
    by_cases h : (c = 58 ∨ c < 33) ∧ c ≠ 13
    · simp only [skipToValue, if_pos h]
      simp only [List.length_cons]
      omega
    · simp [skipToValue, if_neg h]

lemma byte0_ne_13_ne_nil {l : List Nat} (h : byte0 l ≠ 13) : l ≠ [] := by
  intro hnil
  exact h (by simp [hnil, byte0])

lemma ghLoop_rest_lt :
    ∀ (fuel i : Nat) (l : List Nat) (hs : List Header) (rest : List Nat),
      ghLoop fuel i l = some (hs, rest) → rest.length < l.length := by
  intro fuel
  induction fuel with
  | zero => intro i l hs rest h; simp [ghLoop] at h
  | succ fuel ih =>
    intro i l hs rest h
    rw [ghLoop] at h
    by_cases h13 : byte0 (scanKey l).2 = 13
    · rw [if_pos h13] at h
      by_cases hterm : (scanKey l).2 ≠ [] ∧ byte1 (scanKey l).2 = 10 ∧ 0 < i
      · rw [if_pos hterm] at h
        simp only [Option.some.injEq, Prod.mk.injEq] at h
        have h1 : (scanKey l).2.length ≤ l.length := scanKey_rest_le l
        have h2 : (scanKey l).2 ≠ [] := hterm.1
        have h3 : 1 ≤ (scanKey l).2.length := by
          cases hsk : (scanKey l).2 with
          | nil => exact absurd hsk h2
          | cons a b => simp [hsk]
        have h4 : rest = (scanKey l).2.drop 2 := h.2.symm ▸ rfl
        rw [← h.2]
        simp only [List.length_drop]
        omega
      · rw [if_neg hterm] at h
        exact absurd h (by simp)
    · rw [if_neg h13] at h
      have hne : (scanKey l).2 ≠ [] := byte0_ne_13_ne_nil h13
      have hlen1 : 1 ≤ (scanKey l).2.length := by
        cases hsk : (scanKey l).2 with
        | nil => exact absurd hsk hne
        | cons a b => simp [hsk]
      have hr2 : (skipToValue ((scanKey l).2.drop 1)).length ≤ l.length - 1 := by
        have ha := skipToValue_le ((scanKey l).2.drop 1)
        have hb := scanKey_rest_le l
        simp only [List.length_drop] at ha
        omega
      cases hm : memchr_r (skipToValue ((scanKey l).2.drop 1)) with
      | none => simp only [hm] at h; exact absurd h (by simp)
      | some j =>
        simp only [hm] at h
        by_cases h10 : ((skipToValue ((scanKey l).2.drop 1)).drop (j + 1)).headD 13 = 10
        · rw [if_pos h10] at h
          cases hrec : ghLoop fuel (i + 1) ((skipToValue ((scanKey l).2.drop 1)).drop (j + 2)) with
          | none => rw [hrec] at h; exact absurd h (by simp)
          | some pr =>
            obtain ⟨hs2, rest2⟩ := pr
            rw [hrec] at h
            simp only [Option.some.injEq, Prod.mk.injEq] at h
            have hlt := ih (i + 1) _ hs2 rest2 hrec
            simp only [List.length_drop] at hlt
            rw [← h.2]
            omega
        · rw [if_neg h10] at h
          exact absurd h (by simp)

lemma getHeadersR_rest_lt {l : List Nat} {hs : List Header} {rest : List Nat}
    (h : getHeadersR l = some (hs, rest)) : rest.length < l.length :=
  ghLoop_rest_lt MAX_HEADERS 0 l hs rest h

lemma chunkDrainF_leftover_le :
    ∀ (fuel st : Nat) (l : List Nat), (chunkDrainF fuel st l).2.2.length ≤ l.length := by
  intro fuel
  induction fuel with
  | zero => intro st l; simp [chunkDrainF]
  | succ fuel ih =>
    intro st l
    match l with
    | [] => simp [chunkDrainF]
    | c :: rest =>
      rw [chunkDrainF]
      have hr : rest.length ≤ (c :: rest).length := by simp
      have hrec : ∀ st2, (chunkDrainF fuel st2 rest).2.2.length ≤ (c :: rest).length := by
        intro st2
        have := ih st2 rest
        simp only [List.length_cons]
        omega
      by_cases h1 : st / 2 ^ 31 = 1
      · rw [if_pos h1]
        cases hexDigit c with
        | some d =>
          simp only
          by_cases hov : 2 ^ 30 ≤ 16 * (st % 2 ^ 31) + d
          · rw [if_pos hov]; simp
          · rw [if_neg hov]; exact hrec _
        | none =>
          simp only
          by_cases hc : c = 13
          · rw [if_pos hc]; exact hrec _
          · rw [if_neg hc]; simp
      · rw [if_neg h1]
        by_cases h2 : st / 2 ^ 31 = 2
        · rw [if_pos h2]
          by_cases hc : c = 10
          · rw [if_pos hc]
            by_cases hz : st % 2 ^ 31 = 0
            · rw [if_pos hz]; exact hrec _
            · rw [if_neg hz]; exact hrec _
          · rw [if_neg hc]; simp
        · rw [if_neg h2]
          by_cases h3 : st / 2 ^ 31 = 3
          · rw [if_pos h3]
            by_cases hz : st % 2 ^ 31 = 0
            · rw [if_pos hz]
            · rw [if_neg hz]
              by_cases hle : st % 2 ^ 31 ≤ (c :: rest).length
              · rw [if_pos hle]
                simp only
                have := ih (encC 4 0) ((c :: rest).drop (min (st % 2 ^ 31) (c :: rest).length))
                simp only [List.length_drop] at this ⊢
                omega
              · rw [if_neg hle]; simp
          · rw [if_neg h3]
            by_cases h4 : st / 2 ^ 31 = 4
            · rw [if_pos h4]
              by_cases hc : c = 13
              · rw [if_pos hc]; exact hrec _
              · rw [if_neg hc]; simp
            · rw [if_neg h4]
              by_cases h5 : st / 2 ^ 31 = 5
              · rw [if_pos h5]
                by_cases hc : c = 10
                · rw [if_pos hc]; exact hrec _
                · rw [if_neg hc]; simp
              · rw [if_neg h5]
                by_cases h6 : st / 2 ^ 31 = 6
                · rw [if_pos h6]
                  by_cases hc : c = 13
                  · rw [if_pos hc]; exact hrec _
                  · rw [if_neg hc]; exact hrec _
                · rw [if_neg h6]
                  by_cases h7 : st / 2 ^ 31 = 7
                  · rw [if_pos h7]
                    by_cases hc : c = 13
                    · rw [if_pos hc]; exact hrec _
                    · rw [if_neg hc]; exact hrec _
                  · rw [if_neg h7]
                    by_cases h8 : st / 2 ^ 31 = 8
                    · rw [if_pos h8]
                      by_cases hc : c = 10
                      · rw [if_pos hc]; exact hrec _
                      · rw [if_neg hc]; simp
                    · rw [if_neg h8]
                      by_cases h9 : st / 2 ^ 31 = 9
                      · rw [if_pos h9]
                        by_cases hc : c = 10
                        · rw [if_pos hc]; simp
                        · rw [if_neg hc]; simp
                      · rw [if_neg h9]

lemma chunkDrain_leftover_le (st : Nat) (l : List Nat) :
    (chunkDrain st l).2.2.length ≤ l.length :=
  chunkDrainF_leftover_le l.length st l

/-- The fuel of `fenceF` is irrelevant as long as it exceeds the buffer
length (each loop iteration consumes at least one byte). -/
lemma fenceF_fuel :
    ∀ (f1 f2 : Nat) (minimal : Bool) (rem0 : Nat) (l : List Nat),
      l.length < f1 → l.length < f2 →
      fenceF f1 minimal rem0 l = fenceF f2 minimal rem0 l := by
  intro f1
  induction f1 with
  | zero => intro f2 minimal rem0 l h1 _; exact absurd h1 (by omega)
  | succ f1 ih =>
    intro f2 minimal rem0 l h1 h2
    match f2 with
    | 0 => exact absurd h2 (by omega)
    | f2 + 1 =>
      simp only [fenceF]
      by_cases hl : l = []
      · simp [hl]
      · rw [if_neg hl, if_neg hl]
        cases hg : getHeadersR l with
        | none => rfl
        | some pr =>
          obtain ⟨hs, rest⟩ := pr
          have hrest : rest.length < l.length := getHeadersR_rest_lt hg
          simp only []
          by_cases hhost : getHeaderOpt hs hostBytes = none
          · simp [hhost]
          · rw [if_neg hhost, if_neg hhost]
            by_cases hconf : headerValOf hs teBytes ≠ [] ∧ headerValOf hs clBytes ≠ []
            · rw [if_pos hconf, if_pos hconf]
            · rw [if_neg hconf, if_neg hconf]
              by_cases hte : headerValOf hs teBytes ≠ []
              · rw [if_pos hte, if_pos hte]
                cases minimal with
                | true => rfl
                | false =>
                  simp only [Bool.false_eq_true, if_false]
                  by_cases hinv :
                      isInvalidChunk (chunkDrain STATE_IS_CHUNKED rest).2.1 = true
                  · rw [if_pos hinv, if_pos hinv]
                  · rw [if_neg hinv, if_neg hinv]
                    have hlo : (chunkDrain STATE_IS_CHUNKED rest).2.2.length ≤ rest.length :=
                      chunkDrain_leftover_le _ _
                    rw [ih f2 false (chunkDrain STATE_IS_CHUNKED rest).2.1
                      (chunkDrain STATE_IS_CHUNKED rest).2.2 (by omega) (by omega)]
              · rw [if_neg hte, if_neg hte]
                by_cases hcl : headerValOf hs clBytes ≠ []
                · rw [if_pos hcl, if_pos hcl]
                  by_cases hn : toUnsignedInteger (headerValOf hs clBytes) = UINT_MAX
                  · rw [if_pos hn, if_pos hn]
                  · rw [if_neg hn, if_neg hn]
                    cases minimal with
                    | true => rfl
                    | false =>
                      simp only [Bool.false_eq_true, if_false]
                      have hdl : (rest.drop
                          (min (toUnsignedInteger (headerValOf hs clBytes)) rest.length)).length ≤
                          rest.length := by
                        simp only [List.length_drop]
                        omega
                      rw [ih f2 false
                        (toUnsignedInteger (headerValOf hs clBytes) -
                          min (toUnsignedInteger (headerValOf hs clBytes)) rest.length)
                        (rest.drop (min (toUnsignedInteger (headerValOf hs clBytes)) rest.length))
                        (by omega) (by omega)]
                · rw [if_neg hcl, if_neg hcl]
                  cases minimal with
                  | true => rfl
                  | false =>
                    simp only [Bool.false_eq_true, if_false]
                    rw [ih f2 false rem0 rest (by omega) (by omega)]

lemma fenceF_eq_fence (fuel : Nat) (minimal : Bool) (rem0 : Nat) (l : List Nat)
    (h : l.length < fuel) : fenceF fuel minimal rem0 l = fence minimal rem0 l :=
  fenceF_fuel fuel (l.length + 1) minimal rem0 l h (by omega)

lemma fenceF_nil (fuel : Nat) (minimal : Bool) (rem0 : Nat) :
    fenceF fuel minimal rem0 [] = ⟨[], false, [], rem0⟩ := by
  cases fuel <;> simp [fenceF]

/-- If the chunked drain leaves input unconsumed, the decoder either
finished the message (state 0) or found the stream invalid. -/
lemma chunkDrainF_left_state :
    ∀ (fuel st : Nat) (l : List Nat), l.length ≤ fuel →
      (chunkDrainF fuel st l).2.2 ≠ [] →
      (chunkDrainF fuel st l).2.1 = 0 ∨ (chunkDrainF fuel st l).2.1 = INVALID_CHUNK := by
  intro fuel
  induction fuel with
  | zero =>
    intro st l hf h
    have : l = [] := by
      cases l with
      | nil => rfl
      | cons a b => simp at hf
    rw [this] at h
    simp [chunkDrainF] at h
  | succ fuel ih =>
    intro st l hf h
    match l with
    | [] => simp [chunkDrainF] at h
    | c :: rest =>
      rw [chunkDrainF] at h ⊢
      have hrest : rest.length ≤ fuel := by
        simp only [List.length_cons] at hf
        omega
      by_cases h1 : st / 2 ^ 31 = 1
      · rw [if_pos h1] at h ⊢
        cases hhx : hexDigit c with
        | some d =>
          simp only [hhx] at h ⊢
          by_cases hov : 2 ^ 30 ≤ 16 * (st % 2 ^ 31) + d
          · rw [if_pos hov] at h ⊢; right; rfl
          · rw [if_neg hov] at h ⊢; exact ih _ _ hrest h
        | none =>
          simp only [hhx] at h ⊢
          by_cases hc : c = 13
          · rw [if_pos hc] at h ⊢; exact ih _ _ hrest h
          · rw [if_neg hc] at h ⊢; right; rfl
      · rw [if_neg h1] at h ⊢
        by_cases h2 : st / 2 ^ 31 = 2
        · rw [if_pos h2] at h ⊢
          by_cases hc : c = 10
          · rw [if_pos hc] at h ⊢
            by_cases hz : st % 2 ^ 31 = 0
            · rw [if_pos hz] at h ⊢; exact ih _ _ hrest h
            · rw [if_neg hz] at h ⊢; exact ih _ _ hrest h
          · rw [if_neg hc] at h ⊢; right; rfl
        · rw [if_neg h2] at h ⊢
          by_cases h3 : st / 2 ^ 31 = 3
          · rw [if_pos h3] at h ⊢
            by_cases hz : st % 2 ^ 31 = 0
            · rw [if_pos hz] at h ⊢; right; rfl
            · rw [if_neg hz] at h ⊢
              by_cases hle : st % 2 ^ 31 ≤ (c :: rest).length
              · rw [if_pos hle] at h ⊢
                simp only at h ⊢
                have hd : ((c :: rest).drop (min (st % 2 ^ 31) (c :: rest).length)).length ≤ fuel := by
                  simp only [List.length_drop, List.length_cons] at *
                  omega
                exact ih _ _ hd h
              · rw [if_neg hle] at h ⊢
                simp at h
          · rw [if_neg h3] at h ⊢
            by_cases h4 : st / 2 ^ 31 = 4
            · rw [if_pos h4] at h ⊢
              by_cases hc : c = 13
              · rw [if_pos hc] at h ⊢; exact ih _ _ hrest h
              · rw [if_neg hc] at h ⊢; right; rfl
            · rw [if_neg h4] at h ⊢
              by_cases h5 : st / 2 ^ 31 = 5
              · rw [if_pos h5] at h ⊢
                by_cases hc : c = 10
                · rw [if_pos hc] at h ⊢; exact ih _ _ hrest h
                · rw [if_neg hc] at h ⊢; right; rfl
              · rw [if_neg h5] at h ⊢
                by_cases h6 : st / 2 ^ 31 = 6
                · rw [if_pos h6] at h ⊢
                  by_cases hc : c = 13
                  · rw [if_pos hc] at h ⊢; exact ih _ _ hrest h
                  · rw [if_neg hc] at h ⊢; exact ih _ _ hrest h
                · rw [if_neg h6] at h ⊢
                  by_cases h7 : st / 2 ^ 31 = 7
                  · rw [if_pos h7] at h ⊢
                    by_cases hc : c = 13
                    · rw [if_pos hc] at h ⊢; exact ih _ _ hrest h
                    · rw [if_neg hc] at h ⊢; exact ih _ _ hrest h
                  · rw [if_neg h7] at h ⊢
                    by_cases h8 : st / 2 ^ 31 = 8
                    · rw [if_pos h8] at h ⊢
                      by_cases hc : c = 10
                      · rw [if_pos hc] at h ⊢; exact ih _ _ hrest h
                      · rw [if_neg hc] at h ⊢; right; rfl
                    · rw [if_neg h8] at h ⊢
                      by_cases h9 : st / 2 ^ 31 = 9
                      · rw [if_pos h9] at h ⊢
                        by_cases hc : c = 10
                        · rw [if_pos hc] at h ⊢; left; rfl
                        · rw [if_neg hc] at h ⊢; right; rfl
                      · rw [if_neg h9] at h ⊢; right; rfl

lemma chunkDrain_left_state (st : Nat) (l : List Nat)
    (h : (chunkDrain st l).2.2 ≠ []) :
    (chunkDrain st l).2.1 = 0 ∨ (chunkDrain st l).2.1 = INVALID_CHUNK :=
  chunkDrainF_left_state l.length st l (le_refl _) h

/-- Shape facts about one `fenceAndConsumePostPadded` run: the returned
rest is never longer than the input; a run that consumed nothing (and did
not error) did nothing at all; and a non-erroring run that leaves
unconsumed input has finished any body (`remainingStreamingBytes = 0`,
given it started at 0). -/
lemma fenceF_shape :
    ∀ (fuel : Nat) (minimal : Bool) (rem0 : Nat) (l : List Nat), l.length < fuel →
      ((fenceF fuel minimal rem0 l).rest.length ≤ l.length) ∧
      ((fenceF fuel minimal rem0 l).fullptr = false →
        (fenceF fuel minimal rem0 l).rest.length = l.length →
        fenceF fuel minimal rem0 l = ⟨l, false, [], rem0⟩) ∧
      (minimal = false → rem0 = 0 → (fenceF fuel minimal rem0 l).fullptr = false →
        (fenceF fuel minimal rem0 l).rest ≠ [] → (fenceF fuel minimal rem0 l).rem = 0) := by
  intro fuel
  induction fuel with
  | zero => intro minimal rem0 l h; exact absurd h (by omega)
  | succ fuel ih =>
    intro minimal rem0 l h
    by_cases hl : l = []
    · subst hl
      rw [fenceF_nil]
      refine ⟨by simp, fun _ _ => rfl, fun _ _ _ hne => absurd rfl hne⟩
    · simp only [fenceF, if_neg hl]
      cases hg : getHeadersR l with
      | none => exact ⟨le_refl _, fun _ _ => rfl, fun _ h0 _ _ => h0⟩
      | some pr =>
        obtain ⟨hs, rest⟩ := pr
        have hrest : rest.length < l.length := getHeadersR_rest_lt hg
        simp only []
        by_cases hhost : getHeaderOpt hs hostBytes = none
        · rw [if_pos hhost]
          exact ⟨le_refl _, fun hf => absurd hf (by simp), fun _ _ hf => absurd hf (by simp)⟩
        · rw [if_neg hhost]
          by_cases hconf : headerValOf hs teBytes ≠ [] ∧ headerValOf hs clBytes ≠ []
          · rw [if_pos hconf]
            exact ⟨le_refl _, fun hf => absurd hf (by simp), fun _ _ hf => absurd hf (by simp)⟩
          · rw [if_neg hconf]
            by_cases hte : headerValOf hs teBytes ≠ []
            · rw [if_pos hte]
              cases minimal with
              | true =>
                simp only [if_true]
                refine ⟨by omega, fun _ hlen => absurd hlen (by omega),
                  fun hmf => absurd hmf (by simp)⟩
              | false =>
                simp only [Bool.false_eq_true, if_false]
                by_cases hinv : isInvalidChunk (chunkDrain STATE_IS_CHUNKED rest).2.1 = true
                · rw [if_pos hinv]
                  exact ⟨le_refl _, fun hf => absurd hf (by simp),
                    fun _ _ hf => absurd hf (by simp)⟩
                · rw [if_neg hinv]
                  have hlo : (chunkDrain STATE_IS_CHUNKED rest).2.2.length ≤ rest.length :=
                    chunkDrain_leftover_le _ _
                  have hsub := ih false (chunkDrain STATE_IS_CHUNKED rest).2.1
                    (chunkDrain STATE_IS_CHUNKED rest).2.2 (by omega)
                  refine ⟨by have := hsub.1; simp only []; omega,
                    fun _ hlen => by have := hsub.1; simp only [] at hlen; omega, ?_⟩
                  intro _ _ hfp hrne
                  simp only [] at hfp hrne ⊢
                  by_cases hleft : (chunkDrain STATE_IS_CHUNKED rest).2.2 = []
                  · rw [hleft, fenceF_nil] at hrne
                    exact absurd rfl hrne
                  · have hst := chunkDrain_left_state STATE_IS_CHUNKED rest hleft
                    have hst0 : (chunkDrain STATE_IS_CHUNKED rest).2.1 = 0 := by
                      rcases hst with hst | hst
                      · exact hst
                      · exact absurd (by simp [isInvalidChunk, hst]) hinv
                    exact hsub.2.2 rfl hst0 hfp hrne
            · rw [if_neg hte]
              by_cases hcl : headerValOf hs clBytes ≠ []
              · rw [if_pos hcl]
                by_cases hn : toUnsignedInteger (headerValOf hs clBytes) = UINT_MAX
                · rw [if_pos hn]
                  exact ⟨le_refl _, fun hf => absurd hf (by simp),
                    fun _ _ hf => absurd hf (by simp)⟩
                · rw [if_neg hn]
                  cases minimal with
                  | true =>
                    simp only [if_true]
                    refine ⟨by omega, fun _ hlen => absurd hlen (by omega),
                      fun hmf => absurd hmf (by simp)⟩
                  | false =>
                    simp only [Bool.false_eq_true, if_false]
                    have hdl : (rest.drop
                        (min (toUnsignedInteger (headerValOf hs clBytes)) rest.length)).length ≤
                        rest.length := by
                      simp only [List.length_drop]; omega
                    have hsub := ih false
                      (toUnsignedInteger (headerValOf hs clBytes) -
                        min (toUnsignedInteger (headerValOf hs clBytes)) rest.length)
                      (rest.drop (min (toUnsignedInteger (headerValOf hs clBytes)) rest.length))
                      (by omega)
                    refine ⟨by have := hsub.1; omega,
                      fun _ hlen => by have := hsub.1; omega, ?_⟩
                    intro _ _ hfp hrne
                    by_cases hleft :
                        rest.drop (min (toUnsignedInteger (headerValOf hs clBytes)) rest.length) = []
                    · rw [hleft, fenceF_nil] at hrne
                      exact absurd rfl hrne
                    · have hdrop : min (toUnsignedInteger (headerValOf hs clBytes)) rest.length <
                          rest.length := by
                        by_contra hge
                        apply hleft
                        have : rest.length ≤
                            min (toUnsignedInteger (headerValOf hs clBytes)) rest.length := by
                          omega
                        exact List.drop_eq_nil_of_le this
                      have hmin : min (toUnsignedInteger (headerValOf hs clBytes)) rest.length =
                          toUnsignedInteger (headerValOf hs clBytes) := by omega
                      have hz : toUnsignedInteger (headerValOf hs clBytes) -
                          min (toUnsignedInteger (headerValOf hs clBytes)) rest.length = 0 := by
                        omega
                      exact hsub.2.2 rfl hz hfp hrne
              · rw [if_neg hcl]
                cases minimal with
                | true =>
                  simp only [if_true]
                  refine ⟨by omega, fun _ hlen => absurd hlen (by omega),
                    fun hmf => absurd hmf (by simp)⟩
                | false =>
                  simp only [Bool.false_eq_true, if_false]
                  have hsub := ih false rem0 rest (by omega)
                  refine ⟨by have := hsub.1; omega,
                    fun _ hlen => by have := hsub.1; omega, ?_⟩
                  intro _ h0 hfp hrne
                  exact hsub.2.2 rfl h0 hfp hrne

lemma fence_nil (minimal : Bool) (rem0 : Nat) :
    fence minimal rem0 [] = ⟨[], false, [], rem0⟩ :=
  fenceF_nil 1 minimal rem0

lemma fence_rest_le (minimal : Bool) (rem0 : Nat) (l : List Nat) :
    (fence minimal rem0 l).rest.length ≤ l.length :=
  (fenceF_shape (l.length + 1) minimal rem0 l (by omega)).1

lemma fence_consumed_zero (minimal : Bool) (rem0 : Nat) (l : List Nat)
    (hf : (fence minimal rem0 l).fullptr = false)
    (hlen : (fence minimal rem0 l).rest.length = l.length) :
    fence minimal rem0 l = ⟨l, false, [], rem0⟩ :=
  (fenceF_shape (l.length + 1) minimal rem0 l (by omega)).2.1 hf hlen

lemma fence_rem_zero (l : List Nat)
    (hf : (fence false 0 l).fullptr = false)
    (hne : (fence false 0 l).rest ≠ []) :
    (fence false 0 l).rem = 0 :=
  (fenceF_shape (l.length + 1) false 0 l (by omega)).2.2 rfl rfl hf hne

/-- The main-loop-and-stash phase preserves the fallback/body mutual
exclusion whenever it does not return the error sentinel. -/
lemma mainPhase_inv (rem0 : Nat) (d : List Nat) (evs : List Ev)
    (hrem : d ≠ [] → rem0 = 0) :
    (mainPhase [] rem0 d evs).outcome ≠ Outcome.fullptr →
    ((mainPhase [] rem0 d evs).state.remaining = 0 ∨
      (mainPhase [] rem0 d evs).state.fallback = []) := by
  intro ho
  unfold mainPhase at ho ⊢
  by_cases hf : (fence false rem0 d).fullptr = true
  · rw [if_pos hf] at ho ⊢
    exact absurd rfl ho
  · rw [if_neg hf] at ho ⊢
    by_cases hr : (fence false rem0 d).rest = []
    · rw [if_pos hr] at ho ⊢
      right; rfl
    · rw [if_neg hr] at ho ⊢
      by_cases hlen : (fence false rem0 d).rest.length < MAX_FALLBACK_SIZE
      · rw [if_pos hlen] at ho ⊢
        left
        show (fence false rem0 d).rem = 0
        have hd : d ≠ [] := by
          intro h0
          rw [h0] at hr
          rw [fence_nil] at hr
          exact hr rfl
        have h0 := hrem hd
        subst h0
        exact fence_rem_zero d (by simpa using hf) hr
      · rw [if_neg hlen] at ho ⊢
        right; rfl

/-- C5, amended: the mutual-exclusion invariant (a nonzero
`remainingStreamingBytes` and a nonempty fallback buffer never coexist)
is preserved by every `consumePostPadded` call that does not return the
parser-error sentinel `FULLPTR`. -/
theorem C5_amended_exclusion_preserved (st : PState) (d : List Nat)
    (hinv : st.remaining = 0 ∨ st.fallback = [])
    (ho : (consumePostPadded st d).outcome ≠ Outcome.fullptr) :
    (consumePostPadded st d).state.remaining = 0 ∨
      (consumePostPadded st d).state.fallback = [] := by
  simp only [consumePostPadded] at ho ⊢
  by_cases hrem : st.remaining ≠ 0
  · have hfb : st.fallback = [] := by
      rcases hinv with hinv | hinv
      · exact absurd hinv hrem
      · exact hinv
    rw [if_pos hrem] at ho ⊢
    by_cases hch : isChunkedState st.remaining = true
    · rw [if_pos hch] at ho ⊢
      by_cases hinv2 : isInvalidChunk (chunkDrain st.remaining d).2.1 = true
      · rw [if_pos hinv2] at ho ⊢
        exact absurd rfl ho
      · rw [if_neg hinv2] at ho ⊢
        rw [hfb] at ho ⊢
        apply mainPhase_inv _ _ _ _ ho
        intro hne
        rcases chunkDrain_left_state st.remaining d hne with hst | hst
        · exact hst
        · exact absurd (by simp only [isInvalidChunk, hst, decide_eq_true_eq]) hinv2
    · rw [if_neg hch] at ho ⊢
      by_cases hlen : d.length ≤ st.remaining
      · rw [if_pos hlen] at ho ⊢
        right
        exact hfb
      · rw [if_neg hlen] at ho ⊢
        rw [hfb] at ho ⊢
        exact mainPhase_inv _ _ _ (fun _ => rfl) ho
  · rw [if_neg hrem] at ho ⊢
    by_cases hfb : st.fallback ≠ []
    · rw [if_pos hfb] at ho ⊢
      by_cases hfp : (fence true 0 (st.fallback ++
          d.take (min (MAX_FALLBACK_SIZE - st.fallback.length) d.length))).fullptr = true
      · rw [if_pos hfp] at ho ⊢
        exact absurd rfl ho
      · rw [if_neg hfp] at ho ⊢
        by_cases hcons : (st.fallback ++
            d.take (min (MAX_FALLBACK_SIZE - st.fallback.length) d.length)).length -
            (fence true 0 (st.fallback ++
              d.take (min (MAX_FALLBACK_SIZE - st.fallback.length) d.length))).rest.length ≠ 0
        · rw [if_pos hcons] at ho ⊢
          by_cases hfr0 : (fence true 0 (st.fallback ++
              d.take (min (MAX_FALLBACK_SIZE - st.fallback.length) d.length))).rem ≠ 0
          · rw [if_pos hfr0] at ho ⊢
            by_cases hch2 : isChunkedState (fence true 0 (st.fallback ++
                d.take (min (MAX_FALLBACK_SIZE - st.fallback.length) d.length))).rem = true
            · rw [if_pos hch2] at ho ⊢
              by_cases hinv2 : isInvalidChunk (chunkDrain (fence true 0 (st.fallback ++
                  d.take (min (MAX_FALLBACK_SIZE - st.fallback.length) d.length))).rem
                  (d.drop ((st.fallback ++
                    d.take (min (MAX_FALLBACK_SIZE - st.fallback.length) d.length)).length -
                    (fence true 0 (st.fallback ++
                      d.take (min (MAX_FALLBACK_SIZE - st.fallback.length) d.length))).rest.length -
                    st.fallback.length))).2.1 = true
              · rw [if_pos hinv2] at ho ⊢
                exact absurd rfl ho
              · rw [if_neg hinv2] at ho ⊢
                apply mainPhase_inv _ _ _ _ ho
                intro hne
                rcases chunkDrain_left_state _ _ hne with hst | hst
                · exact hst
                · exact absurd (by simp only [isInvalidChunk, hst, decide_eq_true_eq]) hinv2
            · rw [if_neg hch2] at ho ⊢
              by_cases hle2 : (d.drop ((st.fallback ++
                  d.take (min (MAX_FALLBACK_SIZE - st.fallback.length) d.length)).length -
                  (fence true 0 (st.fallback ++
                    d.take (min (MAX_FALLBACK_SIZE - st.fallback.length) d.length))).rest.length -
                  st.fallback.length)).length ≤ (fence true 0 (st.fallback ++
                  d.take (min (MAX_FALLBACK_SIZE - st.fallback.length) d.length))).rem
              · rw [if_pos hle2] at ho ⊢
                right; rfl
              · rw [if_neg hle2] at ho ⊢
                exact mainPhase_inv _ _ _ (fun _ => rfl) ho
          · rw [if_neg hfr0] at ho ⊢
            apply mainPhase_inv _ _ _ _ ho
            intro _
            omega
        · rw [if_neg hcons] at ho ⊢
          have hrle := fence_rest_le true 0 (st.fallback ++
            d.take (min (MAX_FALLBACK_SIZE - st.fallback.length) d.length))
          have hlen2 : (fence true 0 (st.fallback ++
              d.take (min (MAX_FALLBACK_SIZE - st.fallback.length) d.length))).rest.length =
              (st.fallback ++
                d.take (min (MAX_FALLBACK_SIZE - st.fallback.length) d.length)).length := by
            omega
          have hfr_eq := fence_consumed_zero true 0 _ (by simpa using hfp) hlen2
          by_cases hfull : (st.fallback ++
              d.take (min (MAX_FALLBACK_SIZE - st.fallback.length) d.length)).length =
              MAX_FALLBACK_SIZE
          · rw [if_pos hfull] at ho ⊢
            left
            show (fence true 0 _).rem = 0
            rw [hfr_eq]
          · rw [if_neg hfull] at ho ⊢
            left
            show (fence true 0 _).rem = 0
            rw [hfr_eq]
    · rw [if_neg hfb] at ho ⊢
      have hfbe : st.fallback = [] := by
        by_contra hne
        exact hfb hne
      rw [hfbe] at ho ⊢
      exact mainPhase_inv _ _ _ (fun _ => rfl) ho

/-!
## One-step characterizations of `fenceAndConsumePostPadded`
-/

lemma getHeadersR_nil : getHeadersR [] = none := by decide

lemma getHeadersR_ne_nil {l : List Nat} {hs : List Header} {rest : List Nat}
    (hg : getHeadersR l = some (hs, rest)) : l ≠ [] := by
  intro h0
  rw [h0, getHeadersR_nil] at hg
  exact absurd hg (by simp)

/-- A head failing the host check or the Transfer-Encoding/Content-Length
conflict check makes `fenceAndConsumePostPadded` return the error
sentinel at once, with no handler invoked. -/
lemma fence_error_step (minimal : Bool) (rem0 : Nat) (l : List Nat) (hs : List Header)
    (rest : List Nat) (hg : getHeadersR l = some (hs, rest))
    (herr : getHeaderOpt hs hostBytes = none ∨
      (headerValOf hs teBytes ≠ [] ∧ headerValOf hs clBytes ≠ [])) :
    fence minimal rem0 l = ⟨l, true, [], rem0⟩ := by
  have hl : l ≠ [] := getHeadersR_ne_nil hg
  show fenceF (l.length + 1) minimal rem0 l = _
  simp only [fenceF, if_neg hl, hg]
  by_cases hh : getHeaderOpt hs hostBytes = none
  · rw [if_pos hh]
  · rw [if_neg hh]
    rcases herr with hh2 | hconf
    · exact absurd hh2 hh
    · rw [if_pos hconf]

lemma consume_fresh (l : List Nat) :
    consumePostPadded initState l = mainPhase [] 0 l [] := rfl

lemma consume_fresh_error (l : List Nat) (hs : List Header) (rest : List Nat)
    (hg : getHeadersR l = some (hs, rest))
    (herr : getHeaderOpt hs hostBytes = none ∨
      (headerValOf hs teBytes ≠ [] ∧ headerValOf hs clBytes ≠ [])) :
    consumePostPadded initState l = ⟨Outcome.fullptr, [], ⟨[], 0⟩⟩ := by
  rw [consume_fresh]
  unfold mainPhase
  rw [fence_error_step false 0 l hs rest hg herr]
  simp

/-- Every head passing the host and conflict checks reaches the
`requestHandler` call: the event list starts with `Ev.req`. -/
lemma fence_req_head (rem0 : Nat) (l : List Nat) (hs : List Header) (rest : List Nat)
    (hg : getHeadersR l = some (hs, rest))
    (hhost : getHeaderOpt hs hostBytes ≠ none)
    (hnoconf : ¬(headerValOf hs teBytes ≠ [] ∧ headerValOf hs clBytes ≠ [])) :
    ∃ t, (fence false rem0 l).events = Ev.req hs :: t := by
  have hl : l ≠ [] := getHeadersR_ne_nil hg
  show ∃ t, (fenceF (l.length + 1) false rem0 l).events = _
  simp only [fenceF, if_neg hl, hg]
  rw [if_neg hhost, if_neg hnoconf]
  by_cases hte : headerValOf hs teBytes ≠ []
  · rw [if_pos hte]
    simp only [Bool.false_eq_true, if_false]
    by_cases hinv : isInvalidChunk (chunkDrain STATE_IS_CHUNKED rest).2.1 = true
    · rw [if_pos hinv]
      exact ⟨_, rfl⟩
    · rw [if_neg hinv]
      exact ⟨_, rfl⟩
  · rw [if_neg hte]
    by_cases hcl : headerValOf hs clBytes ≠ []
    · rw [if_pos hcl]
      by_cases hn : toUnsignedInteger (headerValOf hs clBytes) = UINT_MAX
      · rw [if_pos hn]
        exact ⟨[], rfl⟩
      · rw [if_neg hn]
        simp only [Bool.false_eq_true, if_false]
        exact ⟨_, rfl⟩
    · rw [if_neg hcl]
      simp only [Bool.false_eq_true, if_false]
      exact ⟨_, rfl⟩

lemma mainPhase_events_prefix (rem0 : Nat) (d : List Nat) (p t : List Ev)
    (h : (fence false rem0 d).events = p ++ t) :
    ∃ t2, (mainPhase [] rem0 d []).events = p ++ t2 := by
  unfold mainPhase
  by_cases hf : (fence false rem0 d).fullptr = true
  · rw [if_pos hf]
    exact ⟨t, by simp [h]⟩
  · rw [if_neg hf]
    by_cases hr : (fence false rem0 d).rest = []
    · rw [if_pos hr]
      exact ⟨t, by simp [h]⟩
    · rw [if_neg hr]
      by_cases hlen : (fence false rem0 d).rest.length < MAX_FALLBACK_SIZE
      · rw [if_pos hlen]
        exact ⟨t, by simp [h]⟩
      · rw [if_neg hlen]
        exact ⟨t ++ [Ev.errh], by simp [h]⟩

/-!
## Claim C1 (smuggling defense)
-/

def c1input : List Nat :=
  strBytes "get / x\r\nhost: h\r\ntransfer-encoding:\r\ncontent-length: 1\r\n\r\nZ"

def c1hs : List Header :=
  [⟨strBytes "get", strBytes "/ x"⟩, ⟨strBytes "host", strBytes "h"⟩,
   ⟨strBytes "transfer-encoding", []⟩, ⟨strBytes "content-length", strBytes "1"⟩]

/-- C1, counterexample: a tokenized head that contains BOTH a
`transfer-encoding` header (with empty value) and a `content-length`
header is NOT rejected: the request handler and data handler run and the
call returns the `user` token, because the source tests the header
values' lengths, not header presence. -/
theorem C1_cx_empty_te_value_not_rejected :
    getHeadersR c1input = some (c1hs, [90]) ∧
      Header.mk teBytes [] ∈ c1hs ∧
      Header.mk clBytes (strBytes "1") ∈ c1hs ∧
      (consumePostPadded initState c1input).outcome = Outcome.ok ∧
      (consumePostPadded initState c1input).events =
        [Ev.req c1hs, Ev.data [90] true] := by
  refine ⟨by decide, by decide, by decide, by decide, by decide⟩

/-- C1, amended: for every input stream whose tokenized head carries both
a `transfer-encoding` header with a non-empty value and a
`content-length` header with a non-empty value, `consumePostPadded`
returns the parser-error sentinel `FULLPTR`, the request handler is not
invoked for that request, and no handler is invoked for any subsequent
request in the same call (the event list is empty). -/
theorem C1_te_cl_conflict_rejected (l : List Nat) (hs : List Header) (rest : List Nat)
    (hg : getHeadersR l = some (hs, rest))
    (hte : headerValOf hs teBytes ≠ [])
    (hcl : headerValOf hs clBytes ≠ []) :
    consumePostPadded initState l = ⟨Outcome.fullptr, [], ⟨[], 0⟩⟩ :=
  consume_fresh_error l hs rest hg (Or.inr ⟨hte, hcl⟩)

def c1winput : List Nat :=
  strBytes "get / x\r\nhost: h\r\ntransfer-encoding: chunked\r\ncontent-length: 3\r\n\r\nabc"

def c1whs : List Header :=
  [⟨strBytes "get", strBytes "/ x"⟩, ⟨strBytes "host", strBytes "h"⟩,
   ⟨strBytes "transfer-encoding", strBytes "chunked"⟩,
   ⟨strBytes "content-length", strBytes "3"⟩]

/-- Witness for the amended C1 at a concrete conflicting request. -/
theorem C1_witness :
    consumePostPadded initState c1winput = ⟨Outcome.fullptr, [], ⟨[], 0⟩⟩ :=
  C1_te_cl_conflict_rejected c1winput c1whs (strBytes "abc") (by decide) (by decide)
    (by decide)

/-!
## Claim C2 (missing host)
-/

/-- C2: for every input stream forming a successfully tokenized head that
contains no `host` header, `consumePostPadded` returns the parser-error
sentinel and no handler is invoked (in particular the request handler is
never called for that request). -/
theorem C2_missing_host_rejected (l : List Nat) (hs : List Header) (rest : List Nat)
    (hg : getHeadersR l = some (hs, rest))
    (hnh : ∀ hd ∈ hs.drop 1, hd.key ≠ hostBytes) :
    consumePostPadded initState l = ⟨Outcome.fullptr, [], ⟨[], 0⟩⟩ := by
  apply consume_fresh_error l hs rest hg
  left
  rw [getHeaderOpt_eq]
  exact findHeader_none _ _ hnh

def c2winput : List Nat := strBytes "get / x\r\nfoo: bar\r\n\r\n"

def c2whs : List Header :=
  [⟨strBytes "get", strBytes "/ x"⟩, ⟨strBytes "foo", strBytes "bar"⟩]

/-- Witness for C2 at a concrete host-less request. -/
theorem C2_witness :
    consumePostPadded initState c2winput = ⟨Outcome.fullptr, [], ⟨[], 0⟩⟩ :=
  C2_missing_host_rejected c2winput c2whs [] (by decide) (by decide)

/-!
## Claim C10 (empty host value is distinct from missing host)
-/

def c10input : List Nat :=
  strBytes "get / x\r\nhost:\r\ntransfer-encoding: chunked\r\ncontent-length: 1\r\n\r\n"

def c10hs : List Header :=
  [⟨strBytes "get", strBytes "/ x"⟩, ⟨strBytes "host", []⟩,
   ⟨strBytes "transfer-encoding", strBytes "chunked"⟩,
   ⟨strBytes "content-length", strBytes "1"⟩]

/-- C10, counterexample: a successfully tokenized head whose `host`
header has an empty value passes the missing-host check, yet the request
handler is NOT invoked, because the head also carries both
`transfer-encoding` and `content-length` and is rejected first. -/
theorem C10_cx_handler_not_invoked_on_conflict :
    getHeadersR c10input = some (c10hs, []) ∧
      getHeaderOpt c10hs hostBytes = some [] ∧
      (consumePostPadded initState c10input).events = [] ∧
      (consumePostPadded initState c10input).outcome = Outcome.fullptr := by
  refine ⟨by decide, by decide, by decide, by decide⟩

/-- C10, amended: for every successfully tokenized head whose `host`
lookup yields the empty-value view, `getHeader("host")` returns a
non-null view of length zero (distinct from the null view of an absent
header), the missing-host check passes, and — provided the head does not
also carry both a non-empty `transfer-encoding` and a non-empty
`content-length` — the request handler is invoked. -/
theorem C10_empty_host_value_passes (l : List Nat) (hs : List Header) (rest : List Nat)
    (hg : getHeadersR l = some (hs, rest))
    (hhv : findHeader (hs.drop 1) hostBytes = some [])
    (hnoconf : ¬(headerValOf hs teBytes ≠ [] ∧ headerValOf hs clBytes ≠ [])) :
    getHeaderOpt hs hostBytes = some [] ∧
      ∃ t, (consumePostPadded initState l).events = Ev.req hs :: t := by
  have hopt : getHeaderOpt hs hostBytes = some [] := by
    rw [getHeaderOpt_eq]
    exact hhv
  refine ⟨hopt, ?_⟩
  rw [consume_fresh]
  obtain ⟨t, ht⟩ := fence_req_head 0 l hs rest hg (by rw [hopt]; simp) hnoconf
  exact mainPhase_events_prefix 0 l [Ev.req hs] t ht

def c10winput : List Nat := strBytes "get / x\r\nhost:\r\n\r\n"

def c10whs : List Header :=
  [⟨strBytes "get", strBytes "/ x"⟩, ⟨strBytes "host", []⟩]

/-- Witness for the amended C10 at a concrete empty-host-value request. -/
theorem C10_witness :
    getHeaderOpt c10whs hostBytes = some [] ∧
      ∃ t, (consumePostPadded initState c10winput).events = Ev.req c10whs :: t :=
  C10_empty_host_value_passes c10winput c10whs [] (by decide) (by decide) (by decide)

/-!
## Claim C8 (no-body requests get one empty end-of-body chunk)
-/

/-- One loop iteration of `fenceAndConsumePostPadded<false>` on a head
with neither `transfer-encoding` nor `content-length` (by value): the
request handler runs, then the data handler once with the empty chunk and
the end flag, then the loop continues on the rest of the buffer. -/
lemma fence_nobody_step (rem0 : Nat) (l : List Nat) (hs : List Header) (rest : List Nat)
    (hg : getHeadersR l = some (hs, rest))
    (hhost : getHeaderOpt hs hostBytes ≠ none)
    (hte : headerValOf hs teBytes = [])
    (hcl : headerValOf hs clBytes = []) :
    fence false rem0 l = ⟨(fence false rem0 rest).rest, (fence false rem0 rest).fullptr,
      Ev.req hs :: Ev.data [] true :: (fence false rem0 rest).events,
      (fence false rem0 rest).rem⟩ := by
  have hl : l ≠ [] := getHeadersR_ne_nil hg
  have hrest := getHeadersR_rest_lt hg
  show fenceF (l.length + 1) false rem0 l = _
  simp only [fenceF, if_neg hl, hg]
  rw [if_neg hhost, if_neg (by simp [hte] : ¬(headerValOf hs teBytes ≠ [] ∧
    headerValOf hs clBytes ≠ [])), if_neg (by simp [hte] : ¬headerValOf hs teBytes ≠ []),
    if_neg (by simp [hcl] : ¬headerValOf hs clBytes ≠ [])]
  simp only [Bool.false_eq_true, if_false]
  rw [fenceF_eq_fence l.length false rem0 rest (by omega)]

/-- C8: after a successfully tokenized head with a `host` header and with
neither a `transfer-encoding` nor a `content-length` header, the data
handler is called exactly once for that request, with an empty chunk and
`is_end = true`, immediately after the request handler and before the
next head is parsed — both inside `fenceAndConsumePostPadded` and for the
whole `consumePostPadded` call on a fresh parser. -/
theorem C8_nobody_single_end_chunk (l : List Nat) (hs : List Header) (rest : List Nat)
    (hg : getHeadersR l = some (hs, rest))
    (hhost : getHeaderOpt hs hostBytes ≠ none)
    (hnone : ∀ hd ∈ hs.drop 1, hd.key ≠ teBytes ∧ hd.key ≠ clBytes) :
    fence false 0 l = ⟨(fence false 0 rest).rest, (fence false 0 rest).fullptr,
        Ev.req hs :: Ev.data [] true :: (fence false 0 rest).events,
        (fence false 0 rest).rem⟩ ∧
      ∃ t, (consumePostPadded initState l).events =
        Ev.req hs :: Ev.data [] true :: t := by
  have hte : headerValOf hs teBytes = [] := by
    unfold headerValOf
    rw [getHeaderOpt_eq, findHeader_none _ _ (fun hd hm => (hnone hd hm).1)]
    rfl
  have hcl : headerValOf hs clBytes = [] := by
    unfold headerValOf
    rw [getHeaderOpt_eq, findHeader_none _ _ (fun hd hm => (hnone hd hm).2)]
    rfl
  have hstep := fence_nobody_step 0 l hs rest hg hhost hte hcl
  refine ⟨hstep, ?_⟩
  rw [consume_fresh]
  have hev : (fence false 0 l).events =
      [Ev.req hs, Ev.data [] true] ++ (fence false 0 rest).events := by
    rw [hstep]
    rfl
  exact mainPhase_events_prefix 0 l [Ev.req hs, Ev.data [] true] _ hev

def c8winput : List Nat := strBytes "get /1 x\r\nhost: h\r\n\r\nget /2 x\r\nhost: h\r\n\r\n"

def c8whs : List Header :=
  [⟨strBytes "get", strBytes "/1 x"⟩, ⟨strBytes "host", strBytes "h"⟩]

def c8wrest : List Nat := strBytes "get /2 x\r\nhost: h\r\n\r\n"

/-- Witness for C8 at a concrete pipelined pair of bodyless requests. -/
theorem C8_witness :
    (fence false 0 c8winput = ⟨(fence false 0 c8wrest).rest, (fence false 0 c8wrest).fullptr,
        Ev.req c8whs :: Ev.data [] true :: (fence false 0 c8wrest).events,
        (fence false 0 c8wrest).rem⟩ ∧
      ∃ t, (consumePostPadded initState c8winput).events =
        Ev.req c8whs :: Ev.data [] true :: t) :=
  C8_nobody_single_end_chunk c8winput c8whs c8wrest (by decide) (by decide) (by decide)

/-!
## Claim C5 (mutual exclusion of body-in-progress and buffered head)
-/

def c5input1 : List Nat := strBytes "get / x\r\nhost: h\r\ncontent-le"

def c5input2 : List Nat := strBytes "ngth: 1234567890\r\n\r\n"

/-- C5, counterexample: starting from a fresh parser (which satisfies the
mutual exclusion), a head split across two calls whose `content-length`
value is invalid (10 digits) leaves the parser with BOTH a nonempty
fallback buffer and a nonzero `remainingStreamingBytes`
(`= UINT_MAX`, written by line 375 before the error return): the call
that returns the parser-error sentinel does not preserve the claimed
invariant. -/
theorem C5_cx_invalid_cl_via_fallback :
    (consumePostPadded initState c5input1).outcome = Outcome.ok ∧
      (consumePostPadded (consumePostPadded initState c5input1).state c5input2).state.remaining ≠ 0 ∧
      (consumePostPadded (consumePostPadded initState c5input1).state c5input2).state.fallback ≠ [] := by
  refine ⟨by decide, by decide, by decide⟩

def c5winput : List Nat := strBytes "post /u x\r\nhost: h\r\ncontent-length: 5\r\n\r\nhello"

/-- Witness for the amended C5 at a concrete fixed-length request. -/
theorem C5_witness :
    (consumePostPadded initState c5winput).outcome ≠ Outcome.fullptr ∧
      ((consumePostPadded initState c5winput).state.remaining = 0 ∨
        (consumePostPadded initState c5winput).state.fallback = []) :=
  ⟨by decide, C5_amended_exclusion_preserved initState c5winput (Or.inl rfl) (by decide)⟩

/-!
## Claim C9 (the word-parallel scanner refines the naive scan)
-/

/-- C9: on byte inputs, `memchr_r` — the 8-bytes-per-step word-parallel
scanner — returns exactly what the naive byte-wise first-occurrence scan
for `'\r'` returns. -/
theorem C9_memchr_r_refines_naive_scan (l : List Nat) (h : ∀ b ∈ l, b < 256) :
    memchr_r l = naiveScanCR l :=
  memchr_r_naive l h

def c9winput : List Nat := strBytes "GET / HTTP/1.1\r\nHost: example.com"

/-- Witness for C9 on a concrete buffer longer than one machine word. -/
theorem C9_witness :
    (∀ b ∈ c9winput, b < 256) ∧ memchr_r c9winput = naiveScanCR c9winput :=
  ⟨by decide, C9_memchr_r_refines_naive_scan c9winput (by decide)⟩

/-!
## Claim C4 (fixed-length body conservation)
-/

def c4input : List Nat := strBytes "get / x\r\nhost: h\r\ncontent-length: 0\r\n\r\n"

def c4hs : List Header :=
  [⟨strBytes "get", strBytes "/ x"⟩, ⟨strBytes "host", strBytes "h"⟩,
   ⟨strBytes "content-length", strBytes "0"⟩]

/-- C4, failing input: a request with `content-length: 0` delivered whole
gets its single `is_end = true` data-handler call, but the same request
delivered split across two `consumePostPadded` calls (head assembled in
the fallback buffer, `CONSUME_MINIMALLY`) gets NO data-handler call at
all — the end-of-body signal is silently dropped, while both runs end in
the same clean state and return the `user` token. -/
theorem C4_cl_zero_split_loses_end_signal :
    (runCalls initState [c4input]).1 = [Ev.req c4hs, Ev.data [] true] ∧
      (runCalls initState [c4input]).2.2 = Outcome.ok ∧
      (runCalls initState [c4input.take 10, c4input.drop 10]).1 = [Ev.req c4hs] ∧
      (runCalls initState [c4input.take 10, c4input.drop 10]).2.2 = Outcome.ok ∧
      (runCalls initState [c4input.take 10, c4input.drop 10]).2.1 = ⟨[], 0⟩ := by
  refine ⟨by decide, by decide, by decide, by decide, by decide⟩

/-!
## Claim C7 (header-count limit)

A well-formed serialized head: one line per entry, `key ++ ':' ++ value ++ CRLF`,
terminated by a blank line.  The well-formedness conditions are exactly
those under which the tokenizer reproduces the entries verbatim
(lowercasing keys).
-/

/-- A serializable header-table entry: key bytes are field-name bytes
(`> 32`, not `':'`), value bytes are not CR, and the value does not start
with a byte the tokenizer would skip. -/
def wfEntry (e : Header) : Prop :=
  (∀ b ∈ e.key, 32 < b ∧ b ≠ 58 ∧ b < 256) ∧
  (∀ b ∈ e.value, b ≠ 13 ∧ b < 256) ∧
  (∀ b ∈ e.value.take 1, 32 < b ∧ b ≠ 58)

instance (e : Header) : Decidable (wfEntry e) := by
  unfold wfEntry
  infer_instance

/-- One serialized header line. -/
def serEntry (e : Header) : List Nat := e.key ++ 58 :: (e.value ++ [13, 10])

/-- A serialized head: the entry lines followed by the blank line. -/
def serHead (es : List Header) : List Nat := (es.map serEntry).flatten ++ [13, 10]

/-- What the tokenizer stores for a serialized entry. -/
def lowerEntry (e : Header) : Header := ⟨e.key.map (· ||| 32), e.value⟩

lemma scanKey_line (k : List Nat) (t : List Nat)
    (hk : ∀ b ∈ k, 32 < b ∧ b ≠ 58 ∧ b < 256) :
    scanKey (k ++ 58 :: t) = (k.map (· ||| 32), 58 :: t) := by
  induction k with
  | nil =>
    simp only [List.nil_append, List.map_nil]
    rw [scanKey]
    simp
  | cons b k ih =>
    have hb := hk b (by simp)
    simp only [List.cons_append, List.map_cons]
    rw [scanKey]
    rw [if_pos ⟨by omega, by omega⟩]
    rw [ih (fun x hx => hk x (by simp [hx]))]

lemma skipToValue_stop (v t : List Nat)
    (hv : ∀ b ∈ v.take 1, 32 < b ∧ b ≠ 58) :
    skipToValue (v ++ 13 :: t) = v ++ 13 :: t := by
  cases v with
  | nil =>
    simp only [List.nil_append]
    rw [skipToValue]
    rw [if_neg (by omega)]
  | cons b v =>
    have hb := hv b (by simp)
    simp only [List.cons_append]
    rw [skipToValue]
    rw [if_neg (by omega)]

lemma naiveScanCR_exact (v t : List Nat) (hv : ∀ b ∈ v, b ≠ 13) :
    naiveScanCR (v ++ 13 :: t) = some v.length := by
  induction v with
  | nil => simp [naiveScanCR]
  | cons b v ih =>
    have hb := hv b (by simp)
    simp only [List.cons_append]
    rw [naiveScanCR, if_neg hb, ih (fun x hx => hv x (by simp [hx]))]
    simp

/-- One loop iteration of `getHeaders` over one serialized entry line. -/
lemma ghLoop_ser_cons (e : Header) (z : List Nat) (fuel i : Nat)
    (he : wfEntry e) (hz : ∀ b ∈ z, b < 256) :
    ghLoop (fuel + 1) i (serEntry e ++ z) =
      match ghLoop fuel (i + 1) z with
      | none => none
      | some (hs, rest) => some (lowerEntry e :: hs, rest) := by
  obtain ⟨hkey, hval, hval1⟩ := he
  have hassoc : serEntry e ++ z = e.key ++ 58 :: (e.value ++ 13 :: 10 :: z) := by
    simp [serEntry]
  rw [hassoc, ghLoop]
  rw [scanKey_line e.key _ hkey]
  simp only []
  rw [show byte0 (58 :: (e.value ++ 13 :: 10 :: z)) = 58 from rfl]
  rw [if_neg (by omega)]
  have hdrop1 : (58 :: (e.value ++ 13 :: 10 :: z)).drop 1 = e.value ++ 13 :: 10 :: z := rfl
  rw [hdrop1, skipToValue_stop e.value (10 :: z) hval1]
  have hbytes : ∀ b ∈ e.value ++ 13 :: 10 :: z, b < 256 := by
    intro b hb
    rcases List.mem_append.mp hb with hb | hb
    · exact (hval b hb).2
    · rcases List.mem_cons.mp hb with hb | hb
      · omega
      · rcases List.mem_cons.mp hb with hb | hb
        · omega
        · exact hz b hb
  rw [memchr_r_naive _ hbytes,
    naiveScanCR_exact e.value (10 :: z) (fun b hb => (hval b hb).1)]
  simp only []
  have hd1 : (e.value ++ 13 :: 10 :: z).drop (e.value.length + 1) = 10 :: z := by
    have : (e.value ++ 13 :: 10 :: z).drop (e.value.length + 1) =
        (13 :: 10 :: z).drop 1 := List.drop_append 1
    rw [this]
    rfl
  have hd2 : (e.value ++ 13 :: 10 :: z).drop (e.value.length + 2) = z := by
    have : (e.value ++ 13 :: 10 :: z).drop (e.value.length + 2) =
        (13 :: 10 :: z).drop 2 := List.drop_append 2
    rw [this]
    rfl
  have ht1 : (e.value ++ 13 :: 10 :: z).take e.value.length = e.value := by
    have := List.take_left e.value (13 :: 10 :: z)
    exact this
  rw [hd1]
  simp only [List.headD_cons]
  rw [if_pos (by trivial), hd2, ht1]
  rfl

lemma ghLoop_ser :
    ∀ (es : List Header) (fuel i : Nat) (ext : List Nat),
      (∀ e ∈ es, wfEntry e) → (∀ b ∈ ext, b < 256) →
      es.length < fuel → 0 < i + es.length →
      ghLoop fuel i ((es.map serEntry).flatten ++ 13 :: 10 :: ext) =
        some (es.map lowerEntry, ext) := by
  intro es
  induction es with
  | nil =>
    intro fuel i ext _ _ hfuel hi
    match fuel with
    | 0 => simp at hfuel
    | fuel + 1 =>
      simp only [List.map_nil, List.flatten_nil, List.nil_append]
      rw [ghLoop]
      rw [show scanKey (13 :: 10 :: ext) = ([], 13 :: 10 :: ext) by rw [scanKey]; simp]
      simp only []
      rw [show byte0 (13 :: 10 :: ext) = 13 from rfl]
      rw [if_pos rfl, if_pos ⟨by simp, rfl, by simpa using hi⟩]
      rfl
  | cons e es ih =>
    intro fuel i ext hwf hext hfuel hi
    match fuel with
    | 0 => simp at hfuel
    | fuel + 1 =>
      have hz : ∀ b ∈ (es.map serEntry).flatten ++ 13 :: 10 :: ext, b < 256 := by
        intro b hb
        rcases List.mem_append.mp hb with hb | hb
        · obtain ⟨l2, hl2, hbl2⟩ := List.mem_flatten.mp hb
          obtain ⟨e2, he2, rfl⟩ := List.mem_map.mp hl2
          have hwf2 := hwf e2 (by simp [he2])
          rcases List.mem_append.mp hbl2 with hb2 | hb2
          · exact (hwf2.1 b hb2).2.2
          · rcases List.mem_cons.mp hb2 with hb2 | hb2
            · omega
            · rcases List.mem_append.mp hb2 with hb3 | hb3
              · exact (hwf2.2.1 b hb3).2
              · simp at hb3
                omega
        · rcases List.mem_cons.mp hb with hb | hb
          · omega
          · rcases List.mem_cons.mp hb with hb | hb
            · omega
            · exact hext b hb
      have hstep := ghLoop_ser_cons e ((es.map serEntry).flatten ++ 13 :: 10 :: ext)
        fuel i (hwf e (by simp)) hz
      simp only [List.map_cons, List.flatten_cons, List.append_assoc] at hstep ⊢
      rw [hstep]
      rw [ih fuel (i + 1) ext (fun x hx => hwf x (by simp [hx])) hext (by simp at hfuel; omega)
        (by omega)]

lemma ghLoop_ser_overflow :
    ∀ (fuel : Nat) (es : List Header) (i : Nat) (z : List Nat),
      (∀ e ∈ es, wfEntry e) → (∀ b ∈ z, b < 256) →
      fuel ≤ es.length →
      ghLoop fuel i ((es.map serEntry).flatten ++ z) = none := by
  intro fuel
  induction fuel with
  | zero => intro es i z _ _ _; rw [ghLoop]
  | succ fuel ih =>
    intro es i z hwf hz hfuel
    match es with
    | [] => simp at hfuel
    | e :: es =>
      have hz2 : ∀ b ∈ (es.map serEntry).flatten ++ z, b < 256 := by
        intro b hb
        rcases List.mem_append.mp hb with hb | hb
        · obtain ⟨l2, hl2, hbl2⟩ := List.mem_flatten.mp hb
          obtain ⟨e2, he2, rfl⟩ := List.mem_map.mp hl2
          have hwf2 := hwf e2 (by simp [he2])
          rcases List.mem_append.mp hbl2 with hb2 | hb2
          · exact (hwf2.1 b hb2).2.2
          · rcases List.mem_cons.mp hb2 with hb2 | hb2
            · omega
            · rcases List.mem_append.mp hb2 with hb3 | hb3
              · exact (hwf2.2.1 b hb3).2
              · simp at hb3
                omega
        · exact hz b hb
      have hstep := ghLoop_ser_cons e ((es.map serEntry).flatten ++ z)
        fuel i (hwf e (by simp)) hz2
      simp only [List.map_cons, List.flatten_cons, List.append_assoc] at hstep ⊢
      rw [hstep]
      rw [ih es (i + 1) z (fun x hx => hwf x (by simp [hx])) hz (by simp at hfuel; omega)]

def c7es50 : List Header :=
  ⟨strBytes "get", strBytes "/x"⟩ :: List.replicate 49 ⟨[97], [98]⟩

set_option maxRecDepth 40000 in
/-- C7, counterexample: a well-formed head with exactly 50 header-table
entries (the request line counted among them) is REJECTED by the
tokenizer — the 50-iteration loop stores all 50 entries and exits without
ever seeing the blank line, returning zero. -/
theorem C7_cx_fifty_entry_head_rejected :
    c7es50.length = 50 ∧ getHeadersR (serHead c7es50) = none := by
  refine ⟨by decide, by decide⟩

/-- C7, amended: the tokenizer accepts well-formed heads with up to **49**
header-table entries (the request line at slot 0 counted among them; the
50th slot is needed for the empty-key terminator), reproducing the
entries with lowercased keys; every well-formed head with 50 or more
entries makes `getHeaders` return zero. -/
theorem C7_max_49_entries :
    (∀ es : List Header, (∀ e ∈ es, wfEntry e) → 1 ≤ es.length → es.length ≤ 49 →
      getHeadersR (serHead es) = some (es.map lowerEntry, [])) ∧
    (∀ es : List Header, (∀ e ∈ es, wfEntry e) → 50 ≤ es.length →
      getHeadersR (serHead es) = none) := by
  constructor
  · intro es hwf h1 h49
    unfold getHeadersR serHead MAX_HEADERS
    have : (es.map serEntry).flatten ++ [13, 10] =
        (es.map serEntry).flatten ++ 13 :: 10 :: [] := rfl
    rw [this]
    exact ghLoop_ser es 50 0 [] hwf (by simp) (by omega) (by omega)
  · intro es hwf h50
    unfold getHeadersR serHead MAX_HEADERS
    exact ghLoop_ser_overflow 50 es 0 [13, 10] hwf (by intro b hb; simp at hb; omega)
      (by omega)

/-!
## Claim C3 (split invariance)

The claim quantifies over arbitrary byte streams and arbitrary
partitions.  Two counterexamples refute it as stated (see
`C3_cx_split_not_invariant`); the amended statement quantifies over
streams of well-formed pipelined requests whose serialized heads fit the
fallback buffer, and compares event traces after coalescing contiguous
data chunks of one body.
-/

/-- Coalescing of contiguous data chunks: every `data` event carrying
`is_end = false` is merged into the data event that follows it (chunks of
one body are contiguous, separated from the next request's events by
their `is_end = true` terminator).  `acc` carries the bytes of an open,
not yet terminated run. -/
def normA : Option (List Nat) → List Ev → List Ev
  | none, [] => []
  | some b, [] => [Ev.data b false]
  | none, Ev.data b2 false :: t => normA (some b2) t
  | none, Ev.data b2 true :: t => Ev.data b2 true :: normA none t
  | some b, Ev.data b2 false :: t => normA (some (b ++ b2)) t
  | some b, Ev.data b2 true :: t => Ev.data (b ++ b2) true :: normA none t
  | none, x :: t => x :: normA none t
  | some b, x :: t => Ev.data b false :: x :: normA none t

/-- Normalize an event trace by coalescing contiguous data chunks. -/
def normEvents (evs : List Ev) : List Ev := normA none evs

/-- Flushing an open data run. -/
def flushF : Option (List Nat) → List Ev
  | none => []
  | some b => [Ev.data b false]

lemma normA_nil (acc : Option (List Nat)) : normA acc [] = flushF acc := by
  cases acc <;> rfl

lemma normA_req (acc : Option (List Nat)) (h : List Header) (t : List Ev) :
    normA acc (Ev.req h :: t) = flushF acc ++ Ev.req h :: normA none t := by
  cases acc <;> rfl

lemma normA_data_false (acc : Option (List Nat)) (b : List Nat) (t : List Ev) :
    normA acc (Ev.data b false :: t) = normA (some (acc.getD [] ++ b)) t := by
  cases acc <;> rfl

lemma normA_data_true (acc : Option (List Nat)) (b : List Nat) (t : List Ev) :
    normA acc (Ev.data b true :: t) =
      Ev.data (acc.getD [] ++ b) true :: normA none t := by
  cases acc <;> rfl

/-- A pipelined request for the split-invariance statement: the
header-table entries it serializes to, and its body bytes (`[]` = no
body). -/
structure Req where
  entries : List Header
  body : List Nat
deriving DecidableEq, Repr

/-- Well-formedness of a request: serializable entries already in the
tokenizer's normal form (lowercase keys), between 1 and 49 of them, a
reachable `host` header, no `transfer-encoding`, a serialized head that
fits the fallback buffer, and a `content-length` header exactly matching
the body (absent for an empty body, parsing to the body length for a
nonempty one). -/
def wfReq (r : Req) : Prop :=
  (∀ e ∈ r.entries, wfEntry e) ∧
  (∀ e ∈ r.entries, lowerEntry e = e) ∧
  1 ≤ r.entries.length ∧ r.entries.length ≤ 49 ∧
  getHeaderOpt r.entries hostBytes ≠ none ∧
  headerValOf r.entries teBytes = [] ∧
  (∀ b ∈ r.body, b < 256) ∧
  (serHead r.entries).length ≤ MAX_FALLBACK_SIZE ∧
  (r.body = [] → headerValOf r.entries clBytes = []) ∧
  (r.body ≠ [] → headerValOf r.entries clBytes ≠ [] ∧
    toUnsignedInteger (headerValOf r.entries clBytes) = r.body.length ∧
    r.body.length ≤ 999999999)

instance (r : Req) : Decidable (wfReq r) := by
  unfold wfReq
  infer_instance

/-- Serialization of one request: its head followed by its body. -/
def serReq (r : Req) : List Nat := serHead r.entries ++ r.body

/-- Serialization of a pipelined request stream. -/
def serStream : List Req → List Nat
  | [] => []
  | r :: rs => serReq r ++ serStream rs

/-- The canonical (whole-delivery) event trace of a request stream: per
request, one `requestHandler` call followed by one `dataHandler` call
carrying the entire body with `is_end = true`. -/
def canonN : List Req → List Ev
  | [] => []
  | r :: rs => Ev.req r.entries :: Ev.data r.body true :: canonN rs

lemma serStream_append (a b : List Req) :
    serStream (a ++ b) = serStream a ++ serStream b := by
  induction a with
  | nil => rfl
  | cons r a ih => simp [serStream, ih]

lemma canonN_append (a b : List Req) : canonN (a ++ b) = canonN a ++ canonN b := by
  induction a with
  | nil => rfl
  | cons r a ih => simp [canonN, ih]

lemma serHead_cons (e : Header) (es : List Header) :
    serHead (e :: es) = serEntry e ++ serHead es := by
  simp [serHead]

lemma serEntry_length (e : Header) :
    (serEntry e).length = e.key.length + e.value.length + 3 := by
  simp [serEntry]
  omega

lemma serHead_len2 (es : List Header) : 2 ≤ (serHead es).length := by
  simp [serHead]

lemma serHead_bytes (es : List Header) (hwf : ∀ e ∈ es, wfEntry e) :
    ∀ b ∈ serHead es, b < 256 := by
  intro b hb
  unfold serHead at hb
  rcases List.mem_append.mp hb with hb | hb
  · obtain ⟨l2, hl2, hbl2⟩ := List.mem_flatten.mp hb
    obtain ⟨e2, he2, rfl⟩ := List.mem_map.mp hl2
    have hwf2 := hwf e2 he2
    unfold serEntry at hbl2
    rcases List.mem_append.mp hbl2 with hb2 | hb2
    · exact (hwf2.1 b hb2).2.2
    · rcases List.mem_cons.mp hb2 with hb2 | hb2
      · omega
      · rcases List.mem_append.mp hb2 with hb3 | hb3
        · exact (hwf2.2.1 b hb3).2
        · simp at hb3
          omega
  · simp at hb
    omega

lemma serReq_bytes (r : Req) (hwf : wfReq r) : ∀ b ∈ serReq r, b < 256 := by
  intro b hb
  rcases List.mem_append.mp hb with hb | hb
  · exact serHead_bytes r.entries hwf.1 b hb
  · exact hwf.2.2.2.2.2.2.1 b hb

lemma serStream_bytes (rs : List Req) (hwf : ∀ r ∈ rs, wfReq r) :
    ∀ b ∈ serStream rs, b < 256 := by
  induction rs with
  | nil => intro b hb; simp [serStream] at hb
  | cons r rs ih =>
    intro b hb
    rcases List.mem_append.mp hb with hb | hb
    · exact serReq_bytes r (hwf r (by simp)) b hb
    · exact ih (fun x hx => hwf x (by simp [hx])) b hb

lemma serReq_ne_nil (r : Req) : serReq r ≠ [] := by
  unfold serReq
  intro h
  rcases List.append_eq_nil.mp h with ⟨h1, _⟩
  have h2 := serHead_len2 r.entries
  rw [h1] at h2
  simp at h2

lemma serStream_eq_nil {rs : List Req} (h : serStream rs = []) : rs = [] := by
  cases rs with
  | nil => rfl
  | cons r rs =>
    exfalso
    unfold serStream at h
    rcases List.append_eq_nil.mp h with ⟨h1, _⟩
    exact serReq_ne_nil r h1

lemma map_lowerEntry_id (es : List Header) (h : ∀ e ∈ es, lowerEntry e = e) :
    es.map lowerEntry = es := by
  induction es with
  | nil => rfl
  | cons e es ih =>
    simp only [List.map_cons, h e (by simp), ih (fun x hx => h x (by simp [hx]))]

/-- `normA` walks through a canonical trace without merging anything:
all its data events carry `is_end = true`. -/
lemma normA_canon (rs : List Req) (acc : Option (List Nat)) (E : List Ev)
    (hne : rs ≠ []) :
    normA acc (canonN rs ++ E) = flushF acc ++ (canonN rs ++ normA none E) := by
  induction rs generalizing acc with
  | nil => exact absurd rfl hne
  | cons r rs ih =>
    show normA acc (Ev.req r.entries :: Ev.data r.body true :: (canonN rs ++ E)) = _
    rw [normA_req, normA_data_true]
    by_cases h : rs = []
    · subst h
      simp [canonN]
    · rw [ih none h]
      simp [canonN, flushF]

/-! ### Tokenizer lemmas for serialized heads -/

/-- A buffer of pure field-name bytes is consumed entirely by the key
scan. -/
lemma scanKey_all (l : List Nat) (h : ∀ b ∈ l, 32 < b ∧ b ≠ 58) :
    scanKey l = (l.map (· ||| 32), []) := by
  induction l with
  | nil => rfl
  | cons b l ih =>
    have hb := h b (by simp)
    rw [scanKey, if_pos ⟨hb.2, hb.1⟩, ih (fun x hx => h x (by simp [hx]))]
    rfl

lemma naiveScanCR_none (l : List Nat) (h : ∀ b ∈ l, b ≠ 13) :
    naiveScanCR l = none := by
  induction l with
  | nil => rfl
  | cons b l ih =>
    rw [naiveScanCR, if_neg (h b (by simp)), ih (fun x hx => h x (by simp [hx]))]
    rfl

lemma memchr_r_nil : memchr_r [] = none := rfl

/-- The tokenizer on a serialized head followed by arbitrary byte input:
the entries are reproduced (keys lowercased) and the extension is the
unconsumed rest. -/
lemma getHeadersR_ser (es : List Header) (ext : List Nat)
    (hwf : ∀ e ∈ es, wfEntry e) (h1 : 1 ≤ es.length) (h49 : es.length ≤ 49)
    (hext : ∀ b ∈ ext, b < 256) :
    getHeadersR (serHead es ++ ext) = some (es.map lowerEntry, ext) := by
  unfold getHeadersR MAX_HEADERS
  rw [show serHead es ++ ext = (es.map serEntry).flatten ++ 13 :: 10 :: ext by
    simp [serHead]]
  exact ghLoop_ser es 50 0 ext hwf hext (by omega) (by omega)

/-- The header loop fails on every proper prefix of a serialized head
(the head is incomplete: no stored line is ever lost, the loop returns
zero). -/
lemma ghLoop_pre :
    ∀ (fuel : Nat) (es : List Header) (i k : Nat),
      (∀ e ∈ es, wfEntry e) → k < (serHead es).length →
      ghLoop fuel i ((serHead es).take k) = none := by
  intro fuel
  induction fuel with
  | zero => intro es i k _ _; rw [ghLoop]
  | succ fuel ih =>
    intro es i k hwf hk
    match es with
    | [] =>
      have h2 : serHead ([] : List Header) = [13, 10] := rfl
      rw [h2] at hk ⊢
      simp at hk
      interval_cases k
      · show ghLoop (fuel + 1) i [] = none
        rw [ghLoop]
        simp [scanKey, byte0]
      · show ghLoop (fuel + 1) i [13] = none
        rw [ghLoop]
        rw [show scanKey [13] = ([], [13]) by rw [scanKey]; simp]
        simp [byte0, byte1]
    | e :: es2 =>
      have hw1 : wfEntry e := hwf e (by simp)
      have hws : ∀ x ∈ es2, wfEntry x := fun x hx => hwf x (by simp [hx])
      rw [serHead_cons] at hk ⊢
      simp only [List.length_append] at hk
      by_cases hcase : (serEntry e).length ≤ k
      · -- the whole first line is inside the prefix: step over it
        have htake : (serEntry e ++ serHead es2).take k =
            serEntry e ++ (serHead es2).take (k - (serEntry e).length) := by
          rw [List.take_append_eq_append_take, List.take_of_length_le hcase]
        rw [htake]
        have hlt : k - (serEntry e).length < (serHead es2).length := by omega
        have hbytes : ∀ b ∈ (serHead es2).take (k - (serEntry e).length), b < 256 :=
          fun b hb => serHead_bytes es2 hws b (List.mem_of_mem_take hb)
        rw [ghLoop_ser_cons e _ fuel i hw1 hbytes]
        rw [ih es2 (i + 1) (k - (serEntry e).length) hws hlt]
      · push_neg at hcase
        have htake : (serEntry e ++ serHead es2).take k = (serEntry e).take k :=
          List.take_append_of_le_length (by omega)
        rw [htake]
        have hel := serEntry_length e
        by_cases hkey : k ≤ e.key.length
        · -- inside the key: the scan eats the whole buffer
          have ht2 : (serEntry e).take k = e.key.take k := by
            unfold serEntry
            rw [List.take_append_of_le_length hkey]
          rw [ht2, ghLoop]
          rw [scanKey_all _ (fun b hb =>
            ⟨(hw1.1 b (List.mem_of_mem_take hb)).1,
             (hw1.1 b (List.mem_of_mem_take hb)).2.1⟩)]
          simp [byte0]
        · push_neg at hkey
          obtain ⟨q, hkq, hqle⟩ : ∃ q, k = e.key.length + 1 + q ∧
              q ≤ e.value.length + 1 := ⟨k - e.key.length - 1, by omega, by omega⟩
          have ht2 : (serEntry e).take k =
              e.key ++ 58 :: (e.value ++ [13, 10]).take q := by
            unfold serEntry
            rw [List.take_append_eq_append_take,
              List.take_of_length_le (by omega)]
            congr 1
            rw [show k - e.key.length = q + 1 by omega]
            rfl
          rw [ht2, ghLoop]
          rw [scanKey_line e.key _ hw1.1]
          simp only []
          rw [if_neg (by simp [byte0])]
          simp only [List.drop_succ_cons, List.drop_zero]
          by_cases hqv : q ≤ e.value.length
          · -- inside the value: no CR in the buffer
            have htq : (e.value ++ [13, 10]).take q = e.value.take q :=
              List.take_append_of_le_length hqv
            rw [htq]
            cases hv : e.value.take q with
            | nil =>
              rw [show skipToValue [] = [] from rfl, memchr_r_nil]
            | cons c v' =>
              have hq1 : 1 ≤ q := by
                by_contra hq0
                rw [show q = 0 by omega] at hv
                simp at hv
              have hc1 : c ∈ e.value.take 1 := by
                have : e.value.take 1 = (e.value.take q).take 1 := by
                  rw [List.take_take]
                  congr 1
                  omega
                rw [this, hv]
                simp
              have hcp := hw1.2.2 c hc1
              rw [skipToValue, if_neg (by omega)]
              have hvm : ∀ b ∈ c :: v', b ≠ 13 ∧ b < 256 := by
                intro b hb
                have hbv : b ∈ e.value.take q := by rw [hv]; exact hb
                exact hw1.2.1 b (List.mem_of_mem_take hbv)
              rw [memchr_r_naive _ (fun b hb => (hvm b hb).2),
                naiveScanCR_none _ (fun b hb => (hvm b hb).1)]
          · -- the value plus its CR, but no LF yet
            have hq2 : q = e.value.length + 1 := by omega
            have htq : (e.value ++ [13, 10]).take q = e.value ++ [13] := by
              rw [hq2, List.take_append_eq_append_take,
                List.take_of_length_le (by omega)]
              congr 1
              rw [show e.value.length + 1 - e.value.length = 1 by omega]
              rfl
            rw [htq]
            rw [show e.value ++ [13] = e.value ++ 13 :: [] from rfl,
              skipToValue_stop e.value [] hw1.2.2]
            have hbytes : ∀ b ∈ e.value ++ 13 :: [], b < 256 := by
              intro b hb
              rcases List.mem_append.mp hb with hb | hb
              · exact (hw1.2.1 b hb).2
              · simp at hb
                omega
            rw [memchr_r_naive _ hbytes,
              naiveScanCR_exact e.value [] (fun b hb => (hw1.2.1 b hb).1)]
            simp only [Option.map_some]
            have hdrop : (e.value ++ 13 :: []).drop (e.value.length + 1) = [] := by
              rw [List.drop_append_eq_append_drop, List.drop_of_length_le (by omega)]
              simp
            rw [hdrop]
            simp

/-- `getHeaders` returns zero on every proper prefix of a well-formed
serialized head. -/
lemma getHeadersR_pre (es : List Header) (k : Nat)
    (hwf : ∀ e ∈ es, wfEntry e) (hk : k < (serHead es).length) :
    getHeadersR ((serHead es).take k) = none :=
  ghLoop_pre 50 es 0 k hwf hk

/-! ### Single-request steps of `fenceAndConsumePostPadded` -/

/-- An incomplete head makes the fence loop exit with nothing consumed. -/
lemma fence_of_gh_none (minimal : Bool) (rem0 : Nat) (l : List Nat)
    (h : getHeadersR l = none) : fence minimal rem0 l = ⟨l, false, [], rem0⟩ := by
  by_cases hl : l = []
  · rw [hl, fence_nil]
  · show fenceF (l.length + 1) minimal rem0 l = _
    simp only [fenceF, if_neg hl, h]

/-- `CONSUME_MINIMALLY`, no-body request: the head is consumed, the
request handler and the single empty end-of-body chunk are emitted, and
the loop exits. -/
lemma fence_min_nobody (rem0 : Nat) (l : List Nat) (hs : List Header) (rest : List Nat)
    (hg : getHeadersR l = some (hs, rest))
    (hhost : getHeaderOpt hs hostBytes ≠ none)
    (hte : headerValOf hs teBytes = [])
    (hcl : headerValOf hs clBytes = []) :
    fence true rem0 l = ⟨rest, false, [Ev.req hs, Ev.data [] true], rem0⟩ := by
  have hl : l ≠ [] := getHeadersR_ne_nil hg
  show fenceF (l.length + 1) true rem0 l = _
  simp only [fenceF, if_neg hl, hg]
  rw [if_neg hhost, if_neg (by simp [hte] : ¬(headerValOf hs teBytes ≠ [] ∧
    headerValOf hs clBytes ≠ [])), if_neg (by simp [hte] : ¬headerValOf hs teBytes ≠ []),
    if_neg (by simp [hcl] : ¬headerValOf hs clBytes ≠ [])]
  rfl

/-- `CONSUME_MINIMALLY`, fixed-length request: the head alone is consumed
and `remainingStreamingBytes` is set to the parsed `content-length`. -/
lemma fence_min_cl (rem0 : Nat) (l : List Nat) (hs : List Header) (rest : List Nat)
    (hg : getHeadersR l = some (hs, rest))
    (hhost : getHeaderOpt hs hostBytes ≠ none)
    (hte : headerValOf hs teBytes = [])
    (hcl : headerValOf hs clBytes ≠ [])
    (hn : toUnsignedInteger (headerValOf hs clBytes) ≠ UINT_MAX) :
    fence true rem0 l =
      ⟨rest, false, [Ev.req hs], toUnsignedInteger (headerValOf hs clBytes)⟩ := by
  have hl : l ≠ [] := getHeadersR_ne_nil hg
  show fenceF (l.length + 1) true rem0 l = _
  simp only [fenceF, if_neg hl, hg]
  rw [if_neg hhost, if_neg (by simp [hte] : ¬(headerValOf hs teBytes ≠ [] ∧
    headerValOf hs clBytes ≠ [])), if_neg (by simp [hte] : ¬headerValOf hs teBytes ≠ []),
    if_pos hcl, if_neg hn]
  rfl

/-- Full-delivery fence loop, fixed-length request whose whole body is in
the buffer: request handler, one data chunk with the entire body and
`is_end = true`, then the loop continues after the body. -/
lemma fence_cl_full (rem0 : Nat) (l : List Nat) (hs : List Header) (body Z : List Nat)
    (hg : getHeadersR l = some (hs, body ++ Z))
    (hhost : getHeaderOpt hs hostBytes ≠ none)
    (hte : headerValOf hs teBytes = [])
    (hcl : headerValOf hs clBytes ≠ [])
    (hn : toUnsignedInteger (headerValOf hs clBytes) = body.length)
    (hmax : body.length < UINT_MAX) :
    fence false rem0 l = ⟨(fence false 0 Z).rest, (fence false 0 Z).fullptr,
      Ev.req hs :: Ev.data body true :: (fence false 0 Z).events,
      (fence false 0 Z).rem⟩ := by
  have hl : l ≠ [] := getHeadersR_ne_nil hg
  have hrest := getHeadersR_rest_lt hg
  show fenceF (l.length + 1) false rem0 l = _
  simp only [fenceF, if_neg hl, hg]
  rw [if_neg hhost, if_neg (by simp [hte] : ¬(headerValOf hs teBytes ≠ [] ∧
    headerValOf hs clBytes ≠ [])), if_neg (by simp [hte] : ¬headerValOf hs teBytes ≠ []),
    if_pos hcl, if_neg (by rw [hn]; omega)]
  simp only [Bool.false_eq_true, if_false]
  rw [hn]
  have hmin : min body.length (body ++ Z).length = body.length :=
    Nat.min_eq_left (by simp)
  rw [hmin, List.take_left, List.drop_left,
    show body.length - body.length = 0 by omega,
    show decide (body.length = body.length) = true by simp]
  have hZ : Z.length < l.length := by
    simp only [List.length_append] at hrest
    omega
  rw [fenceF_eq_fence l.length false 0 Z hZ]

/-- Full-delivery fence loop, fixed-length request with only part of its
body in the buffer: request handler, one data chunk with the available
prefix and `is_end = false`, and the loop exits with the missing byte
count in `remainingStreamingBytes`. -/
lemma fence_cl_partial (rem0 : Nat) (l : List Nat) (hs : List Header) (pb : List Nat)
    (hg : getHeadersR l = some (hs, pb))
    (hhost : getHeaderOpt hs hostBytes ≠ none)
    (hte : headerValOf hs teBytes = [])
    (hcl : headerValOf hs clBytes ≠ [])
    (hlt : pb.length < toUnsignedInteger (headerValOf hs clBytes))
    (hmax : toUnsignedInteger (headerValOf hs clBytes) < UINT_MAX) :
    fence false rem0 l = ⟨[], false, [Ev.req hs, Ev.data pb false],
      toUnsignedInteger (headerValOf hs clBytes) - pb.length⟩ := by
  have hl : l ≠ [] := getHeadersR_ne_nil hg
  show fenceF (l.length + 1) false rem0 l = _
  simp only [fenceF, if_neg hl, hg]
  rw [if_neg hhost, if_neg (by simp [hte] : ¬(headerValOf hs teBytes ≠ [] ∧
    headerValOf hs clBytes ≠ [])), if_neg (by simp [hte] : ¬headerValOf hs teBytes ≠ []),
    if_pos hcl, if_neg (by omega)]
  simp only [Bool.false_eq_true, if_false]
  have hmin : min (toUnsignedInteger (headerValOf hs clBytes)) pb.length = pb.length :=
    Nat.min_eq_right (by omega)
  rw [hmin, List.take_length, List.drop_length,
    show decide (pb.length = toUnsignedInteger (headerValOf hs clBytes)) = false by
      simp; omega]
  rw [fenceF_nil]

/-- The full-delivery fence loop steps through a serialized request
stream, emitting the canonical trace, and then behaves on the trailing
bytes as it would on them alone. -/
lemma fence_stream (p : List Nat) (hpb : ∀ b ∈ p, b < 256) :
    ∀ rs : List Req, (∀ r ∈ rs, wfReq r) →
      fence false 0 (serStream rs ++ p) =
        ⟨(fence false 0 p).rest, (fence false 0 p).fullptr,
          canonN rs ++ (fence false 0 p).events, (fence false 0 p).rem⟩ := by
  intro rs
  induction rs with
  | nil =>
    intro _
    simp only [serStream, List.nil_append, canonN]
  | cons r rs ih =>
    intro hwf
    have hwr : wfReq r := hwf r (by simp)
    have hwrs : ∀ x ∈ rs, wfReq x := fun x hx => hwf x (by simp [hx])
    obtain ⟨hentries, hlower, h1, h49, hhost, hte, hbytes, hcap, hclnil, hclsome⟩ := hwr
    have hsplit : serStream (r :: rs) ++ p =
        serHead r.entries ++ (r.body ++ (serStream rs ++ p)) := by
      simp [serStream, serReq]
    rw [hsplit]
    have hextb : ∀ b ∈ r.body ++ (serStream rs ++ p), b < 256 := by
      intro b hb
      rcases List.mem_append.mp hb with hb | hb
      · exact hbytes b hb
      · rcases List.mem_append.mp hb with hb | hb
        · exact serStream_bytes rs hwrs b hb
        · exact hpb b hb
    have hg : getHeadersR (serHead r.entries ++ (r.body ++ (serStream rs ++ p))) =
        some (r.entries, r.body ++ (serStream rs ++ p)) := by
      rw [getHeadersR_ser r.entries _ hentries h1 h49 hextb,
        map_lowerEntry_id _ hlower]
    by_cases hbody : r.body = []
    · have hcl := hclnil hbody
      rw [fence_nobody_step 0 _ r.entries _ hg hhost hte hcl]
      rw [hbody]
      simp only [List.nil_append]
      rw [ih hwrs]
      simp [canonN, hbody]
    · obtain ⟨hcl, hn, hle⟩ := hclsome hbody
      rw [fence_cl_full 0 _ r.entries r.body (serStream rs ++ p) hg hhost hte hcl hn
        (by unfold UINT_MAX; omega)]
      rw [ih hwrs]
      simp [canonN]

/-! ### The main phase on stream prefixes -/

/-- `mainPhase` on a whole serialized stream: the canonical trace, clean
state. -/
lemma main_stream_full (fb : List Nat) (evs : List Ev) (rs : List Req)
    (hwf : ∀ r ∈ rs, wfReq r) :
    mainPhase fb 0 (serStream rs) evs = ⟨.ok, evs ++ canonN rs, ⟨fb, 0⟩⟩ := by
  unfold mainPhase
  have h0 : fence false 0 (serStream rs) = ⟨[], false, canonN rs, 0⟩ := by
    have hfs := fence_stream [] (by simp) rs hwf
    rw [List.append_nil] at hfs
    rw [hfs, fence_nil]
    simp
  rw [h0]
  simp

/-- `mainPhase` on a serialized stream followed by a proper prefix of the
next head: the canonical trace, the partial head stashed in the fallback
buffer. -/
lemma main_stream_midhead (fb : List Nat) (evs : List Ev) (rs : List Req)
    (r : Req) (k : Nat) (hwf : ∀ x ∈ rs, wfReq x) (hwr : wfReq r)
    (hk0 : 0 < k) (hk : k < (serHead r.entries).length) :
    mainPhase fb 0 (serStream rs ++ (serHead r.entries).take k) evs =
      ⟨.ok, evs ++ canonN rs, ⟨fb ++ (serHead r.entries).take k, 0⟩⟩ := by
  unfold mainPhase
  have hb : ∀ b ∈ (serHead r.entries).take k, b < 256 :=
    fun b hb => serHead_bytes _ hwr.1 b (List.mem_of_mem_take hb)
  have h0 : fence false 0 ((serHead r.entries).take k) =
      ⟨(serHead r.entries).take k, false, [], 0⟩ :=
    fence_of_gh_none false 0 _ (getHeadersR_pre r.entries k hwr.1 hk)
  rw [fence_stream _ hb rs hwf, h0]
  simp only []
  have hlen : ((serHead r.entries).take k).length = k := by
    simp
    omega
  have hne : (serHead r.entries).take k ≠ [] := by
    intro h
    rw [h] at hlen
    simp at hlen
    omega
  have hcap := hwr.2.2.2.2.2.2.2.1
  rw [if_neg (by simp), if_neg hne, if_pos (by
    rw [hlen]
    unfold MAX_FALLBACK_SIZE at hcap ⊢
    omega)]
  simp

/-- `mainPhase` on a serialized stream followed by a complete next head
and part (possibly none) of its nonempty body: the canonical trace plus
the new request's handler and its partial first chunk, body streaming
state. -/
lemma main_stream_midbody (fb : List Nat) (evs : List Ev) (rs : List Req)
    (r : Req) (m : Nat) (hwf : ∀ x ∈ rs, wfReq x) (hwr : wfReq r)
    (hbody : r.body ≠ []) (hm : m < r.body.length) :
    mainPhase fb 0 (serStream rs ++ (serHead r.entries ++ r.body.take m)) evs =
      ⟨.ok, evs ++ (canonN rs ++ [Ev.req r.entries, Ev.data (r.body.take m) false]),
        ⟨fb, r.body.length - m⟩⟩ := by
  unfold mainPhase
  obtain ⟨hentries, hlower, h1, h49, hhost, hte, hbytes, hcap, hclnil, hclsome⟩ := hwr
  obtain ⟨hcl, hn, hle⟩ := hclsome hbody
  have hbtake : ∀ b ∈ serHead r.entries ++ r.body.take m, b < 256 := by
    intro b hb
    rcases List.mem_append.mp hb with hb | hb
    · exact serHead_bytes _ hentries b hb
    · exact hbytes b (List.mem_of_mem_take hb)
  have hg : getHeadersR (serHead r.entries ++ r.body.take m) =
      some (r.entries, r.body.take m) := by
    rw [getHeadersR_ser r.entries _ hentries h1 h49
      (fun b hb => hbytes b (List.mem_of_mem_take hb)),
      map_lowerEntry_id _ hlower]
  have htl : (r.body.take m).length = m := by
    simp
    omega
  have h0 : fence false 0 (serHead r.entries ++ r.body.take m) =
      ⟨[], false, [Ev.req r.entries, Ev.data (r.body.take m) false],
        r.body.length - m⟩ := by
    have := fence_cl_partial 0 _ r.entries (r.body.take m) hg hhost hte hcl
      (by rw [hn, htl]; omega) (by rw [hn]; unfold UINT_MAX; omega)
    rw [this, hn, htl]
  rw [fence_stream _ hbtake rs hwf, h0]
  simp

/-! ### Prefix decomposition of a serialized stream -/

lemma take_append_le (a b : List Nat) (k : Nat) (h : k ≤ a.length) :
    (a ++ b).take k = a.take k :=
  List.take_append_of_le_length h

lemma drop_append_le (a b : List Nat) (k : Nat) (h : k ≤ a.length) :
    (a ++ b).drop k = a.drop k ++ b := by
  rw [List.drop_append_eq_append_drop, Nat.sub_eq_zero_of_le h]
  simp

lemma take_append_ge (a b : List Nat) (k : Nat) (h : a.length ≤ k) :
    (a ++ b).take k = a ++ b.take (k - a.length) := by
  rw [List.take_append_eq_append_take, List.take_of_length_le h]

lemma drop_append_ge (a b : List Nat) (k : Nat) (h : a.length ≤ k) :
    (a ++ b).drop k = b.drop (k - a.length) := by
  rw [List.drop_append_eq_append_drop, List.drop_of_length_le h]
  simp

/-- Where a prefix of a serialized stream can end: at a request boundary,
inside a head, or inside a nonempty body after a complete head. -/
lemma serStream_take_shape :
    ∀ (rs : List Req) (j : Nat), j ≤ (serStream rs).length →
      (∃ rs₁ rs₂, rs = rs₁ ++ rs₂ ∧ (serStream rs).take j = serStream rs₁ ∧
        (serStream rs).drop j = serStream rs₂) ∨
      (∃ rs₁ r rs₂ k, rs = rs₁ ++ r :: rs₂ ∧ 0 < k ∧ k < (serHead r.entries).length ∧
        (serStream rs).take j = serStream rs₁ ++ (serHead r.entries).take k ∧
        (serStream rs).drop j =
          (serHead r.entries).drop k ++ (r.body ++ serStream rs₂)) ∨
      (∃ rs₁ r rs₂ m, rs = rs₁ ++ r :: rs₂ ∧ r.body ≠ [] ∧ m < r.body.length ∧
        (serStream rs).take j =
          serStream rs₁ ++ (serHead r.entries ++ r.body.take m) ∧
        (serStream rs).drop j = r.body.drop m ++ serStream rs₂) := by
  intro rs
  induction rs with
  | nil =>
    intro j hj
    left
    exact ⟨[], [], rfl, by simp [serStream], by simp [serStream]⟩
  | cons r rs ih =>
    intro j hj
    have hhl : (serHead r.entries).length ≤ (serReq r).length := by
      simp [serReq]
    by_cases hj0 : j = 0
    · left
      exact ⟨[], r :: rs, rfl, by simp [hj0, serStream], by simp [hj0]⟩
    · by_cases hjh : j < (serHead r.entries).length
      · right; left
        refine ⟨[], r, rs, j, rfl, by omega, hjh, ?_, ?_⟩
        · simp only [serStream, serReq, List.append_assoc]
          rw [take_append_le _ _ _ (by simp [serReq] at hhl ⊢; omega)]
          simp [serStream]
        · simp only [serStream, serReq, List.append_assoc]
          rw [drop_append_le _ _ _ (by simp [serReq] at hhl ⊢; omega)]
      · push_neg at hjh
        by_cases hjr : j < (serReq r).length
        · right; right
          have hbl : (serReq r).length =
              (serHead r.entries).length + r.body.length := by
            simp [serReq]
          refine ⟨[], r, rs, j - (serHead r.entries).length, rfl, ?_, by omega,
            ?_, ?_⟩
          · intro hb
            rw [hb] at hbl
            simp at hbl
            omega
          · simp only [serStream]
            rw [take_append_le _ _ _ (by omega)]
            unfold serReq
            rw [take_append_ge _ _ _ hjh]
            simp
          · simp only [serStream]
            rw [drop_append_le _ _ _ (by omega)]
            unfold serReq
            rw [drop_append_ge _ _ _ hjh]
        · push_neg at hjr
          have hj2 : j - (serReq r).length ≤ (serStream rs).length := by
            simp only [serStream, List.length_append] at hj
            omega
          rcases ih (j - (serReq r).length) hj2 with
            ⟨rs₁, rs₂, heq, ht, hd⟩ | ⟨rs₁, r', rs₂, k, heq, hk0, hkl, ht, hd⟩ |
            ⟨rs₁, r', rs₂, m, heq, hbne, hml, ht, hd⟩
          · left
            refine ⟨r :: rs₁, rs₂, by rw [heq, List.cons_append], ?_, ?_⟩
            · simp only [serStream]
              rw [take_append_ge _ _ _ hjr, ht]
            · simp only [serStream]
              rw [drop_append_ge _ _ _ hjr, hd]
          · right; left
            refine ⟨r :: rs₁, r', rs₂, k, by rw [heq, List.cons_append], hk0, hkl,
              ?_, ?_⟩
            · simp only [serStream]
              rw [take_append_ge _ _ _ hjr, ht]
              simp [serStream]
            · simp only [serStream]
              rw [drop_append_ge _ _ _ hjr, hd]
          · right; right
            refine ⟨r :: rs₁, r', rs₂, m, by rw [heq, List.cons_append], hbne, hml,
              ?_, ?_⟩
            · simp only [serStream]
              rw [take_append_ge _ _ _ hjr, ht]
              simp [serStream]
            · simp only [serStream]
              rw [drop_append_ge _ _ _ hjr, hd]

/-! ### Single `consumePostPadded` steps on stream positions -/

/-- A chunk that still does not complete the stashed head: it is appended
to the fallback buffer, nothing is emitted. -/
lemma consume_midhead_partial (r : Req) (hwr : wfReq r) (k j : Nat)
    (hk0 : 0 < k) (hkj : k + j < (serHead r.entries).length) :
    consumePostPadded ⟨(serHead r.entries).take k, 0⟩
        (((serHead r.entries).drop k).take j) =
      ⟨.ok, [], ⟨(serHead r.entries).take (k + j), 0⟩⟩ := by
  have hcap := hwr.2.2.2.2.2.2.2.1
  unfold MAX_FALLBACK_SIZE at hcap
  have hlen : ((serHead r.entries).take k).length = k := by
    simp
    omega
  have hdl : (((serHead r.entries).drop k).take j).length = j := by
    simp
    omega
  have hne : (serHead r.entries).take k ≠ [] := by
    intro h
    rw [h] at hlen
    simp at hlen
    omega
  unfold consumePostPadded
  rw [if_neg (by simp), if_pos (by simpa using hne)]
  simp only [hlen, hdl]
  have hmcd : min (MAX_FALLBACK_SIZE - k) j = j := by
    unfold MAX_FALLBACK_SIZE
    omega
  rw [hmcd]
  have hfb1 : (serHead r.entries).take k ++
      (((serHead r.entries).drop k).take j).take j =
        (serHead r.entries).take (k + j) := by
    rw [List.take_take, Nat.min_self, List.take_add]
  rw [hfb1]
  rw [fence_of_gh_none true 0 _ (getHeadersR_pre r.entries (k + j) hwr.1 hkj)]
  simp only []
  rw [if_neg (by simp)]
  have hl2 : ((serHead r.entries).take (k + j)).length = k + j := by
    simp
    omega
  rw [hl2]
  rw [if_neg (by omega), if_neg (by unfold MAX_FALLBACK_SIZE; omega)]

/-- A chunk that completes the stashed head: the fallback buffer absorbs
up to its capacity, the minimal fence parses the head, and the call
continues on the chunk's bytes past the head. -/
lemma consume_fallback_head (r : Req) (hwr : wfReq r) (k : Nat)
    (hk0 : 0 < k) (hk : k < (serHead r.entries).length)
    (D : List Nat) (hD : ∀ b ∈ D, b < 256) :
    consumePostPadded ⟨(serHead r.entries).take k, 0⟩
        ((serHead r.entries).drop k ++ D) =
      if r.body = [] then mainPhase [] 0 D [Ev.req r.entries, Ev.data [] true]
      else
        if D.length ≤ r.body.length then
          ⟨.ok, [Ev.req r.entries, Ev.data D (decide (r.body.length = D.length))],
            ⟨[], r.body.length - D.length⟩⟩
        else mainPhase [] 0 (D.drop r.body.length)
          [Ev.req r.entries, Ev.data (D.take r.body.length) true] := by
  obtain ⟨hentries, hlower, h1, h49, hhost, hte, hbytes, hcap, hclnil, hclsome⟩ := hwr
  unfold MAX_FALLBACK_SIZE at hcap
  have hlen : ((serHead r.entries).take k).length = k := by
    simp
    omega
  have hne : (serHead r.entries).take k ≠ [] := by
    intro h
    rw [h] at hlen
    simp at hlen
    omega
  have hdlen : ((serHead r.entries).drop k).length =
      (serHead r.entries).length - k := by
    simp
  unfold consumePostPadded
  rw [if_neg (by simp), if_pos (by simpa using hne)]
  simp only [hlen]
  -- the copied bytes: the head remainder plus a prefix of `D`
  have hm1 : (serHead r.entries).length - k ≤
      min (MAX_FALLBACK_SIZE - k) ((serHead r.entries).drop k ++ D).length := by
    unfold MAX_FALLBACK_SIZE
    simp only [List.length_append, hdlen]
    omega
  have htk : ((serHead r.entries).drop k ++ D).take
      (min (MAX_FALLBACK_SIZE - k) ((serHead r.entries).drop k ++ D).length) =
      (serHead r.entries).drop k ++ D.take
        (min (MAX_FALLBACK_SIZE - k) ((serHead r.entries).drop k ++ D).length -
          ((serHead r.entries).length - k)) := by
    rw [take_append_ge _ _ _ (by omega), hdlen]
  rw [htk]
  have hfb1 : (serHead r.entries).take k ++ ((serHead r.entries).drop k ++ D.take
      (min (MAX_FALLBACK_SIZE - k) ((serHead r.entries).drop k ++ D).length -
        ((serHead r.entries).length - k))) =
      serHead r.entries ++ D.take
        (min (MAX_FALLBACK_SIZE - k) ((serHead r.entries).drop k ++ D).length -
          ((serHead r.entries).length - k)) := by
    rw [← List.append_assoc, List.take_append_drop]
  rw [hfb1]
  set E := D.take
    (min (MAX_FALLBACK_SIZE - k) ((serHead r.entries).drop k ++ D).length -
      ((serHead r.entries).length - k)) with hE
  have hEb : ∀ b ∈ E, b < 256 := fun b hb => hD b (List.mem_of_mem_take hb)
  have hg : getHeadersR (serHead r.entries ++ E) = some (r.entries, E) := by
    rw [getHeadersR_ser r.entries E hentries h1 h49 hEb, map_lowerEntry_id _ hlower]
  have hd1 : ((serHead r.entries).drop k ++ D).drop
      ((serHead r.entries).length + E.length - E.length - k) = D := by
    rw [show (serHead r.entries).length + E.length - E.length - k =
      (serHead r.entries).length - k by omega]
    rw [drop_append_ge _ _ _ (by omega), hdlen]
    simp
  by_cases hbody : r.body = []
  · have hcl := hclnil hbody
    rw [fence_min_nobody 0 _ r.entries E hg hhost hte hcl]
    simp only []
    rw [if_neg (by simp)]
    have hlfb : (serHead r.entries ++ E).length = (serHead r.entries).length +
        E.length := by simp
    rw [hlfb]
    have hhl2 := serHead_len2 r.entries
    rw [if_pos (by omega : (serHead r.entries).length + E.length - E.length ≠ 0)]
    rw [hd1]
    rw [if_neg (by simp), if_pos hbody]
  · obtain ⟨hcl, hn, hle⟩ := hclsome hbody
    rw [fence_min_cl 0 _ r.entries E hg hhost hte hcl (by rw [hn]; unfold UINT_MAX; omega)]
    simp only []
    rw [if_neg (by simp)]
    have hlfb : (serHead r.entries ++ E).length = (serHead r.entries).length +
        E.length := by simp
    rw [hlfb]
    have hhl2 := serHead_len2 r.entries
    rw [if_pos (by omega : (serHead r.entries).length + E.length - E.length ≠ 0)]
    rw [hd1, hn]
    have hb0 : r.body.length ≠ 0 := by
      intro h0
      exact hbody (List.eq_nil_of_length_eq_zero h0)
    rw [if_pos hb0, if_neg (by simp [isChunkedState]; omega), if_neg hbody]
    simp

/-- A chunk arriving while a fixed-length body is being streamed
(`remainingStreamingBytes` = the missing byte count `w.length`). -/
lemma consume_midbody (w : List Nat) (hw0 : w ≠ []) (hwle : w.length ≤ 999999999)
    (c : List Nat) :
    consumePostPadded ⟨[], w.length⟩ c =
      if c.length ≤ w.length then
        ⟨.ok, [Ev.data c (decide (w.length = c.length))], ⟨[], w.length - c.length⟩⟩
      else mainPhase [] 0 (c.drop w.length) [Ev.data (c.take w.length) true] := by
  have hl0 : w.length ≠ 0 := by
    intro h0
    exact hw0 (List.eq_nil_of_length_eq_zero h0)
  unfold consumePostPadded
  rw [if_pos (by simpa using hl0), if_neg (by simp [isChunkedState]; omega)]

/-! ### Normalizer composition across canonical prefixes -/

/-- Prepending a canonical trace to the not-yet-normalized rest. -/
lemma normA_canon_comp (rs₁ rs₂ : List Req) (T : List Ev)
    (hT : ∀ acc', normA acc' T = flushF acc' ++ canonN rs₂) :
    ∀ acc, normA acc (canonN rs₁ ++ T) = flushF acc ++ canonN (rs₁ ++ rs₂) := by
  intro acc
  by_cases h1 : rs₁ = []
  · subst h1
    rw [show canonN ([] : List Req) ++ T = T by simp [canonN], hT acc]
    simp [canonN]
  · rw [normA_canon _ _ _ h1, hT none]
    simp [canonN_append, flushF]

/-- Prepending a canonical trace that ends in an open request (handler
call plus partial body chunk) to the rest. -/
lemma normA_shape3_comp (rs₁ : List Req) (r' : Req) (rs₂ : List Req)
    (pb rest : List Nat) (T : List Ev)
    (hpr : pb ++ rest = r'.body)
    (hT : ∀ acc', normA acc' T =
      Ev.data (acc'.getD [] ++ rest) true :: canonN rs₂) :
    ∀ acc, normA acc ((canonN rs₁ ++ [Ev.req r'.entries, Ev.data pb false]) ++ T) =
      flushF acc ++ canonN (rs₁ ++ r' :: rs₂) := by
  have hinner : ∀ acc2, normA acc2 ([Ev.req r'.entries, Ev.data pb false] ++ T) =
      flushF acc2 ++ canonN (r' :: rs₂) := by
    intro acc2
    show normA acc2 (Ev.req r'.entries :: Ev.data pb false :: T) = _
    rw [normA_req, normA_data_false, hT]
    simp [canonN, hpr]
  intro acc
  rw [List.append_assoc]
  exact normA_canon_comp rs₁ (r' :: rs₂) _ hinner acc

/-! ### The split-delivery invariant -/

/-- Parser positions between two `consumePostPadded` calls of a split
delivery: at a request boundary, accumulating a head in the fallback
buffer, or streaming a fixed-length body. -/
inductive Cfg where
  | bound (rs : List Req)
  | midHead (r : Req) (rs : List Req) (k : Nat)
  | midBody (r : Req) (rs : List Req) (m : Nat)

/-- The parser state and the bytes still to arrive at each position. -/
def cfgOK : Cfg → PState → List Nat → Prop
  | .bound rs, st, todo => (∀ x ∈ rs, wfReq x) ∧ st = ⟨[], 0⟩ ∧
      todo = serStream rs
  | .midHead r rs k, st, todo => wfReq r ∧ (∀ x ∈ rs, wfReq x) ∧
      st = ⟨(serHead r.entries).take k, 0⟩ ∧ 0 < k ∧
      k < (serHead r.entries).length ∧
      todo = (serHead r.entries).drop k ++ (r.body ++ serStream rs)
  | .midBody r rs m, st, todo => wfReq r ∧ (∀ x ∈ rs, wfReq x) ∧
      st = ⟨[], r.body.length - m⟩ ∧ m < r.body.length ∧
      todo = r.body.drop m ++ serStream rs

/-- The normalized trace the rest of the delivery will produce from each
position, as a function of the normalizer's open run `acc`. -/
def cfgFut : Cfg → Option (List Nat) → List Ev
  | .bound rs, acc => flushF acc ++ canonN rs
  | .midHead r rs _, acc => flushF acc ++ canonN (r :: rs)
  | .midBody r rs m, acc =>
      Ev.data (acc.getD [] ++ r.body.drop m) true :: canonN rs

/-- Shared step for every call whose effect reduces to the main phase on
a prefix of the remaining serialized stream, after already-emitted prefix
events `pre` (whose normalization effect is `preOut`). -/
lemma run_tail_step (cs : List (List Nat))
    (ih : ∀ (cfg : Cfg) (st : PState) (todo : List Nat), cfgOK cfg st todo →
      cs.flatten = todo →
      (runCalls st cs).2.2 = Outcome.ok ∧
      (runCalls st cs).2.1 = (⟨[], 0⟩ : PState) ∧
      ∀ acc, normA acc (runCalls st cs).1 = cfgFut cfg acc)
    (rs : List Req) (hwf : ∀ x ∈ rs, wfReq x)
    (jd : Nat) (hjd : jd ≤ (serStream rs).length)
    (st0 : PState) (c : List Nat) (pre : List Ev)
    (preOut : Option (List Nat) → List Ev)
    (hcon : consumePostPadded st0 c =
      mainPhase [] 0 ((serStream rs).take jd) pre)
    (hcs2 : cs.flatten = (serStream rs).drop jd)
    (hpre : ∀ (acc : Option (List Nat)) (T : List Ev),
      normA acc (pre ++ T) = preOut acc ++ normA none T) :
    (runCalls st0 (c :: cs)).2.2 = Outcome.ok ∧
    (runCalls st0 (c :: cs)).2.1 = (⟨[], 0⟩ : PState) ∧
    ∀ acc, normA acc (runCalls st0 (c :: cs)).1 = preOut acc ++ canonN rs := by
  rcases serStream_take_shape rs jd hjd with
    ⟨rs₁, rs₂, heq, ht, hd⟩ | ⟨rs₁, r', rs₂, k2, heq, hk20, hk2l, ht, hd⟩ |
    ⟨rs₁, r', rs₂, m2, heq, hbne, hml, ht, hd⟩
  · have hwf1 : ∀ x ∈ rs₁, wfReq x := fun x hx => hwf x (by
      rw [heq]; exact List.mem_append.mpr (Or.inl hx))
    have hwf2 : ∀ x ∈ rs₂, wfReq x := fun x hx => hwf x (by
      rw [heq]; exact List.mem_append.mpr (Or.inr hx))
    rw [ht, main_stream_full [] pre rs₁ hwf1] at hcon
    obtain ⟨iho, ihs, ihn⟩ := ih (.bound rs₂) ⟨[], 0⟩ cs.flatten
      ⟨hwf2, rfl, by rw [hcs2, hd]⟩ rfl
    have hrun : runCalls st0 (c :: cs) =
        ((pre ++ canonN rs₁) ++ (runCalls (⟨[], 0⟩ : PState) cs).1,
          (runCalls (⟨[], 0⟩ : PState) cs).2) := by
      simp only [runCalls, hcon]
    refine ⟨by rw [hrun]; exact iho, by rw [hrun]; exact ihs, fun acc => ?_⟩
    rw [hrun]
    show normA acc ((pre ++ canonN rs₁) ++ _) = _
    rw [List.append_assoc, hpre acc, normA_canon_comp rs₁ rs₂ _ ihn none]
    rw [heq]
    simp [flushF]
  · have hwf1 : ∀ x ∈ rs₁, wfReq x := fun x hx => hwf x (by
      rw [heq]; exact List.mem_append.mpr (Or.inl hx))
    have hwr' : wfReq r' := hwf r' (by rw [heq]; simp)
    have hwf2 : ∀ x ∈ rs₂, wfReq x := fun x hx => hwf x (by
      rw [heq]; simp [hx])
    rw [ht, main_stream_midhead [] pre rs₁ r' k2 hwf1 hwr' hk20 hk2l] at hcon
    simp only [List.nil_append] at hcon
    obtain ⟨iho, ihs, ihn⟩ := ih (.midHead r' rs₂ k2)
      ⟨(serHead r'.entries).take k2, 0⟩ cs.flatten
      ⟨hwr', hwf2, rfl, hk20, hk2l, by rw [hcs2, hd]⟩ rfl
    have hrun : runCalls st0 (c :: cs) =
        ((pre ++ canonN rs₁) ++
          (runCalls (⟨(serHead r'.entries).take k2, 0⟩ : PState) cs).1,
          (runCalls (⟨(serHead r'.entries).take k2, 0⟩ : PState) cs).2) := by
      simp only [runCalls, hcon]
    refine ⟨by rw [hrun]; exact iho, by rw [hrun]; exact ihs, fun acc => ?_⟩
    rw [hrun]
    show normA acc ((pre ++ canonN rs₁) ++ _) = _
    rw [List.append_assoc, hpre acc, normA_canon_comp rs₁ (r' :: rs₂) _ ihn none]
    rw [heq]
    simp [flushF]
  · have hwf1 : ∀ x ∈ rs₁, wfReq x := fun x hx => hwf x (by
      rw [heq]; exact List.mem_append.mpr (Or.inl hx))
    have hwr' : wfReq r' := hwf r' (by rw [heq]; simp)
    have hwf2 : ∀ x ∈ rs₂, wfReq x := fun x hx => hwf x (by
      rw [heq]; simp [hx])
    rw [ht, main_stream_midbody [] pre rs₁ r' m2 hwf1 hwr' hbne hml] at hcon
    obtain ⟨iho, ihs, ihn⟩ := ih (.midBody r' rs₂ m2)
      ⟨[], r'.body.length - m2⟩ cs.flatten
      ⟨hwr', hwf2, rfl, hml, by rw [hcs2, hd]⟩ rfl
    have hrun : runCalls st0 (c :: cs) =
        ((pre ++ (canonN rs₁ ++
            [Ev.req r'.entries, Ev.data (r'.body.take m2) false])) ++
          (runCalls (⟨[], r'.body.length - m2⟩ : PState) cs).1,
          (runCalls (⟨[], r'.body.length - m2⟩ : PState) cs).2) := by
      simp only [runCalls, hcon]
    refine ⟨by rw [hrun]; exact iho, by rw [hrun]; exact ihs, fun acc => ?_⟩
    rw [hrun]
    show normA acc ((pre ++ _) ++ _) = _
    rw [List.append_assoc, hpre acc,
      normA_shape3_comp rs₁ r' rs₂ _ _ _ (List.take_append_drop m2 r'.body)
        ihn none]
    rw [heq]
    simp [flushF]

/-- Master invariant of split delivery: from any valid position, feeding
the remaining bytes of the stream in arbitrary chunks returns `user` from
every call, ends in the clean parser state, and produces exactly the
canonical trace once contiguous data chunks are coalesced. -/
lemma run_master :
    ∀ (chunks : List (List Nat)) (cfg : Cfg) (st : PState) (todo : List Nat),
      cfgOK cfg st todo → chunks.flatten = todo →
      (runCalls st chunks).2.2 = Outcome.ok ∧
      (runCalls st chunks).2.1 = (⟨[], 0⟩ : PState) ∧
      ∀ acc, normA acc (runCalls st chunks).1 = cfgFut cfg acc := by
  intro chunks
  induction chunks with
  | nil =>
    intro cfg st todo hok hflat
    have ht : todo = [] := by rw [← hflat]; rfl
    subst ht
    cases cfg with
    | bound rs =>
      obtain ⟨hwf, hst, htodo⟩ := hok
      have hrs : rs = [] := serStream_eq_nil htodo.symm
      subst hst
      refine ⟨rfl, rfl, fun acc => ?_⟩
      show normA acc [] = _
      rw [normA_nil, hrs]
      simp [cfgFut, canonN]
    | midHead r rs k =>
      obtain ⟨hwr, hwf, hst, hk0, hk, htodo⟩ := hok
      exfalso
      have hdne : (serHead r.entries).drop k ≠ [] := by
        intro h
        have := congrArg List.length h
        simp at this
        omega
      rcases List.append_eq_nil.mp htodo.symm with ⟨h1, _⟩
      exact hdne h1
    | midBody r rs m =>
      obtain ⟨hwr, hwf, hst, hm, htodo⟩ := hok
      exfalso
      have hdne : r.body.drop m ≠ [] := by
        intro h
        have := congrArg List.length h
        simp at this
        omega
      rcases List.append_eq_nil.mp htodo.symm with ⟨h1, _⟩
      exact hdne h1
  | cons c cs ih =>
    intro cfg st todo hok hflat
    rw [List.flatten_cons] at hflat
    have hcs : cs.flatten = todo.drop c.length := by
      rw [← hflat, List.drop_left]
    have hcl : c = todo.take c.length := by
      rw [← hflat, List.take_left]
    have hclen : c.length ≤ todo.length := by
      rw [← hflat]
      simp
    cases cfg with
    | bound rs =>
      obtain ⟨hwf, hst, htodo⟩ := hok
      subst hst
      have hjle : c.length ≤ (serStream rs).length := by
        rw [htodo] at hclen
        exact hclen
      have hctake : c = (serStream rs).take c.length := by
        conv_lhs => rw [hcl]
        rw [htodo]
      rcases serStream_take_shape rs c.length hjle with
        ⟨rs₁, rs₂, heq, ht, hd⟩ | ⟨rs₁, r', rs₂, k, heq, hk0, hkl, ht, hd⟩ |
        ⟨rs₁, r', rs₂, m, heq, hbne, hml, ht, hd⟩
      · -- the chunk ends at a request boundary
        have hwf1 : ∀ x ∈ rs₁, wfReq x := fun x hx => hwf x (by
          rw [heq]; exact List.mem_append.mpr (Or.inl hx))
        have hwf2 : ∀ x ∈ rs₂, wfReq x := fun x hx => hwf x (by
          rw [heq]; exact List.mem_append.mpr (Or.inr hx))
        have hcon : consumePostPadded ⟨[], 0⟩ c = ⟨.ok, canonN rs₁, ⟨[], 0⟩⟩ := by
          have hcf : consumePostPadded (⟨[], 0⟩ : PState) c =
              mainPhase [] 0 c [] := consume_fresh c
          rw [hcf, hctake, ht, main_stream_full [] [] rs₁ hwf1]
          simp
        have hok2 : cfgOK (.bound rs₂) (⟨[], 0⟩ : PState) cs.flatten :=
          ⟨hwf2, rfl, by rw [hcs, htodo, hd]⟩
        obtain ⟨iho, ihs, ihn⟩ := ih (.bound rs₂) ⟨[], 0⟩ cs.flatten hok2 rfl
        have hrun : runCalls (⟨[], 0⟩ : PState) (c :: cs) =
            (canonN rs₁ ++ (runCalls (⟨[], 0⟩ : PState) cs).1,
              (runCalls (⟨[], 0⟩ : PState) cs).2) := by
          simp only [runCalls, hcon]
        refine ⟨by rw [hrun]; exact iho, by rw [hrun]; exact ihs, fun acc => ?_⟩
        rw [hrun]
        show normA acc (canonN rs₁ ++ _) = _
        rw [normA_canon_comp rs₁ rs₂ _ ihn acc]
        simp only [cfgFut, heq]
      · -- the chunk ends inside the next head
        have hwf1 : ∀ x ∈ rs₁, wfReq x := fun x hx => hwf x (by
          rw [heq]; exact List.mem_append.mpr (Or.inl hx))
        have hwr' : wfReq r' := hwf r' (by rw [heq]; simp)
        have hwf2 : ∀ x ∈ rs₂, wfReq x := fun x hx => hwf x (by
          rw [heq]; simp [hx])
        have hcon : consumePostPadded ⟨[], 0⟩ c =
            ⟨.ok, canonN rs₁, ⟨(serHead r'.entries).take k, 0⟩⟩ := by
          have hcf : consumePostPadded (⟨[], 0⟩ : PState) c =
              mainPhase [] 0 c [] := consume_fresh c
          rw [hcf, hctake, ht, main_stream_midhead [] [] rs₁ r' k hwf1 hwr' hk0 hkl]
          simp
        have hok2 : cfgOK (.midHead r' rs₂ k)
            (⟨(serHead r'.entries).take k, 0⟩ : PState) cs.flatten :=
          ⟨hwr', hwf2, rfl, hk0, hkl, by rw [hcs, htodo, hd]⟩
        obtain ⟨iho, ihs, ihn⟩ := ih (.midHead r' rs₂ k) _ cs.flatten hok2 rfl
        have hrun : runCalls (⟨[], 0⟩ : PState) (c :: cs) =
            (canonN rs₁ ++
              (runCalls (⟨(serHead r'.entries).take k, 0⟩ : PState) cs).1,
              (runCalls (⟨(serHead r'.entries).take k, 0⟩ : PState) cs).2) := by
          simp only [runCalls, hcon]
        refine ⟨by rw [hrun]; exact iho, by rw [hrun]; exact ihs, fun acc => ?_⟩
        rw [hrun]
        show normA acc (canonN rs₁ ++ _) = _
        rw [normA_canon_comp rs₁ (r' :: rs₂) _ ihn acc]
        simp only [cfgFut, heq]
      · -- the chunk ends inside the next request's body
        have hwf1 : ∀ x ∈ rs₁, wfReq x := fun x hx => hwf x (by
          rw [heq]; exact List.mem_append.mpr (Or.inl hx))
        have hwr' : wfReq r' := hwf r' (by rw [heq]; simp)
        have hwf2 : ∀ x ∈ rs₂, wfReq x := fun x hx => hwf x (by
          rw [heq]; simp [hx])
        have hcon : consumePostPadded ⟨[], 0⟩ c =
            ⟨.ok, canonN rs₁ ++ [Ev.req r'.entries, Ev.data (r'.body.take m) false],
              ⟨[], r'.body.length - m⟩⟩ := by
          have hcf : consumePostPadded (⟨[], 0⟩ : PState) c =
              mainPhase [] 0 c [] := consume_fresh c
          rw [hcf, hctake, ht, main_stream_midbody [] [] rs₁ r' m hwf1 hwr' hbne hml]
          simp
        have hok2 : cfgOK (.midBody r' rs₂ m)
            (⟨[], r'.body.length - m⟩ : PState) cs.flatten :=
          ⟨hwr', hwf2, rfl, hml, by rw [hcs, htodo, hd]⟩
        obtain ⟨iho, ihs, ihn⟩ := ih (.midBody r' rs₂ m) _ cs.flatten hok2 rfl
        have hrun : runCalls (⟨[], 0⟩ : PState) (c :: cs) =
            ((canonN rs₁ ++ [Ev.req r'.entries, Ev.data (r'.body.take m) false]) ++
              (runCalls (⟨[], r'.body.length - m⟩ : PState) cs).1,
              (runCalls (⟨[], r'.body.length - m⟩ : PState) cs).2) := by
          simp only [runCalls, hcon]
        refine ⟨by rw [hrun]; exact iho, by rw [hrun]; exact ihs, fun acc => ?_⟩
        rw [hrun]
        rw [normA_shape3_comp rs₁ r' rs₂ (r'.body.take m) (r'.body.drop m) _
          (List.take_append_drop m r'.body) ihn acc]
        simp only [cfgFut, heq]
    | midHead r rs k =>
      obtain ⟨hwr, hwf, hst, hk0, hk, htodo⟩ := hok
      subst hst
      have hcap := hwr.2.2.2.2.2.2.2.1
      have htlen : todo.length =
          ((serHead r.entries).length - k) + (r.body.length +
            (serStream rs).length) := by
        rw [htodo]
        simp
      by_cases hsmall : c.length < (serHead r.entries).length - k
      · -- still not enough bytes for the head
        have hctake : c = ((serHead r.entries).drop k).take c.length := by
          conv_lhs => rw [hcl]
          rw [htodo, take_append_le _ _ _ (by simp; omega)]
        have hcon := consume_midhead_partial r hwr k c.length hk0 (by omega)
        rw [← hctake] at hcon
        have hok2 : cfgOK (.midHead r rs (k + c.length))
            (⟨(serHead r.entries).take (k + c.length), 0⟩ : PState) cs.flatten := by
          refine ⟨hwr, hwf, rfl, by omega, by omega, ?_⟩
          rw [hcs, htodo, drop_append_le _ _ _ (by simp; omega), List.drop_drop]
        obtain ⟨iho, ihs, ihn⟩ := ih (.midHead r rs (k + c.length)) _
          cs.flatten hok2 rfl
        have hrun : runCalls (⟨(serHead r.entries).take k, 0⟩ : PState) (c :: cs) =
            ([] ++ (runCalls
                (⟨(serHead r.entries).take (k + c.length), 0⟩ : PState) cs).1,
              (runCalls
                (⟨(serHead r.entries).take (k + c.length), 0⟩ : PState) cs).2) := by
          simp only [runCalls, hcon]
        refine ⟨by rw [hrun]; exact iho, by rw [hrun]; exact ihs, fun acc => ?_⟩
        rw [hrun, List.nil_append, ihn acc]
        simp only [cfgFut]
      · -- the head completes during this call
        push_neg at hsmall
        have hcsplit : c = (serHead r.entries).drop k ++
            ((r.body ++ serStream rs).take
              (c.length - ((serHead r.entries).length - k))) := by
          conv_lhs => rw [hcl]
          rw [htodo, take_append_ge _ _ _ (by simp; omega)]
          simp
        have hDb : ∀ b ∈ (r.body ++ serStream rs).take
            (c.length - ((serHead r.entries).length - k)), b < 256 := by
          intro b hb
          have hb2 := List.mem_of_mem_take hb
          rcases List.mem_append.mp hb2 with hb3 | hb3
          · exact hwr.2.2.2.2.2.2.1 b hb3
          · exact serStream_bytes rs hwf b hb3
        have hcon := consume_fallback_head r hwr k hk0 hk _ hDb
        rw [← hcsplit] at hcon
        have hjd : c.length - ((serHead r.entries).length - k) ≤
            r.body.length + (serStream rs).length := by omega
        have hDlen : ((r.body ++ serStream rs).take
            (c.length - ((serHead r.entries).length - k))).length =
              c.length - ((serHead r.entries).length - k) := by
          simp
          omega
        have hdropc : todo.drop c.length = (r.body ++ serStream rs).drop
            (c.length - ((serHead r.entries).length - k)) := by
          rw [htodo, drop_append_ge _ _ _ (by simp; omega)]
          simp
        by_cases hbody : r.body = []
        · -- no body: the rest of the chunk is the next requests' bytes
          rw [if_pos hbody] at hcon
          have hDser : (r.body ++ serStream rs).take
              (c.length - ((serHead r.entries).length - k)) =
                (serStream rs).take
                  (c.length - ((serHead r.entries).length - k)) := by
            rw [hbody]
            simp
          rw [hDser] at hcon
          have hjd2 : c.length - ((serHead r.entries).length - k) ≤
              (serStream rs).length := by
            rw [hbody] at hjd
            simpa using hjd
          have hcs2 : cs.flatten = (serStream rs).drop
              (c.length - ((serHead r.entries).length - k)) := by
            rw [hcs, hdropc, hbody]
            simp
          have hpre : ∀ (acc : Option (List Nat)) (T : List Ev),
              normA acc ([Ev.req r.entries, Ev.data [] true] ++ T) =
                (flushF acc ++ canonN [r]) ++ normA none T := by
            intro acc T
            show normA acc (Ev.req r.entries :: Ev.data [] true :: T) = _
            rw [normA_req, normA_data_true]
            simp [canonN, hbody]
          have hstep := run_tail_step cs ih rs hwf
            (c.length - ((serHead r.entries).length - k)) hjd2
            ⟨(serHead r.entries).take k, 0⟩ c
            [Ev.req r.entries, Ev.data [] true]
            (fun acc => flushF acc ++ canonN [r]) hcon hcs2 hpre
          refine ⟨hstep.1, hstep.2.1, fun acc => ?_⟩
          rw [hstep.2.2 acc]
          simp only [cfgFut]
          simp [canonN]
        · rw [if_neg hbody] at hcon
          by_cases hDle : ((r.body ++ serStream rs).take
              (c.length - ((serHead r.entries).length - k))).length ≤
                r.body.length
          · -- the chunk ends inside this request's body
            rw [if_pos hDle] at hcon
            have hjdle : c.length - ((serHead r.entries).length - k) ≤
                r.body.length := by
              rw [hDlen] at hDle
              exact hDle
            have hDbody : (r.body ++ serStream rs).take
                (c.length - ((serHead r.entries).length - k)) =
                  r.body.take (c.length - ((serHead r.entries).length - k)) :=
              take_append_le _ _ _ hjdle
            rw [hDbody] at hcon
            have htklen : (r.body.take
                (c.length - ((serHead r.entries).length - k))).length =
                  c.length - ((serHead r.entries).length - k) := by
              simp
              omega
            rw [htklen] at hcon
            by_cases heqf : c.length - ((serHead r.entries).length - k) =
                r.body.length
            · -- the body completes exactly at the chunk boundary
              rw [heqf, List.take_length,
                show decide (r.body.length = r.body.length) = true by simp,
                Nat.sub_self] at hcon
              have hok2 : cfgOK (.bound rs) (⟨[], 0⟩ : PState) cs.flatten :=
                ⟨hwf, rfl, by rw [hcs, hdropc, heqf, List.drop_left]⟩
              obtain ⟨iho, ihs, ihn⟩ := ih (.bound rs) ⟨[], 0⟩ cs.flatten hok2 rfl
              have hrun : runCalls
                  (⟨(serHead r.entries).take k, 0⟩ : PState) (c :: cs) =
                  ([Ev.req r.entries, Ev.data r.body true] ++
                    (runCalls (⟨[], 0⟩ : PState) cs).1,
                    (runCalls (⟨[], 0⟩ : PState) cs).2) := by
                simp only [runCalls, hcon]
              refine ⟨by rw [hrun]; exact iho, by rw [hrun]; exact ihs,
                fun acc => ?_⟩
              rw [hrun]
              show normA acc (Ev.req r.entries :: Ev.data r.body true :: _) = _
              rw [normA_req, normA_data_true]
              simp only [List.append_eq, List.nil_append]
              rw [ihn none]
              simp [cfgFut, canonN, flushF]
            · -- part of the body is still missing
              have hlt2 : c.length - ((serHead r.entries).length - k) <
                  r.body.length := by omega
              rw [show decide (r.body.length =
                  c.length - ((serHead r.entries).length - k)) = false by
                simp
                omega] at hcon
              have hok2 : cfgOK
                  (.midBody r rs (c.length - ((serHead r.entries).length - k)))
                  (⟨[], r.body.length -
                    (c.length - ((serHead r.entries).length - k))⟩ : PState)
                  cs.flatten := by
                refine ⟨hwr, hwf, rfl, hlt2, ?_⟩
                rw [hcs, hdropc, drop_append_le _ _ _ (by omega)]
              obtain ⟨iho, ihs, ihn⟩ := ih
                (.midBody r rs (c.length - ((serHead r.entries).length - k)))
                _ cs.flatten hok2 rfl
              have hrun : runCalls
                  (⟨(serHead r.entries).take k, 0⟩ : PState) (c :: cs) =
                  ([Ev.req r.entries, Ev.data
                      (r.body.take (c.length - ((serHead r.entries).length - k)))
                      false] ++
                    (runCalls (⟨[], r.body.length -
                      (c.length - ((serHead r.entries).length - k))⟩ : PState)
                      cs).1,
                    (runCalls (⟨[], r.body.length -
                      (c.length - ((serHead r.entries).length - k))⟩ : PState)
                      cs).2) := by
                simp only [runCalls, hcon]
              refine ⟨by rw [hrun]; exact iho, by rw [hrun]; exact ihs,
                fun acc => ?_⟩
              rw [hrun]
              show normA acc (Ev.req r.entries :: Ev.data _ false :: _) = _
              rw [normA_req, normA_data_false]
              simp only [List.append_eq, List.nil_append]
              rw [ihn]
              simp [cfgFut, canonN, flushF, List.take_append_drop]
          · -- the chunk runs past this request's body
            rw [if_neg hDle] at hcon
            push_neg at hDle
            rw [hDlen] at hDle
            have hDtake : ((r.body ++ serStream rs).take
                (c.length - ((serHead r.entries).length - k))).take
                  r.body.length = r.body := by
              rw [List.take_take, Nat.min_eq_left (by omega), List.take_left]
            have hDdrop : ((r.body ++ serStream rs).take
                (c.length - ((serHead r.entries).length - k))).drop
                  r.body.length =
                (serStream rs).take
                  (c.length - ((serHead r.entries).length - k) -
                    r.body.length) := by
              rw [take_append_ge _ _ _ (by omega), List.drop_left]
            rw [hDtake, hDdrop] at hcon
            have hjd2 : c.length - ((serHead r.entries).length - k) -
                r.body.length ≤ (serStream rs).length := by
              simp only [List.length_append] at hjd
              omega
            have hcs2 : cs.flatten = (serStream rs).drop
                (c.length - ((serHead r.entries).length - k) -
                  r.body.length) := by
              rw [hcs, hdropc, drop_append_ge _ _ _ (by omega)]
            have hpre : ∀ (acc : Option (List Nat)) (T : List Ev),
                normA acc ([Ev.req r.entries, Ev.data r.body true] ++ T) =
                  (flushF acc ++ canonN [r]) ++ normA none T := by
              intro acc T
              show normA acc (Ev.req r.entries :: Ev.data r.body true :: T) = _
              rw [normA_req, normA_data_true]
              simp [canonN]
            have hstep := run_tail_step cs ih rs hwf
              (c.length - ((serHead r.entries).length - k) - r.body.length) hjd2
              ⟨(serHead r.entries).take k, 0⟩ c
              [Ev.req r.entries, Ev.data r.body true]
              (fun acc => flushF acc ++ canonN [r]) hcon hcs2 hpre
            refine ⟨hstep.1, hstep.2.1, fun acc => ?_⟩
            rw [hstep.2.2 acc]
            simp only [cfgFut]
            simp [canonN]
    | midBody r rs m =>
      obtain ⟨hwr, hwf, hst, hm, htodo⟩ := hok
      subst hst
      have hbody : r.body ≠ [] := by
        intro h
        rw [h] at hm
        simp at hm
      have hle999 : r.body.length ≤ 999999999 :=
        (hwr.2.2.2.2.2.2.2.2.2 hbody).2.2
      have hwlen : (r.body.drop m).length = r.body.length - m := by simp
      have hwne : r.body.drop m ≠ [] := by
        intro h
        have := congrArg List.length h
        simp at this
        omega
      have hcon := consume_midbody (r.body.drop m) hwne
        (by rw [hwlen]; omega) c
      rw [hwlen] at hcon
      by_cases hcle : c.length ≤ r.body.length - m
      · rw [if_pos hcle] at hcon
        have hctake : c = (r.body.drop m).take c.length := by
          conv_lhs => rw [hcl]
          rw [htodo, take_append_le _ _ _ (by simp; omega)]
        by_cases heqf : c.length = r.body.length - m
        · -- the body completes with this chunk
          have hcw : c = r.body.drop m := by
            rw [hctake, heqf, ← hwlen, List.take_length]
          rw [show decide (r.body.length - m = c.length) = true by simp [heqf],
            show r.body.length - m - c.length = 0 by omega] at hcon
          have hdl : todo.drop c.length = serStream rs := by
            rw [htodo, show c.length = (r.body.drop m).length by
              rw [hwlen]; omega, List.drop_left]
          have hok2 : cfgOK (.bound rs) (⟨[], 0⟩ : PState) cs.flatten :=
            ⟨hwf, rfl, by rw [hcs, hdl]⟩
          obtain ⟨iho, ihs, ihn⟩ := ih (.bound rs) ⟨[], 0⟩ cs.flatten hok2 rfl
          have hrun : runCalls (⟨[], r.body.length - m⟩ : PState) (c :: cs) =
              ([Ev.data c true] ++ (runCalls (⟨[], 0⟩ : PState) cs).1,
                (runCalls (⟨[], 0⟩ : PState) cs).2) := by
            simp only [runCalls, hcon]
          refine ⟨by rw [hrun]; exact iho, by rw [hrun]; exact ihs,
            fun acc => ?_⟩
          rw [hrun]
          show normA acc (Ev.data c true :: _) = _
          rw [normA_data_true]
          simp only [List.append_eq, List.nil_append]
          rw [ihn none]
          simp only [cfgFut]
          rw [hcw]
          simp [flushF]
        · -- the body is still incomplete afterwards
          have hlt : c.length < r.body.length - m := by omega
          rw [show decide (r.body.length - m = c.length) = false by
            simp
            omega] at hcon
          rw [show r.body.length - m - c.length =
            r.body.length - (m + c.length) by omega] at hcon
          have hok2 : cfgOK (.midBody r rs (m + c.length))
              (⟨[], r.body.length - (m + c.length)⟩ : PState) cs.flatten := by
            refine ⟨hwr, hwf, rfl, by omega, ?_⟩
            rw [hcs, htodo, drop_append_le _ _ _ (by simp; omega),
              List.drop_drop]
          obtain ⟨iho, ihs, ihn⟩ := ih (.midBody r rs (m + c.length)) _
            cs.flatten hok2 rfl
          have hrun : runCalls (⟨[], r.body.length - m⟩ : PState) (c :: cs) =
              ([Ev.data c false] ++
                (runCalls (⟨[], r.body.length - (m + c.length)⟩ : PState) cs).1,
                (runCalls (⟨[], r.body.length - (m + c.length)⟩ : PState)
                  cs).2) := by
            simp only [runCalls, hcon]
          refine ⟨by rw [hrun]; exact iho, by rw [hrun]; exact ihs,
            fun acc => ?_⟩
          rw [hrun]
          show normA acc (Ev.data c false :: _) = _
          rw [normA_data_false]
          simp only [List.append_eq, List.nil_append]
          rw [ihn]
          simp only [cfgFut]
          have hjoin : c ++ r.body.drop (m + c.length) = r.body.drop m := by
            rw [show r.body.drop (m + c.length) =
              (r.body.drop m).drop c.length by rw [List.drop_drop]]
            nth_rewrite 1 [hctake]
            exact List.take_append_drop _ _
          simp [← hjoin]
      · -- the chunk runs past this body into the next requests
        push_neg at hcle
        rw [if_neg (by omega)] at hcon
        have hctk : c.take (r.body.length - m) = r.body.drop m := by
          conv_lhs => rw [hcl]
          rw [htodo, List.take_take, Nat.min_eq_left (by omega),
            take_append_le _ _ _ (by simp), ← hwlen, List.take_length]
        have hcdr : c.drop (r.body.length - m) =
            (serStream rs).take (c.length - (r.body.length - m)) := by
          conv_lhs => rw [hcl]
          rw [htodo, take_append_ge _ _ _ (by simp; omega),
            drop_append_ge _ _ _ (by simp)]
          simp
        rw [hctk, hcdr] at hcon
        have hjd2 : c.length - (r.body.length - m) ≤ (serStream rs).length := by
          rw [htodo] at hclen
          simp at hclen
          omega
        have hcs2 : cs.flatten =
            (serStream rs).drop (c.length - (r.body.length - m)) := by
          rw [hcs, htodo, drop_append_ge _ _ _ (by simp; omega)]
          simp
        have hpre : ∀ (acc : Option (List Nat)) (T : List Ev),
            normA acc ([Ev.data (r.body.drop m) true] ++ T) =
              [Ev.data (acc.getD [] ++ r.body.drop m) true] ++ normA none T := by
          intro acc T
          show normA acc (Ev.data (r.body.drop m) true :: T) = _
          rw [normA_data_true]
          rfl
        have hstep := run_tail_step cs ih rs hwf
          (c.length - (r.body.length - m)) hjd2
          ⟨[], r.body.length - m⟩ c [Ev.data (r.body.drop m) true]
          (fun acc => [Ev.data (acc.getD [] ++ r.body.drop m) true])
          hcon hcs2 hpre
        refine ⟨hstep.1, hstep.2.1, fun acc => ?_⟩
        rw [hstep.2.2 acc]
        simp [cfgFut]

/-! ### Claim C3: counterexample, amended statement, witness -/

/-- A `content-length: 0` request (whole delivery emits the empty
end-of-body chunk, split delivery loses it — the C4 defect breaks split
invariance). -/
def c3cxinput : List Nat := strBytes "get / x\r\nhost: h\r\ncontent-length: 0\r\n\r\n"

/-- A 4081-byte request-target value, making the serialized head 4097
bytes — one byte over `MAX_FALLBACK_SIZE`. -/
def c3val : List Nat := 47 :: 32 :: List.replicate 4079 97

def c3es : List Header := [⟨strBytes "get", c3val⟩, ⟨strBytes "host", strBytes "h"⟩]

def c3bighead : List Nat := serHead c3es

lemma c3es_wf : ∀ e ∈ c3es, wfEntry e := by
  intro e he
  simp only [c3es, List.mem_cons, List.not_mem_nil, or_false] at he
  rcases he with rfl | rfl
  · have hget : strBytes "get" = [103, 101, 116] := by decide
    refine ⟨?_, ?_, ?_⟩
    · intro b hb
      simp only [hget] at hb
      simp at hb
      rcases hb with rfl | rfl | rfl <;> refine ⟨by omega, by omega, by omega⟩
    · intro b hb
      simp only [c3val, List.mem_cons, List.mem_replicate] at hb
      rcases hb with rfl | rfl | ⟨_, rfl⟩ <;> exact ⟨by omega, by omega⟩
    · intro b hb
      simp only [show c3val.take 1 = [47] from rfl] at hb
      simp at hb
      subst hb
      exact ⟨by omega, by omega⟩
  · decide

lemma c3bighead_len : c3bighead.length = 4097 := by
  have h3 : (strBytes "get").length = 3 := by decide
  have hv : c3val.length = 4081 := by
    rw [show c3val = 47 :: 32 :: List.replicate 4079 97 from rfl,
      List.length_cons, List.length_cons, List.length_replicate]
  have he1 : (serEntry ⟨strBytes "get", c3val⟩).length = 4087 := by
    rw [serEntry_length]
    simp only []
    omega
  have he2 : (serEntry ⟨strBytes "host", strBytes "h"⟩).length = 8 := by decide
  have hsh : c3bighead = serEntry ⟨strBytes "get", c3val⟩ ++
      (serEntry ⟨strBytes "host", strBytes "h"⟩ ++ [13, 10]) := by
    simp [c3bighead, serHead, c3es]
  rw [hsh]
  simp only [List.length_append, List.length_cons, List.length_nil]
  omega

/-- Whole delivery of the 4097-byte head: the request parses and the
handlers run. -/
lemma c3big_whole :
    runCalls initState [c3bighead] =
      ([Ev.req (c3es.map lowerEntry), Ev.data [] true], ⟨[], 0⟩, Outcome.ok) := by
  have hhost : getHeaderOpt (c3es.map lowerEntry) hostBytes ≠ none := by decide
  have hte : headerValOf (c3es.map lowerEntry) teBytes = [] := by decide
  have hcl : headerValOf (c3es.map lowerEntry) clBytes = [] := by decide
  have hg : getHeadersR c3bighead = some (c3es.map lowerEntry, []) := by
    have := getHeadersR_ser c3es [] c3es_wf (by simp [c3es]) (by simp [c3es])
      (by simp)
    rw [List.append_nil] at this
    exact this
  have hfence := fence_nobody_step 0 c3bighead _ [] hg hhost hte hcl
  rw [fence_nil] at hfence
  have hfence2 : fence false 0 c3bighead =
      ⟨[], false, [Ev.req (c3es.map lowerEntry), Ev.data [] true], 0⟩ := by
    simpa using hfence
  have hc : consumePostPadded initState c3bighead =
      ⟨.ok, [Ev.req (c3es.map lowerEntry), Ev.data [] true], ⟨[], 0⟩⟩ := by
    rw [consume_fresh]
    unfold mainPhase
    rw [hfence2]
    simp
  simp [runCalls, hc]

/-- Split delivery of the same head at the fallback cap: the first call
already raises `errorHandler`; no request or data handler ever runs. -/
lemma c3big_split :
    runCalls initState [c3bighead.take 4096, c3bighead.drop 4096] =
      ([Ev.errh], ⟨[], 0⟩, Outcome.errh) := by
  have hlt : (4096 : Nat) < (serHead c3es).length := by
    have := c3bighead_len
    simp only [c3bighead] at this
    omega
  have hpre : getHeadersR (c3bighead.take 4096) = none :=
    getHeadersR_pre c3es 4096 c3es_wf hlt
  have hlen2 : (c3bighead.take 4096).length = 4096 := by
    rw [List.length_take]
    have := c3bighead_len
    omega
  have hc1 : consumePostPadded initState (c3bighead.take 4096) =
      ⟨.errh, [Ev.errh], ⟨[], 0⟩⟩ := by
    rw [consume_fresh]
    unfold mainPhase
    rw [fence_of_gh_none false 0 _ hpre]
    simp only []
    rw [if_neg (by simp),
      if_neg (by intro h; rw [h] at hlen2; simp at hlen2),
      if_neg (by rw [hlen2]; unfold MAX_FALLBACK_SIZE; omega)]
    simp
  simp [runCalls, hc1]

/-- C3, counterexample: delivery is NOT split-invariant.  (a) The
`content-length: 0` request delivered whole produces
`[req, data [] true]`, but split inside its head produces only `[req]`
(the end-of-body chunk is lost) — different traces even after coalescing,
though both runs return `user`.  (b) A well-formed 4097-byte head parses
fine delivered whole, but split at 4096 bytes the first call raises
`errorHandler` (fallback buffer full) — outcomes `ok` vs `errh`. -/
theorem C3_cx_split_not_invariant :
    ((runCalls initState [c3cxinput]).2.2 = Outcome.ok ∧
      (runCalls initState [c3cxinput.take 10, c3cxinput.drop 10]).2.2 =
        Outcome.ok ∧
      normEvents (runCalls initState [c3cxinput]).1 ≠
        normEvents (runCalls initState [c3cxinput.take 10,
          c3cxinput.drop 10]).1) ∧
    ((runCalls initState [c3bighead]).2.2 = Outcome.ok ∧
      (runCalls initState [c3bighead.take 4096, c3bighead.drop 4096]).2.2 =
        Outcome.errh) := by
  refine ⟨⟨by decide, by decide, by decide⟩, ?_, ?_⟩
  · rw [c3big_whole]
  · rw [c3big_split]

/-- C3, amended: for every stream of well-formed pipelined requests
(host header present, no transfer-encoding, a content-length matching the
body exactly when it is nonempty, serialized head at most
`MAX_FALLBACK_SIZE` bytes), delivering the serialized stream in ANY
partition into consecutive chunks yields the same handler-invocation
sequence as delivering it in one call, once contiguous data chunks of one
body are coalesced — and the same final parser state and return token. -/
theorem C3_amended_split_invariance (rs : List Req) (hwf : ∀ r ∈ rs, wfReq r)
    (chunks : List (List Nat)) (hsplit : chunks.flatten = serStream rs) :
    normEvents (runCalls initState chunks).1 =
      normEvents (runCalls initState [serStream rs]).1 ∧
    (runCalls initState chunks).2 = (runCalls initState [serStream rs]).2 := by
  have h1 := run_master chunks (.bound rs) initState (serStream rs)
    ⟨hwf, rfl, rfl⟩ hsplit
  have h2 := run_master [serStream rs] (.bound rs) initState (serStream rs)
    ⟨hwf, rfl, rfl⟩ (by simp)
  refine ⟨?_, ?_⟩
  · unfold normEvents
    rw [h1.2.2 none, h2.2.2 none]
  · exact Prod.ext (h1.2.1.trans h2.2.1.symm) (h1.1.trans h2.1.symm)

def c3wr1 : Req :=
  ⟨[⟨strBytes "get", strBytes "/a x"⟩, ⟨strBytes "host", strBytes "h"⟩], []⟩

def c3wr2 : Req :=
  ⟨[⟨strBytes "post", strBytes "/b x"⟩, ⟨strBytes "host", strBytes "h"⟩,
    ⟨strBytes "content-length", strBytes "5"⟩], strBytes "hello"⟩

def c3wrs : List Req := [c3wr1, c3wr2]

def c3wchunks : List (List Nat) :=
  [(serStream c3wrs).take 7, ((serStream c3wrs).take 41).drop 7,
    (serStream c3wrs).drop 41]

/-- Witness for the amended C3: a two-request pipeline (one no-body, one
with a 5-byte body) delivered in three uneven chunks — one splitting a
head, one splitting the body — normalizes to the same trace as the whole
delivery, with the same final state and outcome. -/
theorem C3_witness :
    (∀ r ∈ c3wrs, wfReq r) ∧ c3wchunks.flatten = serStream c3wrs ∧
    (normEvents (runCalls initState c3wchunks).1 =
        normEvents (runCalls initState [serStream c3wrs]).1 ∧
      (runCalls initState c3wchunks).2 =
        (runCalls initState [serStream c3wrs]).2) :=
  ⟨by decide, by decide,
    C3_amended_split_invariance c3wrs (by decide) c3wchunks (by decide)⟩

def c7wes : List Header := ⟨strBytes "get", strBytes "/x"⟩ :: List.replicate 48 ⟨[97], [98]⟩

def c7wes51 : List Header := ⟨strBytes "get", strBytes "/x"⟩ :: List.replicate 50 ⟨[97], [98]⟩

set_option maxRecDepth 40000 in
/-- Witness for the amended C7: a 49-entry head parses to its entries, a
51-entry head is rejected. -/
theorem C7_witness :
    getHeadersR (serHead c7wes) = some (c7wes.map lowerEntry, []) ∧
      getHeadersR (serHead c7wes51) = none :=
  ⟨C7_max_49_entries.1 c7wes (by decide) (by decide) (by decide),
   C7_max_49_entries.2 c7wes51 (by decide) (by decide)⟩

end UWS
